import Mathlib

/-!
Verification of the waze routing server (C sources under src/).

The development shallowly embeds the C program:
* doubles become exact rationals `Q`; the sentinel `DBL_MAX` becomes the top
  element of `QInf := WithTop ℚ` (the code uses `DBL_MAX` purely as "+infinity",
  per the spec's numeric policy);
* the indexed binary min-heap of `min_heap.c` is modelled by a structure with
  explicit `arr`/`pos` lists and the same four operations;
* the graph store of `graph.c`, the EMA update of `server.c`, the A* engine of
  `routing.c` and the line dispatcher of `server.c` are modelled as pure
  functions over these structures.

Recursion that the C code performs with loops or recursion whose depth is
bounded by the heap size is modelled with explicit fuel; every call site
passes fuel that provably suffices, so the functions agree with the C loops.
-/

set_option maxHeartbeats 1000000

abbrev Q : Type := ℚ

/-- Model of a C `double` used as a distance: `⊤` stands for the `DBL_MAX`
sentinel ("infinity"), everything else is an exact rational. -/
abbrev QInf : Type := WithTop ℚ

namespace Waze

/-! ## min_heap.c : indexed binary min-heap

`MinHeap` mirrors the C struct: `capacity`, `size`, a `pos` side table of
length `capacity` mapping node ids to heap indices, and the entry array `arr`
of length `capacity` holding `(node_id, dist)` pairs in its first `size`
slots. -/

structure MinHeap where
  capacity : Nat
  size : Nat
  pos : List Nat
  arr : List (Nat × QInf)
  deriving Repr, DecidableEq

/-- `minHeap->array[i]` (out-of-range reads return a junk entry; all verified
uses are in range). -/
def arrGet (h : MinHeap) (i : Nat) : Nat × QInf :=
  (h.arr[i]?).getD (0, ⊤)

/-- `minHeap->pos[v]`. -/
def posGet (h : MinHeap) (v : Nat) : Nat :=
  (h.pos[v]?).getD 0

/-- `isEmpty` from min_heap.c. -/
def isEmpty (h : MinHeap) : Bool :=
  h.size = 0

/-- `isInMinHeap` from min_heap.c: `pos[node_id] < size`. -/
def isInMinHeap (h : MinHeap) (v : Nat) : Bool :=
  posGet h v < h.size

/-- The key currently stored for node `v` (the `dist` of `array[pos[v]]`). -/
def keyOf (h : MinHeap) (v : Nat) : QInf :=
  (arrGet h (posGet h v)).2

/-- The swap performed by both `minHeapify` and `decreaseKey`: exchange the
entries at heap indices `i` and `j` and update `pos` for both node ids, in
the same order as the C code (first `pos[arr[i].id] := j`, then
`pos[arr[j].id] := i`, then the array swap). -/
def heapSwap (h : MinHeap) (i j : Nat) : MinHeap :=
  { h with
    pos := (h.pos.set (arrGet h i).1 j).set (arrGet h j).1 i,
    arr := (h.arr.set i (arrGet h j)).set j (arrGet h i) }

/-- The `smallest` computation at the head of `minHeapify`: compare `idx`
with its left child, then with its right child, exactly as in the C code. -/
def smallestIdx (h : MinHeap) (idx : Nat) : Nat :=
  let l := 2 * idx + 1
  let r := 2 * idx + 2
  let s1 := if l < h.size ∧ (arrGet h l).2 < (arrGet h idx).2 then l else idx
  if r < h.size ∧ (arrGet h r).2 < (arrGet h s1).2 then r else s1

/-- `minHeapify` from min_heap.c.  The C function recurses on a child index;
the recursion depth is bounded by `size`, so `fuel := size` at every call
site makes the model agree with the C code. -/
def minHeapify (h : MinHeap) (idx : Nat) : Nat → MinHeap
  | 0 => h
  | fuel + 1 =>
    let s2 := smallestIdx h idx
    if s2 = idx then h
    else minHeapify (heapSwap h s2 idx) s2 fuel

/-- `extractMin` from min_heap.c, on a non-empty heap: returns the root entry
and the shrunken heap.  (The C function returns NULL on an empty heap; the
A* loop guards every call with `isEmpty`, and so do we.) -/
def extractMin (h : MinHeap) : (Nat × QInf) × MinHeap :=
  let root := arrGet h 0
  let last := arrGet h (h.size - 1)
  let h1 : MinHeap :=
    { h with
      arr := h.arr.set 0 last,
      pos := (h.pos.set root.1 (h.size - 1)).set last.1 0,
      size := h.size - 1 }
  (root, minHeapify h1 0 h1.size)

/-- The sift-up loop inside `decreaseKey`.  `i` strictly decreases, so
`fuel := i + 1` always suffices. -/
def siftUp (h : MinHeap) (i : Nat) : Nat → MinHeap
  | 0 => h
  | fuel + 1 =>
    if 0 < i ∧ (arrGet h i).2 < (arrGet h ((i - 1) / 2)).2 then
      siftUp (heapSwap h i ((i - 1) / 2)) ((i - 1) / 2) fuel
    else h

/-- `decreaseKey` from min_heap.c: overwrite the key of `array[pos[v]]` and
sift it up. -/
def decreaseKey (h : MinHeap) (v : Nat) (k : QInf) : MinHeap :=
  let i := posGet h v
  let h1 : MinHeap := { h with arr := h.arr.set i ((arrGet h i).1, k) }
  siftUp h1 i (i + 1)

/-! ### Heap validity (the invariant of claim C10) -/

/-- The structural half of heap validity: `size ≤ capacity`, the two backing
arrays really have `capacity` slots, stored node ids index into `pos`, and
`pos[array[i].node_id] = i` for every live index. -/
structure HeapCore (h : MinHeap) : Prop where
  arr_len : h.arr.length = h.capacity
  pos_len : h.pos.length = h.capacity
  size_le : h.size ≤ h.capacity
  id_lt : ∀ i, i < h.size → (arrGet h i).1 < h.capacity
  pos_eq : ∀ i, i < h.size → posGet h (arrGet h i).1 = i

/-- Heap validity as in claim C10: the structural part plus the binary-heap
order `array[(i-1)/2].dist ≤ array[i].dist` on the live prefix. -/
structure HeapValid (h : MinHeap) extends HeapCore h : Prop where
  ord : ∀ i, 0 < i → i < h.size → (arrGet h ((i - 1) / 2)).2 ≤ (arrGet h i).2

/-- The side table is faithful: any id whose `pos` entry points into the live
prefix really owns that entry.  The A* engine's heap states all satisfy this;
it is not needed for plain validity preservation. -/
def PosFaithful (h : MinHeap) : Prop :=
  ∀ v, v < h.capacity → posGet h v < h.size → (arrGet h (posGet h v)).1 = v

/-- Node `v` is in the heap (`isInMinHeap` holds and `v` indexes `pos`). -/
def Mem (h : MinHeap) (v : Nat) : Prop :=
  v < h.capacity ∧ posGet h v < h.size

theorem isInMinHeap_iff_mem {h : MinHeap} {v : Nat} (hv : v < h.capacity) :
    isInMinHeap h v = true ↔ Mem h v := by
  simp [isInMinHeap, Mem, hv]

/-! ### Basic index bookkeeping for the heap operations -/

theorem id_inj {h : MinHeap} (core : HeapCore h) {a b : Nat}
    (ha : a < h.size) (hb : b < h.size)
    (hab : (arrGet h a).1 = (arrGet h b).1) : a = b := by
  rw [← core.pos_eq a ha, ← core.pos_eq b hb, hab]

theorem heapSwap_size (h : MinHeap) (i j : Nat) : (heapSwap h i j).size = h.size := rfl

theorem heapSwap_capacity (h : MinHeap) (i j : Nat) :
    (heapSwap h i j).capacity = h.capacity := rfl

theorem heapSwap_arr_length (h : MinHeap) (i j : Nat) :
    (heapSwap h i j).arr.length = h.arr.length := by
  simp [heapSwap]

theorem heapSwap_pos_length (h : MinHeap) (i j : Nat) :
    (heapSwap h i j).pos.length = h.pos.length := by
  simp [heapSwap]

theorem arrGet_heapSwap {h : MinHeap} {i j : Nat} (hi : i < h.arr.length)
    (hj : j < h.arr.length) (k : Nat) :
    arrGet (heapSwap h i j) k =
      if k = j then arrGet h i else if k = i then arrGet h j else arrGet h k := by
  unfold arrGet heapSwap
  simp only
  by_cases hkj : k = j
  · subst hkj
    rw [List.getElem?_set_self (by simpa using hj)]
    simp [arrGet]
  · rw [List.getElem?_set_ne (Ne.symm hkj)]
    by_cases hki : k = i
    · subst hki
      rw [List.getElem?_set_self hi]
      simp [arrGet, hkj]
    · rw [List.getElem?_set_ne (Ne.symm hki)]
      simp [arrGet, hkj, hki]

theorem posGet_heapSwap {h : MinHeap} {i j : Nat} (core : HeapCore h)
    (hi : i < h.size) (hj : j < h.size) (v : Nat) :
    posGet (heapSwap h i j) v =
      if v = (arrGet h j).1 then i else if v = (arrGet h i).1 then j else posGet h v := by
  have hja : (arrGet h j).1 < h.pos.length := core.pos_len ▸ core.id_lt j hj
  have hia : (arrGet h i).1 < h.pos.length := core.pos_len ▸ core.id_lt i hi
  unfold posGet heapSwap
  simp only
  by_cases hvj : v = (arrGet h j).1
  · subst hvj
    rw [List.getElem?_set_self (by simpa using hja)]
    simp [posGet]
  · rw [List.getElem?_set_ne (Ne.symm hvj)]
    by_cases hvi : v = (arrGet h i).1
    · subst hvi
      rw [List.getElem?_set_self hia]
      simp [posGet, hvj]
    · rw [List.getElem?_set_ne (Ne.symm hvi)]
      simp [posGet, hvj, hvi]

theorem heapSwap_core {h : MinHeap} {i j : Nat} (core : HeapCore h)
    (hi : i < h.size) (hj : j < h.size) : HeapCore (heapSwap h i j) := by
  have hi' : i < h.arr.length := by rw [core.arr_len]; exact lt_of_lt_of_le hi core.size_le
  have hj' : j < h.arr.length := by rw [core.arr_len]; exact lt_of_lt_of_le hj core.size_le
  refine ⟨?_, ?_, ?_, ?_, ?_⟩
  · rw [heapSwap_arr_length, heapSwap_capacity, core.arr_len]
  · rw [heapSwap_pos_length, heapSwap_capacity, core.pos_len]
  · rw [heapSwap_size, heapSwap_capacity]; exact core.size_le
  · intro k hk
    rw [heapSwap_size] at hk
    rw [heapSwap_capacity, arrGet_heapSwap hi' hj']
    split_ifs with h1 h2
    · exact core.id_lt i hi
    · exact core.id_lt j hj
    · exact core.id_lt k hk
  · intro k hk
    rw [heapSwap_size] at hk
    rw [arrGet_heapSwap hi' hj', posGet_heapSwap core hi hj]
    by_cases hkj : k = j
    · rw [if_pos hkj]
      by_cases hij : (arrGet h i).1 = (arrGet h j).1
      · rw [if_pos hij, hkj]
        exact id_inj core hi hj hij
      · rw [if_neg hij, if_pos rfl, hkj]
    · rw [if_neg hkj]
      by_cases hki : k = i
      · rw [if_pos hki, if_pos rfl, hki]
      · rw [if_neg hki]
        have h1 : (arrGet h k).1 ≠ (arrGet h j).1 := fun hh => hkj (id_inj core hk hj hh)
        have h2 : (arrGet h k).1 ≠ (arrGet h i).1 := fun hh => hki (id_inj core hk hi hh)
        rw [if_neg h1, if_neg h2]
        exact core.pos_eq k hk

theorem heapSwap_posFaithful {h : MinHeap} {i j : Nat} (core : HeapCore h)
    (hf : PosFaithful h) (hi : i < h.size) (hj : j < h.size) :
    PosFaithful (heapSwap h i j) := by
  intro v hv hvs
  have hi' : i < h.arr.length := by rw [core.arr_len]; exact lt_of_lt_of_le hi core.size_le
  have hj' : j < h.arr.length := by rw [core.arr_len]; exact lt_of_lt_of_le hj core.size_le
  rw [heapSwap_capacity] at hv
  rw [heapSwap_size] at hvs
  by_cases hvj : v = (arrGet h j).1
  · have hp : posGet (heapSwap h i j) v = i := by
      rw [posGet_heapSwap core hi hj, if_pos hvj]
    rw [hp, arrGet_heapSwap hi' hj' i]
    by_cases hij : i = j
    · rw [if_pos hij, hij]
      exact hvj.symm
    · rw [if_neg hij, if_pos rfl]
      exact hvj.symm
  · by_cases hvi : v = (arrGet h i).1
    · have hp : posGet (heapSwap h i j) v = j := by
        rw [posGet_heapSwap core hi hj, if_neg hvj, if_pos hvi]
      rw [hp, arrGet_heapSwap hi' hj' j, if_pos rfl]
      exact hvi.symm
    · have hp : posGet (heapSwap h i j) v = posGet h v := by
        rw [posGet_heapSwap core hi hj, if_neg hvj, if_neg hvi]
      rw [hp] at hvs
      have hfv := hf v hv hvs
      have h1 : posGet h v ≠ j := fun hh => hvj (by rw [← hfv, hh])
      have h2 : posGet h v ≠ i := fun hh => hvi (by rw [← hfv, hh])
      rw [hp, arrGet_heapSwap hi' hj' (posGet h v), if_neg h1, if_neg h2]
      exact hfv

/-- Membership is invariant under a swap of two live entries. -/
theorem heapSwap_mem {h : MinHeap} {i j : Nat} (core : HeapCore h)
    (hi : i < h.size) (hj : j < h.size) (v : Nat) :
    Mem (heapSwap h i j) v ↔ Mem h v := by
  unfold Mem
  rw [heapSwap_capacity, heapSwap_size, posGet_heapSwap core hi hj]
  by_cases hvj : v = (arrGet h j).1
  · rw [if_pos hvj]
    constructor
    · rintro ⟨hv, _⟩
      exact ⟨hv, by rw [hvj, core.pos_eq j hj]; exact hj⟩
    · rintro ⟨hv, _⟩
      exact ⟨hv, hi⟩
  · rw [if_neg hvj]
    by_cases hvi : v = (arrGet h i).1
    · rw [if_pos hvi]
      constructor
      · rintro ⟨hv, _⟩
        exact ⟨hv, by rw [hvi, core.pos_eq i hi]; exact hi⟩
      · rintro ⟨hv, _⟩
        exact ⟨hv, hj⟩
    · rw [if_neg hvi]

/-- Keys of members are invariant under a swap of two live entries. -/
theorem heapSwap_keyOf {h : MinHeap} {i j : Nat} (core : HeapCore h)
    (hf : PosFaithful h) (hi : i < h.size) (hj : j < h.size) {v : Nat}
    (hv : Mem h v) : keyOf (heapSwap h i j) v = keyOf h v := by
  have hi' : i < h.arr.length := by rw [core.arr_len]; exact lt_of_lt_of_le hi core.size_le
  have hj' : j < h.arr.length := by rw [core.arr_len]; exact lt_of_lt_of_le hj core.size_le
  unfold keyOf
  rw [posGet_heapSwap core hi hj]
  by_cases hvj : v = (arrGet h j).1
  · rw [if_pos hvj, arrGet_heapSwap hi' hj' i]
    have hpv : posGet h v = j := by rw [hvj, core.pos_eq j hj]
    rw [hpv]
    by_cases hij : i = j
    · rw [if_pos hij, hij]
    · rw [if_neg hij, if_pos rfl]
  · rw [if_neg hvj]
    by_cases hvi : v = (arrGet h i).1
    · rw [if_pos hvi, arrGet_heapSwap hi' hj' j, if_pos rfl]
      have hpv : posGet h v = i := by rw [hvi, core.pos_eq i hi]
      rw [hpv]
    · rw [if_neg hvi, arrGet_heapSwap hi' hj' (posGet h v)]
      have hfv := hf v hv.1 hv.2
      have h1 : posGet h v ≠ j := fun hh => hvj (by rw [← hfv, hh])
      have h2 : posGet h v ≠ i := fun hh => hvi (by rw [← hfv, hh])
      rw [if_neg h1, if_neg h2]

/-! ### `minHeapify` restores the heap order -/

theorem smallestIdx_cases (h : MinHeap) (idx : Nat) :
    smallestIdx h idx = idx ∨
      (idx < smallestIdx h idx ∧ smallestIdx h idx < h.size ∧
        (smallestIdx h idx - 1) / 2 = idx ∧
        (arrGet h (smallestIdx h idx)).2 < (arrGet h idx).2 ∧
        (2 * idx + 1 < h.size →
          (arrGet h (smallestIdx h idx)).2 ≤ (arrGet h (2 * idx + 1)).2) ∧
        (2 * idx + 2 < h.size →
          (arrGet h (smallestIdx h idx)).2 ≤ (arrGet h (2 * idx + 2)).2)) := by
  unfold smallestIdx
  simp only
  by_cases hl : 2 * idx + 1 < h.size ∧ (arrGet h (2 * idx + 1)).2 < (arrGet h idx).2
  · rw [if_pos hl]
    by_cases hr : 2 * idx + 2 < h.size ∧
        (arrGet h (2 * idx + 2)).2 < (arrGet h (2 * idx + 1)).2
    · rw [if_pos hr]
      exact Or.inr ⟨by omega, hr.1, by omega, lt_trans hr.2 hl.2,
        fun _ => le_of_lt hr.2, fun _ => le_refl _⟩
    · rw [if_neg hr]
      refine Or.inr ⟨by omega, hl.1, by omega, hl.2, fun _ => le_refl _, fun hrs => ?_⟩
      exact le_of_not_lt fun hlt => hr ⟨hrs, hlt⟩
  · rw [if_neg hl]
    by_cases hr : 2 * idx + 2 < h.size ∧ (arrGet h (2 * idx + 2)).2 < (arrGet h idx).2
    · rw [if_pos hr]
      refine Or.inr ⟨by omega, hr.1, by omega, hr.2, fun hls => ?_, fun _ => le_refl _⟩
      have hnl : ¬(arrGet h (2 * idx + 1)).2 < (arrGet h idx).2 := fun hh => hl ⟨hls, hh⟩
      exact le_trans (le_of_lt hr.2) (le_of_not_lt hnl)
    · rw [if_neg hr]
      exact Or.inl rfl

theorem smallestIdx_eq_self {h : MinHeap} {idx : Nat} (hs : smallestIdx h idx = idx) :
    (2 * idx + 1 < h.size → (arrGet h idx).2 ≤ (arrGet h (2 * idx + 1)).2) ∧
    (2 * idx + 2 < h.size → (arrGet h idx).2 ≤ (arrGet h (2 * idx + 2)).2) := by
  unfold smallestIdx at hs
  simp only at hs
  by_cases hl : 2 * idx + 1 < h.size ∧ (arrGet h (2 * idx + 1)).2 < (arrGet h idx).2
  · rw [if_pos hl] at hs
    by_cases hr : 2 * idx + 2 < h.size ∧
        (arrGet h (2 * idx + 2)).2 < (arrGet h (2 * idx + 1)).2
    · rw [if_pos hr] at hs
      omega
    · rw [if_neg hr] at hs
      omega
  · rw [if_neg hl] at hs
    by_cases hr : 2 * idx + 2 < h.size ∧ (arrGet h (2 * idx + 2)).2 < (arrGet h idx).2
    · rw [if_pos hr] at hs
      omega
    · rw [if_neg hr] at hs
      constructor
      · intro hls
        exact le_of_not_lt fun hh => hl ⟨hls, hh⟩
      · intro hrs
        exact le_of_not_lt fun hh => hr ⟨hrs, hh⟩

/-- Heap order everywhere except possibly between `idx` and its children,
where instead `idx`'s parent (if any) already bounds `idx`'s children. -/
def OrdExceptAt (h : MinHeap) (idx : Nat) : Prop :=
  (∀ i, 0 < i → i < h.size → (i - 1) / 2 ≠ idx →
    (arrGet h ((i - 1) / 2)).2 ≤ (arrGet h i).2) ∧
  (∀ i, 0 < i → i < h.size → (i - 1) / 2 = idx → 0 < idx →
    (arrGet h ((idx - 1) / 2)).2 ≤ (arrGet h i).2)

/-- What a sift (down or up) does to a heap: restores validity and order,
preserves sizes, membership and keys, and leaves the `pos` entries of ids
that are not in the live prefix untouched. -/
structure SiftResult (h h' : MinHeap) : Prop where
  core : HeapCore h'
  ord : ∀ i, 0 < i → i < h'.size → (arrGet h' ((i - 1) / 2)).2 ≤ (arrGet h' i).2
  size_eq : h'.size = h.size
  cap_eq : h'.capacity = h.capacity
  pos_frame : ∀ v, (∀ i, i < h.size → (arrGet h i).1 ≠ v) → posGet h' v = posGet h v
  mem_iff : ∀ v, Mem h' v ↔ Mem h v
  faithful : PosFaithful h → PosFaithful h'
  key_frame : PosFaithful h → ∀ v, Mem h v → keyOf h' v = keyOf h v

theorem siftResult_id {h : MinHeap} (core : HeapCore h)
    (hord : ∀ i, 0 < i → i < h.size → (arrGet h ((i - 1) / 2)).2 ≤ (arrGet h i).2) :
    SiftResult h h :=
  ⟨core, hord, rfl, rfl, fun _ _ => rfl, fun _ => Iff.rfl, fun hf => hf,
    fun _ _ _ => rfl⟩

theorem minHeapify_spec :
    ∀ (fuel : Nat) (h : MinHeap) (idx : Nat), HeapCore h → OrdExceptAt h idx →
      h.size ≤ idx + fuel → SiftResult h (minHeapify h idx fuel) := by
  intro fuel
  induction fuel with
  | zero =>
    intro h idx core halm hfuel
    have hord : ∀ i, 0 < i → i < h.size → (arrGet h ((i - 1) / 2)).2 ≤ (arrGet h i).2 := by
      intro i hi his
      by_cases hp : (i - 1) / 2 = idx
      · omega
      · exact halm.1 i hi his hp
    exact siftResult_id core hord
  | succ fuel ih =>
    intro h idx core halm hfuel
    rcases smallestIdx_cases h idx with hs | ⟨hlt, hsz, hchild, hmin, hminl, hminr⟩
    · have hse := smallestIdx_eq_self hs
      have hord : ∀ i, 0 < i → i < h.size →
          (arrGet h ((i - 1) / 2)).2 ≤ (arrGet h i).2 := by
        intro i hi his
        by_cases hp : (i - 1) / 2 = idx
        · have hii : i = 2 * idx + 1 ∨ i = 2 * idx + 2 := by omega
          rw [hp]
          rcases hii with rfl | rfl
          · exact hse.1 his
          · exact hse.2 his
        · exact halm.1 i hi his hp
      simp only [minHeapify, hs, if_pos rfl]
      exact siftResult_id core hord
    · have hne : smallestIdx h idx ≠ idx := by omega
      have hidxsz : idx < h.size := lt_trans hlt hsz
      set s := smallestIdx h idx with hsdef
      have hs_arr : s < h.arr.length := by
        rw [core.arr_len]; exact lt_of_lt_of_le hsz core.size_le
      have hidx_arr : idx < h.arr.length := by
        rw [core.arr_len]; exact lt_of_lt_of_le hidxsz core.size_le
      have harr : ∀ k, arrGet (heapSwap h s idx) k =
          if k = idx then arrGet h s else if k = s then arrGet h idx else arrGet h k :=
        arrGet_heapSwap hs_arr hidx_arr
      have core_sw : HeapCore (heapSwap h s idx) := heapSwap_core core hsz hidxsz
      have halm_sw : OrdExceptAt (heapSwap h s idx) s := by
        constructor
        · intro i hi his hp
          rw [heapSwap_size] at his
          rw [harr, harr]
          by_cases hpidx : (i - 1) / 2 = idx
          · rw [if_pos hpidx]
            have hiidx : i ≠ idx := by omega
            rw [if_neg hiidx]
            by_cases his' : i = s
            · rw [if_pos his']
              exact le_of_lt hmin
            · rw [if_neg his']
              have hii : i = 2 * idx + 1 ∨ i = 2 * idx + 2 := by omega
              rcases hii with rfl | rfl
              · exact hminl his
              · exact hminr his
          · rw [if_neg hpidx, if_neg hp]
            by_cases hiidx : i = idx
            · rw [if_pos hiidx]
              have h2 := halm.2 s (by omega) hsz hchild (by omega)
              rw [hiidx]
              exact h2
            · by_cases his' : i = s
              · exact absurd (by omega : (i - 1) / 2 = idx) hpidx
              · rw [if_neg hiidx, if_neg his']
                exact halm.1 i hi his hpidx
        · intro i hi his hp hspos
          rw [heapSwap_size] at his
          rw [harr, harr, if_pos hchild]
          have hiidx : i ≠ idx := by omega
          have his' : i ≠ s := by omega
          rw [if_neg hiidx, if_neg his']
          have hh := halm.1 i hi his (by rw [hp]; exact hne)
          rw [hp] at hh
          exact hh
      have res := ih (heapSwap h s idx) s core_sw halm_sw (by rw [heapSwap_size]; omega)
      have hgoal : minHeapify h idx (fuel + 1) = minHeapify (heapSwap h s idx) s fuel := by
        simp only [minHeapify, ← hsdef, if_neg hne]
      rw [hgoal]
      refine ⟨res.core, res.ord, ?_, ?_, ?_, ?_, ?_, ?_⟩
      · rw [res.size_eq, heapSwap_size]
      · rw [res.cap_eq, heapSwap_capacity]
      · intro v hv
        have hv' : ∀ i, i < (heapSwap h s idx).size →
            (arrGet (heapSwap h s idx) i).1 ≠ v := by
          intro i hi
          rw [heapSwap_size] at hi
          rw [harr]
          split_ifs with h1 h2
          · exact hv s hsz
          · exact hv idx hidxsz
          · exact hv i hi
        rw [res.pos_frame v hv', posGet_heapSwap core hsz hidxsz,
          if_neg (fun hh => hv idx hidxsz hh.symm), if_neg (fun hh => hv s hsz hh.symm)]
      · intro v
        rw [res.mem_iff, heapSwap_mem core hsz hidxsz]
      · intro hf
        exact res.faithful (heapSwap_posFaithful core hf hsz hidxsz)
      · intro hf v hv
        have hf_sw := heapSwap_posFaithful core hf hsz hidxsz
        have hv_sw : Mem (heapSwap h s idx) v := (heapSwap_mem core hsz hidxsz v).mpr hv
        rw [res.key_frame hf_sw v hv_sw, heapSwap_keyOf core hf hsz hidxsz hv]

/-! ### `siftUp` (the loop of `decreaseKey`) restores the heap order -/

/-- Heap order everywhere except possibly between `i` and its parent, where
instead `i`'s grandparent (if any) already bounds `i`'s children. -/
def OrdExceptUp (h : MinHeap) (i : Nat) : Prop :=
  (∀ j, 0 < j → j < h.size → j ≠ i → (arrGet h ((j - 1) / 2)).2 ≤ (arrGet h j).2) ∧
  (0 < i → ∀ j, 0 < j → j < h.size → (j - 1) / 2 = i →
    (arrGet h ((i - 1) / 2)).2 ≤ (arrGet h j).2)

theorem siftUp_spec :
    ∀ (fuel : Nat) (h : MinHeap) (i : Nat), HeapCore h → OrdExceptUp h i →
      i < h.size → i < fuel → SiftResult h (siftUp h i fuel) := by
  intro fuel
  induction fuel with
  | zero =>
    intro h i _ _ _ hflt
    exact absurd hflt (Nat.not_lt_zero i)
  | succ fuel ih =>
    intro h i core halm his hflt
    by_cases hcond : 0 < i ∧ (arrGet h i).2 < (arrGet h ((i - 1) / 2)).2
    · have hp_lt : (i - 1) / 2 < i := by omega
      have hp_sz : (i - 1) / 2 < h.size := lt_trans hp_lt his
      have hi_arr : i < h.arr.length := by
        rw [core.arr_len]; exact lt_of_lt_of_le his core.size_le
      have hp_arr : (i - 1) / 2 < h.arr.length := by
        rw [core.arr_len]; exact lt_of_lt_of_le hp_sz core.size_le
      have harr : ∀ k, arrGet (heapSwap h i ((i - 1) / 2)) k =
          if k = (i - 1) / 2 then arrGet h i
          else if k = i then arrGet h ((i - 1) / 2) else arrGet h k :=
        arrGet_heapSwap hi_arr hp_arr
      have core_sw : HeapCore (heapSwap h i ((i - 1) / 2)) := heapSwap_core core his hp_sz
      have halm_sw : OrdExceptUp (heapSwap h i ((i - 1) / 2)) ((i - 1) / 2) := by
        constructor
        · intro j hj hjs hjp
          rw [heapSwap_size] at hjs
          rw [harr, harr]
          by_cases hji : j = i
          · rw [if_neg (by omega : j ≠ (i - 1) / 2), if_pos hji,
              if_pos (by rw [hji] : (j - 1) / 2 = (i - 1) / 2)]
            exact le_of_lt hcond.2
          · by_cases hpj_p : (j - 1) / 2 = (i - 1) / 2
            · rw [if_pos hpj_p, if_neg hjp, if_neg hji]
              have hold := halm.1 j hj hjs hji
              rw [hpj_p] at hold
              exact le_trans (le_of_lt hcond.2) hold
            · by_cases hpj_i : (j - 1) / 2 = i
              · rw [if_neg hpj_p, if_pos hpj_i, if_neg hjp, if_neg hji]
                exact halm.2 hcond.1 j hj hjs hpj_i
              · rw [if_neg hpj_p, if_neg hpj_i, if_neg hjp, if_neg hji]
                exact halm.1 j hj hjs hji
        · intro hppos j hj hjs hjp
          rw [heapSwap_size] at hjs
          rw [harr, harr]
          have hgp_p : ((i - 1) / 2 - 1) / 2 ≠ (i - 1) / 2 := by omega
          have hgp_i : ((i - 1) / 2 - 1) / 2 ≠ i := by omega
          rw [if_neg hgp_p, if_neg hgp_i]
          have holdp := halm.1 ((i - 1) / 2) hppos hp_sz (by omega)
          by_cases hji : j = i
          · rw [if_neg (by omega : j ≠ (i - 1) / 2), if_pos hji]
            exact holdp
          · rw [if_neg (by omega : j ≠ (i - 1) / 2), if_neg hji]
            have holdj := halm.1 j hj hjs hji
            rw [hjp] at holdj
            exact le_trans holdp holdj
      have res := ih (heapSwap h i ((i - 1) / 2)) ((i - 1) / 2) core_sw halm_sw
        (by rw [heapSwap_size]; exact hp_sz) (by omega)
      have hgoal : siftUp h i (fuel + 1) = siftUp (heapSwap h i ((i - 1) / 2)) ((i - 1) / 2) fuel := by
        simp only [siftUp, if_pos hcond]
      rw [hgoal]
      refine ⟨res.core, res.ord, ?_, ?_, ?_, ?_, ?_, ?_⟩
      · rw [res.size_eq, heapSwap_size]
      · rw [res.cap_eq, heapSwap_capacity]
      · intro v hv
        have hv' : ∀ k, k < (heapSwap h i ((i - 1) / 2)).size →
            (arrGet (heapSwap h i ((i - 1) / 2)) k).1 ≠ v := by
          intro k hk
          rw [heapSwap_size] at hk
          rw [harr]
          split_ifs with h1 h2
          · exact hv i his
          · exact hv ((i - 1) / 2) hp_sz
          · exact hv k hk
        rw [res.pos_frame v hv', posGet_heapSwap core his hp_sz,
          if_neg (fun hh => hv ((i - 1) / 2) hp_sz hh.symm),
          if_neg (fun hh => hv i his hh.symm)]
      · intro v
        rw [res.mem_iff, heapSwap_mem core his hp_sz]
      · intro hf
        exact res.faithful (heapSwap_posFaithful core hf his hp_sz)
      · intro hf v hv
        have hf_sw := heapSwap_posFaithful core hf his hp_sz
        have hv_sw : Mem (heapSwap h i ((i - 1) / 2)) v :=
          (heapSwap_mem core his hp_sz v).mpr hv
        rw [res.key_frame hf_sw v hv_sw, heapSwap_keyOf core hf his hp_sz hv]
    · have hord : ∀ j, 0 < j → j < h.size →
          (arrGet h ((j - 1) / 2)).2 ≤ (arrGet h j).2 := by
        intro j hj hjs
        by_cases hji : j = i
        · rw [hji]
          have hnl : ¬(arrGet h i).2 < (arrGet h ((i - 1) / 2)).2 := fun hh =>
            hcond ⟨by omega, hh⟩
          exact le_of_not_lt hnl
        · exact halm.1 j hj hjs hji
      simp only [siftUp, if_neg hcond]
      exact siftResult_id core hord

/-! ### Specifications of `extractMin` and `decreaseKey` -/

/-- In a valid heap the root key is minimal on the live prefix. -/
theorem arrGet_zero_min {h : MinHeap} (hv : HeapValid h) :
    ∀ i, i < h.size → (arrGet h 0).2 ≤ (arrGet h i).2 := by
  intro i
  induction i using Nat.strong_induction_on with
  | _ i ih =>
    intro his
    rcases Nat.eq_zero_or_pos i with rfl | hi
    · exact le_refl _
    · exact le_trans (ih ((i - 1) / 2) (by omega) (by omega)) (hv.ord i hi his)

/-- The root key bounds the key of every heap member. -/
theorem extractMin_min {h : MinHeap} (hv : HeapValid h) {v : Nat} (hm : Mem h v) :
    ((extractMin h).1).2 ≤ keyOf h v :=
  arrGet_zero_min hv (posGet h v) hm.2

theorem extractMin_fst (h : MinHeap) : (extractMin h).1 = arrGet h 0 := rfl

/-- Everything claim C10 and the A* engine need to know about `extractMin`
on a valid non-empty heap. -/
theorem extractMin_spec {h : MinHeap} (hv : HeapValid h) (hne : 0 < h.size) :
    HeapValid (extractMin h).2 ∧
    (extractMin h).2.size = h.size - 1 ∧
    (extractMin h).2.capacity = h.capacity ∧
    posGet (extractMin h).2 (arrGet h 0).1 = h.size - 1 ∧
    ¬Mem (extractMin h).2 (arrGet h 0).1 ∧
    (PosFaithful h →
      PosFaithful (extractMin h).2 ∧
      (∀ v, v ≠ (arrGet h 0).1 → (Mem (extractMin h).2 v ↔ Mem h v)) ∧
      (∀ v, v ≠ (arrGet h 0).1 → Mem h v → keyOf (extractMin h).2 v = keyOf h v)) := by
  have core := hv.toHeapCore
  have hlast_sz : h.size - 1 < h.size := by omega
  have hszcap := core.size_le
  have hlen0 : 0 < h.arr.length := by rw [core.arr_len]; omega
  have hroot_cap : (arrGet h 0).1 < h.capacity := core.id_lt 0 hne
  have hlast_cap : (arrGet h (h.size - 1)).1 < h.capacity := core.id_lt _ hlast_sz
  set root := arrGet h 0 with hroot
  set last := arrGet h (h.size - 1) with hlast
  set h1 : MinHeap :=
    { h with
      arr := h.arr.set 0 last,
      pos := (h.pos.set root.1 (h.size - 1)).set last.1 0,
      size := h.size - 1 } with hh1
  have hext : extractMin h = (root, minHeapify h1 0 h1.size) := rfl
  have h1size : h1.size = h.size - 1 := rfl
  have h1cap : h1.capacity = h.capacity := rfl
  have harr1 : ∀ k, arrGet h1 k = if k = 0 then last else arrGet h k := by
    intro k
    show ((h.arr.set 0 last)[k]?).getD (0, ⊤) = _
    by_cases hk : k = 0
    · subst hk
      rw [List.getElem?_set_self hlen0]
      simp
    · rw [List.getElem?_set_ne (Ne.symm hk), if_neg hk]
      rfl
  have hpos1 : ∀ v, posGet h1 v =
      if v = last.1 then 0 else if v = root.1 then h.size - 1 else posGet h v := by
    intro v
    show (((h.pos.set root.1 (h.size - 1)).set last.1 0)[v]?).getD 0 = _
    by_cases hvl : v = last.1
    · subst hvl
      rw [List.getElem?_set_self (by rw [List.length_set, core.pos_len]; exact hlast_cap)]
      simp
    · rw [List.getElem?_set_ne (Ne.symm hvl), if_neg hvl]
      by_cases hvr : v = root.1
      · subst hvr
        rw [List.getElem?_set_self (by rw [core.pos_len]; exact hroot_cap)]
        simp
      · rw [List.getElem?_set_ne (Ne.symm hvr), if_neg hvr]
        rfl
  have hroot_last : root.1 = last.1 → h.size = 1 := by
    intro hh
    have := id_inj core hne hlast_sz hh
    omega
  have core1 : HeapCore h1 := by
    refine ⟨?_, ?_, ?_, ?_, ?_⟩
    · show (h.arr.set 0 last).length = h.capacity
      rw [List.length_set, core.arr_len]
    · show ((h.pos.set root.1 (h.size - 1)).set last.1 0).length = h.capacity
      rw [List.length_set, List.length_set, core.pos_len]
    · rw [h1size, h1cap]
      omega
    · intro k hk
      rw [h1size] at hk
      rw [h1cap, harr1]
      by_cases hk0 : k = 0
      · rw [if_pos hk0]; exact hlast_cap
      · rw [if_neg hk0]; exact core.id_lt k (by omega)
    · intro k hk
      rw [h1size] at hk
      rw [harr1, hpos1]
      by_cases hk0 : k = 0
      · rw [if_pos hk0, if_pos rfl, hk0]
      · rw [if_neg hk0]
        have hkx : k < h.size := by omega
        have hne_l : (arrGet h k).1 ≠ last.1 := by
          intro hh
          have := id_inj core hkx hlast_sz hh
          omega
        have hne_r : (arrGet h k).1 ≠ root.1 := by
          intro hh
          have := id_inj core hkx hne hh
          omega
        rw [if_neg hne_l, if_neg hne_r]
        exact core.pos_eq k hkx
  have halm1 : OrdExceptAt h1 0 := by
    constructor
    · intro i hi his hp
      rw [h1size] at his
      rw [harr1, harr1, if_neg (by omega : i ≠ 0), if_neg hp]
      exact hv.ord i hi (by omega)
    · intro i hi his hp h0
      exact absurd h0 (lt_irrefl 0)
  have res := minHeapify_spec h1.size h1 0 core1 halm1 (by omega)
  have hroot_not_live : ∀ i, i < h1.size → (arrGet h1 i).1 ≠ root.1 := by
    intro i hi
    rw [h1size] at hi
    rw [harr1]
    by_cases hi0 : i = 0
    · rw [if_pos hi0]
      intro hh
      have := hroot_last hh.symm
      omega
    · rw [if_neg hi0]
      intro hh
      have := id_inj core (by omega : i < h.size) hne hh
      omega
  have hpos_root : posGet (minHeapify h1 0 h1.size) root.1 = h.size - 1 := by
    rw [res.pos_frame root.1 hroot_not_live, hpos1]
    by_cases hrl : root.1 = last.1
    · rw [if_pos hrl]
      have := hroot_last hrl
      omega
    · rw [if_neg hrl, if_pos rfl]
  have hlastpos : posGet h last.1 = h.size - 1 := by
    rw [hlast]
    exact core.pos_eq _ hlast_sz
  have hsz2_of_ne : ∀ v, v ≠ root.1 → v = last.1 → 2 ≤ h.size := by
    intro v hvr hvl
    by_contra hh
    push_neg at hh
    apply hvr
    rw [hvl, hlast, hroot]
    have hs0 : h.size - 1 = 0 := by omega
    rw [hs0]
  rw [hext]
  refine ⟨⟨res.core, res.ord⟩, ?_, ?_, ?_, ?_, ?_⟩
  · rw [res.size_eq, h1size]
  · rw [res.cap_eq, h1cap]
  · exact hpos_root
  · intro hm
    have hx := hm.2
    rw [hpos_root, res.size_eq, h1size] at hx
    omega
  · intro hf
    have hfaith1 : PosFaithful h1 := by
      intro v hvc hvs
      rw [h1cap] at hvc
      rw [h1size, hpos1] at hvs
      rw [harr1, hpos1]
      by_cases hvl : v = last.1
      · rw [if_pos hvl, if_pos rfl, hvl]
      · rw [if_neg hvl] at hvs
        by_cases hvr : v = root.1
        · rw [if_pos hvr] at hvs
          omega
        · rw [if_neg hvr] at hvs
          rw [if_neg hvl, if_neg hvr]
          have hpv := hf v hvc (by omega)
          have hpv0 : posGet h v ≠ 0 := by
            intro hh
            rw [hh] at hpv
            exact hvr hpv.symm
          rw [if_neg hpv0]
          exact hpv
    have hmem1 : ∀ v, v ≠ root.1 → (Mem h1 v ↔ Mem h v) := by
      intro v hvr
      unfold Mem
      rw [h1size, h1cap, hpos1]
      by_cases hvl : v = last.1
      · rw [if_pos hvl]
        have hsz2 : 2 ≤ h.size := hsz2_of_ne v hvr hvl
        constructor
        · rintro ⟨hvc, _⟩
          refine ⟨hvc, ?_⟩
          rw [hvl, hlastpos]
          omega
        · rintro ⟨hvc, _⟩
          exact ⟨hvc, by omega⟩
      · rw [if_neg hvl, if_neg hvr]
        constructor
        · rintro ⟨hvc, hvs⟩
          exact ⟨hvc, by omega⟩
        · rintro ⟨hvc, hvs⟩
          refine ⟨hvc, ?_⟩
          have hpv := hf v hvc hvs
          have hnl : posGet h v ≠ h.size - 1 := by
            intro hh
            apply hvl
            rw [← hpv, hh, ← hlast]
          omega
    have hkey1 : ∀ v, v ≠ root.1 → Mem h v → keyOf h1 v = keyOf h v := by
      intro v hvr hm
      unfold keyOf
      rw [hpos1]
      by_cases hvl : v = last.1
      · rw [if_pos hvl, harr1, if_pos rfl]
        have hpv : posGet h v = h.size - 1 := by rw [hvl, hlastpos]
        rw [hpv, ← hlast]
      · rw [if_neg hvl, if_neg hvr, harr1]
        have hpv := hf v hm.1 hm.2
        have hp0 : posGet h v ≠ 0 := by
          intro hh
          apply hvr
          rw [← hpv, hh, ← hroot]
        rw [if_neg hp0]
    refine ⟨res.faithful hfaith1, ?_, ?_⟩
    · intro v hvr
      rw [res.mem_iff, hmem1 v hvr]
    · intro v hvr hm
      rw [res.key_frame hfaith1 v ((hmem1 v hvr).mpr hm), hkey1 v hvr hm]

/-- Everything claim C10 and the A* engine need to know about `decreaseKey`
with a key no larger than the current key of the entry `array[pos[v]]`. -/
theorem decreaseKey_spec {h : MinHeap} {v : Nat} {k : QInf} (hv : HeapValid h)
    (hm : Mem h v) (hk : k ≤ keyOf h v) :
    HeapValid (decreaseKey h v k) ∧
    (decreaseKey h v k).size = h.size ∧
    (decreaseKey h v k).capacity = h.capacity ∧
    (∀ w, Mem (decreaseKey h v k) w ↔ Mem h w) ∧
    (PosFaithful h →
      PosFaithful (decreaseKey h v k) ∧
      keyOf (decreaseKey h v k) v = k ∧
      (∀ w, w ≠ v → Mem h w → keyOf (decreaseKey h v k) w = keyOf h w)) := by
  have core := hv.toHeapCore
  have hi_sz : posGet h v < h.size := hm.2
  have hi_arr : posGet h v < h.arr.length := by
    rw [core.arr_len]; exact lt_of_lt_of_le hi_sz core.size_le
  set i := posGet h v with hidef
  set h1 : MinHeap := { h with arr := h.arr.set i ((arrGet h i).1, k) } with hh1
  have hdk : decreaseKey h v k = siftUp h1 i (i + 1) := rfl
  have h1size : h1.size = h.size := rfl
  have h1cap : h1.capacity = h.capacity := rfl
  have h1pos : ∀ w, posGet h1 w = posGet h w := fun _ => rfl
  have harr1 : ∀ j, arrGet h1 j = if j = i then ((arrGet h i).1, k) else arrGet h j := by
    intro j
    show ((h.arr.set i ((arrGet h i).1, k))[j]?).getD (0, ⊤) = _
    by_cases hj : j = i
    · subst hj
      rw [List.getElem?_set_self hi_arr]
      simp
    · rw [List.getElem?_set_ne (Ne.symm hj), if_neg hj]
      rfl
  have hfst1 : ∀ j, (arrGet h1 j).1 = (arrGet h j).1 := by
    intro j
    rw [harr1]
    by_cases hj : j = i
    · rw [if_pos hj, hj]
    · rw [if_neg hj]
  have core1 : HeapCore h1 := by
    refine ⟨?_, ?_, core.size_le, ?_, ?_⟩
    · show (h.arr.set i ((arrGet h i).1, k)).length = h.capacity
      rw [List.length_set, core.arr_len]
    · exact core.pos_len
    · intro j hj
      rw [hfst1]
      exact core.id_lt j hj
    · intro j hj
      rw [hfst1, h1pos]
      exact core.pos_eq j hj
  have hkey_eq : keyOf h v = (arrGet h i).2 := rfl
  have halm1 : OrdExceptUp h1 i := by
    constructor
    · intro j hj hjs hji
      rw [h1size] at hjs
      rw [harr1, harr1, if_neg hji]
      by_cases hpj : (j - 1) / 2 = i
      · rw [if_pos hpj]
        have hord := hv.ord j hj hjs
        rw [hpj] at hord
        exact le_trans (le_trans hk (hkey_eq ▸ le_refl _)) hord
      · rw [if_neg hpj]
        exact hv.ord j hj hjs
    · intro hip j hj hjs hpj
      rw [h1size] at hjs
      rw [harr1, harr1, if_neg (by omega : (i - 1) / 2 ≠ i),
        if_neg (by omega : j ≠ i)]
      have h1x := hv.ord i hip hi_sz
      have h2x := hv.ord j hj hjs
      rw [hpj] at h2x
      exact le_trans h1x h2x
  have res := siftUp_spec (i + 1) h1 i core1 halm1 (by rw [h1size]; exact hi_sz)
    (Nat.lt_succ_self i)
  have hmem1 : ∀ w, Mem h1 w ↔ Mem h w := fun w => Iff.rfl
  rw [hdk]
  refine ⟨⟨res.core, res.ord⟩, ?_, ?_, ?_, ?_⟩
  · rw [res.size_eq, h1size]
  · rw [res.cap_eq, h1cap]
  · intro w
    rw [res.mem_iff, hmem1]
  · intro hf
    have hfaith1 : PosFaithful h1 := by
      intro w hwc hws
      rw [h1cap] at hwc
      rw [h1size, h1pos] at hws
      rw [h1pos, hfst1]
      exact hf w hwc hws
    have hkey1v : keyOf h1 v = k := by
      unfold keyOf
      rw [h1pos, ← hidef, harr1, if_pos rfl]
    have hkey1w : ∀ w, w ≠ v → Mem h w → keyOf h1 w = keyOf h w := by
      intro w hwv hmw
      unfold keyOf
      rw [h1pos, harr1]
      have hfw := hf w hmw.1 hmw.2
      have hfv := hf v hm.1 hm.2
      have hpw : posGet h w ≠ i := by
        intro hh
        apply hwv
        rw [← hfw, hh, hidef]
        exact hfv
      rw [if_neg hpw]
    refine ⟨res.faithful hfaith1, ?_, ?_⟩
    · rw [res.key_frame hfaith1 v ((hmem1 v).mpr hm), hkey1v]
    · intro w hwv hmw
      rw [res.key_frame hfaith1 w ((hmem1 w).mpr hmw), hkey1w w hwv hmw]

/-! ### Claim C10 -/

/-- C10: on a non-empty valid heap, `extractMin` returns an in-heap entry
whose key is minimal among the in-heap entries; afterwards the heap is valid
with one entry fewer and the extracted id parked outside the live prefix
(`pos[node_id] ≥ size`, so `isInMinHeap` reports it outside).  `decreaseKey`
on a valid heap applied to a member with a key at most the current key of its
entry preserves validity. -/
theorem heap_ops_preserve_validity :
    (∀ h : MinHeap, HeapValid h → 0 < h.size →
      Mem h ((extractMin h).1).1 ∧
      keyOf h ((extractMin h).1).1 = ((extractMin h).1).2 ∧
      (∀ v, Mem h v → ((extractMin h).1).2 ≤ keyOf h v) ∧
      HeapValid (extractMin h).2 ∧
      (extractMin h).2.size = h.size - 1 ∧
      (extractMin h).2.size ≤ posGet (extractMin h).2 ((extractMin h).1).1 ∧
      isInMinHeap (extractMin h).2 ((extractMin h).1).1 = false) ∧
    (∀ (h : MinHeap) (v : Nat) (k : QInf), HeapValid h → v < h.capacity →
      isInMinHeap h v = true → k ≤ keyOf h v → HeapValid (decreaseKey h v k)) := by
  constructor
  · intro h hv hne
    have core := hv.toHeapCore
    obtain ⟨hvalid, hsize, hcap, hposroot, hnotmem, _⟩ := extractMin_spec hv hne
    have hrootpos : posGet h (arrGet h 0).1 = 0 := core.pos_eq 0 hne
    refine ⟨⟨core.id_lt 0 hne, by rw [extractMin_fst, hrootpos]; exact hne⟩, ?_, ?_,
      hvalid, hsize, ?_, ?_⟩
    · rw [extractMin_fst]
      unfold keyOf
      rw [hrootpos]
    · intro v hm
      exact extractMin_min hv hm
    · rw [extractMin_fst, hposroot, hsize]
    · have hcapr : ((extractMin h).1).1 < (extractMin h).2.capacity := by
        rw [extractMin_fst, hcap]
        exact core.id_lt 0 hne
      rw [← Bool.not_eq_true]
      intro hmem
      exact hnotmem (by rw [← extractMin_fst]; exact (isInMinHeap_iff_mem hcapr).mp hmem)
  · intro h v k hv hvc hmem hk
    exact (decreaseKey_spec hv ((isInMinHeap_iff_mem hvc).mp hmem) hk).1

/-- A concrete valid two-entry heap used to witness the heap-operation claim. -/
def heapW : MinHeap :=
  { capacity := 2, size := 2, pos := [0, 1],
    arr := [(0, ((5 : ℚ) : QInf)), (1, ((7 : ℚ) : QInf))] }

theorem heap_ops_preserve_validity_witness :
    HeapValid (extractMin heapW).2 ∧ HeapValid (decreaseKey heapW 1 ((3 : ℚ) : QInf)) := by
  have hv : HeapValid heapW := ⟨⟨rfl, rfl, by decide, by decide, by decide⟩,
    by
      intro i hi his
      have hs2 : heapW.size = 2 := rfl
      rw [hs2] at his
      have hi1 : i = 1 := by omega
      subst hi1
      decide⟩
  exact ⟨(heap_ops_preserve_validity.1 heapW hv (by decide)).2.2.2.1,
    heap_ops_preserve_validity.2 heapW 1 ((3 : ℚ) : QInf) hv (by decide) (by decide)
      (by decide)⟩

/-! ## graph.c : graph store

`Edge` and `Node` mirror the C structs; ids are the non-negative values the
loader passes, so they are `Nat` here (the C validation `id < 0` is the
left half of the range checks below).  Doubles are exact rationals; the C
literals `0.2` and `1e-6` become `1/5` and `1/1000000`. -/

structure Edge where
  edge_id : Nat
  from_node : Nat
  to_node : Nat
  base_length : Q
  base_speed_limit : Q
  current_travel_time : Q
  ema_travel_time : Q
  observation_count : Nat
  deriving Repr, DecidableEq, Inhabited

structure Node where
  node_id : Nat
  x : Q
  y : Q
  out_edges : List Nat
  deriving Repr, DecidableEq, Inhabited

structure Graph where
  num_nodes : Nat
  num_edges : Nat
  nodes : List Node
  edges : List Edge
  deriving Repr, DecidableEq, Inhabited

/-- `graph_init` from graph.c; `none` models the fatal `exit(1)` on
`num_nodes > MAX_NODES`.  The C edge array is uninitialized after `malloc`;
slots hold junk (`default`) until `graph_add_edge` fills them. -/
def graph_init (num_nodes num_edges : Nat) : Option Graph :=
  if 100000 < num_nodes then none
  else some
    { num_nodes := num_nodes, num_edges := num_edges,
      nodes := (List.range num_nodes).map fun i => { node_id := i, x := 0, y := 0, out_edges := [] },
      edges := List.replicate num_edges default }

/-- `graph_add_edge` from graph.c; `none` models the fatal `exit(1)` paths
(invalid ids, non-positive speed limit).  On success it fills edge slot
`edge_id` with the initial travel time `length / speed_limit` and prepends
the id to the adjacency list of `from`. -/
def graph_add_edge (g : Graph) (edge_id from_node to_node : Nat)
    (length speed_limit : Q) : Option Graph :=
  if g.num_edges ≤ edge_id then none
  else if g.num_nodes ≤ from_node ∨ g.num_nodes ≤ to_node then none
  else if speed_limit ≤ 0 then none
  else
    let e : Edge :=
      { edge_id := edge_id, from_node := from_node, to_node := to_node,
        base_length := length, base_speed_limit := speed_limit,
        current_travel_time := length / speed_limit,
        ema_travel_time := length / speed_limit,
        observation_count := 0 }
    let n := g.nodes.getD from_node default
    some { g with
      edges := g.edges.set edge_id e,
      nodes := g.nodes.set from_node { n with out_edges := edge_id :: n.out_edges } }

/-- `get_edge_weight` from graph.c (callers guarantee the id is in range;
the fatal out-of-range path never runs in the verified flows). -/
def get_edge_weight (g : Graph) (edge_id : Nat) : Q :=
  (g.edges.getD edge_id default).current_travel_time

/-- The adjacency list of node `u` (`g->nodes[u].out_edges`). -/
def adjOf (g : Graph) (u : Nat) : List Nat :=
  (g.nodes.getD u default).out_edges

/-! ## server.c : the traffic EMA engine (`apply_update`) -/

/-- The successful branch of `apply_update` on one edge: clamp the speed up
to `1e-6`, mix `measured = base_length / speed` into the EMA with
`alpha = 1.0` on the first observation and `0.2` afterwards, publish it as
the current travel time and bump the observation count.  `0.2` and `1e-6`
are the exact rationals `1/5` and `1/1000000`. -/
def emaUpdatedEdge (e : Edge) (speed : Q) : Edge :=
  let min_speed : Q := 1 / 1000000
  let speed1 := if speed < min_speed then min_speed else speed
  let alpha : Q := if e.observation_count = 0 then 1 else 1 / 5
  let measured := e.base_length / speed1
  let ema := alpha * measured + (1 - alpha) * e.ema_travel_time
  { e with
    ema_travel_time := ema,
    current_travel_time := ema,
    observation_count := e.observation_count + 1 }

/-- `apply_update` from server.c: returns the response line and the updated
graph. -/
def apply_update (g : Graph) (edge_id : Int) (speed : Q) : String × Graph :=
  if edge_id < 0 ∨ (g.num_edges : Int) ≤ edge_id then ("ERR BAD_EDGE\n", g)
  else if speed ≤ 0 then ("ERR BAD_SPEED\n", g)
  else
    ("ACK\n",
      { g with
        edges :=
          g.edges.set edge_id.toNat (emaUpdatedEdge (g.edges.getD edge_id.toNat default) speed) })

/-- A sequence of `UPD` commands against one edge, applied in order. -/
def apply_updates (g : Graph) (edge_id : Int) (ss : List Q) : Graph :=
  ss.foldl (fun acc s => (apply_update acc edge_id s).2) g

theorem apply_update_bad_edge {g : Graph} {eid : Int} {s : Q}
    (h1 : eid < 0 ∨ (g.num_edges : Int) ≤ eid) :
    apply_update g eid s = ("ERR BAD_EDGE\n", g) := by
  simp only [apply_update]
  rw [if_pos h1]

theorem apply_update_bad_speed {g : Graph} {eid : Int} {s : Q}
    (h1 : ¬(eid < 0 ∨ (g.num_edges : Int) ≤ eid)) (h2 : s ≤ 0) :
    apply_update g eid s = ("ERR BAD_SPEED\n", g) := by
  simp only [apply_update]
  rw [if_neg h1, if_pos h2]

theorem apply_update_ok {g : Graph} {eid : Int} {s : Q}
    (h1 : ¬(eid < 0 ∨ (g.num_edges : Int) ≤ eid)) (h2 : ¬s ≤ 0) :
    apply_update g eid s =
      ("ACK\n",
        { g with
          edges :=
            g.edges.set eid.toNat (emaUpdatedEdge (g.edges.getD eid.toNat default) s) }) := by
  simp only [apply_update]
  rw [if_neg h1, if_neg h2]

/-! ### Claim C5 -/

/-- C5: `apply_update` answers `ERR BAD_EDGE` exactly on out-of-range edge
ids; for in-range ids it answers `ERR BAD_SPEED` exactly on non-positive
speeds; a positive speed below `1e-6` is clamped up to `1e-6` (same result
as updating with `1e-6`), not rejected; and on either error the graph — so
every field of every edge — is unchanged. -/
theorem apply_update_error_contract (g : Graph) (eid : Int) (s : Q) :
    ((apply_update g eid s).1 = "ERR BAD_EDGE\n" ↔ eid < 0 ∨ (g.num_edges : Int) ≤ eid) ∧
    (¬(eid < 0 ∨ (g.num_edges : Int) ≤ eid) →
      ((apply_update g eid s).1 = "ERR BAD_SPEED\n" ↔ s ≤ 0)) ∧
    (0 < s → s < 1 / 1000000 → apply_update g eid s = apply_update g eid (1 / 1000000)) ∧
    ((apply_update g eid s).1 ≠ "ACK\n" → (apply_update g eid s).2 = g) := by
  have sBB : ("ERR BAD_SPEED\n" : String) ≠ "ERR BAD_EDGE\n" := by decide
  have sAB : ("ACK\n" : String) ≠ "ERR BAD_EDGE\n" := by decide
  have sAS : ("ACK\n" : String) ≠ "ERR BAD_SPEED\n" := by decide
  by_cases h1 : eid < 0 ∨ (g.num_edges : Int) ≤ eid
  · rw [apply_update_bad_edge h1]
    refine ⟨⟨fun _ => h1, fun _ => rfl⟩, fun hin => absurd h1 hin, ?_, fun _ => rfl⟩
    intro _ _
    rw [apply_update_bad_edge h1]
  · by_cases h2 : s ≤ 0
    · rw [apply_update_bad_speed h1 h2]
      refine ⟨⟨fun hh => absurd hh sBB, fun hh => absurd hh h1⟩,
        fun _ => ⟨fun _ => h2, fun _ => rfl⟩, ?_, fun _ => rfl⟩
      intro hs _
      exact absurd h2 (not_le.mpr hs)
    · rw [apply_update_ok h1 h2]
      refine ⟨⟨fun hh => absurd hh sAB, fun hh => absurd hh h1⟩,
        fun _ => ⟨fun hh => absurd hh sAS, fun hh => absurd hh h2⟩, ?_,
        fun hh => absurd rfl hh⟩
      intro hs hsmall
      have h2' : ¬(1 / 1000000 : Q) ≤ 0 := by norm_num
      rw [apply_update_ok h1 h2']
      have hedge : emaUpdatedEdge (g.edges.getD eid.toNat default) s =
          emaUpdatedEdge (g.edges.getD eid.toNat default) (1 / 1000000) := by
        unfold emaUpdatedEdge
        simp only
        rw [if_pos hsmall, if_neg (lt_irrefl ((1 : Q) / 1000000))]
      rw [hedge]

/-! ### Claim C3 -/

/-- The EMA recurrence exactly as the spec states it: `measured` uses the
clamped speed, `alpha` is `1` while the observation count is zero and `1/5`
afterwards. -/
def emaRecAux (L : Q) (cur : Q) (count : Nat) : List Q → Q
  | [] => cur
  | s :: rest =>
    emaRecAux L
      ((if count = 0 then (1 : Q) else 1 / 5) * (L / max s (1 / 1000000)) +
        (1 - (if count = 0 then (1 : Q) else 1 / 5)) * cur)
      (count + 1) rest

theorem clamp_eq_max (s : Q) :
    (if s < 1 / 1000000 then (1 / 1000000 : Q) else s) = max s (1 / 1000000) := by
  by_cases hs : s < 1 / 1000000
  · rw [if_pos hs, max_eq_right (le_of_lt hs)]
  · rw [if_neg hs, max_eq_left (le_of_not_lt hs)]

theorem emaUpdatedEdge_fields (e : Edge) (s : Q) :
    (emaUpdatedEdge e s).ema_travel_time =
      (if e.observation_count = 0 then (1 : Q) else 1 / 5) *
          (e.base_length / max s (1 / 1000000)) +
        (1 - (if e.observation_count = 0 then (1 : Q) else 1 / 5)) * e.ema_travel_time ∧
    (emaUpdatedEdge e s).current_travel_time = (emaUpdatedEdge e s).ema_travel_time ∧
    (emaUpdatedEdge e s).observation_count = e.observation_count + 1 ∧
    (emaUpdatedEdge e s).base_length = e.base_length ∧
    (emaUpdatedEdge e s).base_speed_limit = e.base_speed_limit := by
  unfold emaUpdatedEdge
  simp only
  rw [clamp_eq_max]
  exact ⟨rfl, trivial, trivial, trivial, trivial⟩

/-- How a sequence of successful updates transforms the state of one edge:
it is exactly the spec's EMA recurrence, the current travel time stays glued
to the EMA, and the observation count counts the updates. -/
theorem apply_updates_edge_state :
    ∀ (ss : List Q) (g : Graph) (eid : Nat), g.edges.length = g.num_edges →
      eid < g.num_edges → (∀ s ∈ ss, 0 < s) →
      ((apply_updates g (eid : Int) ss).edges.getD eid default).ema_travel_time =
        emaRecAux (g.edges.getD eid default).base_length
          (g.edges.getD eid default).ema_travel_time
          (g.edges.getD eid default).observation_count ss ∧
      ((apply_updates g (eid : Int) ss).edges.getD eid default).observation_count =
        (g.edges.getD eid default).observation_count + ss.length ∧
      ((apply_updates g (eid : Int) ss).edges.getD eid default).base_length =
        (g.edges.getD eid default).base_length ∧
      ((apply_updates g (eid : Int) ss).edges.getD eid default).base_speed_limit =
        (g.edges.getD eid default).base_speed_limit ∧
      ((g.edges.getD eid default).current_travel_time =
          (g.edges.getD eid default).ema_travel_time →
        ((apply_updates g (eid : Int) ss).edges.getD eid default).current_travel_time =
          ((apply_updates g (eid : Int) ss).edges.getD eid default).ema_travel_time) := by
  intro ss
  induction ss with
  | nil =>
    intro g eid _ _ _
    exact ⟨rfl, rfl, rfl, rfl, fun hh => hh⟩
  | cons s rest ih =>
    intro g eid hlen hid hpos
    have hs : 0 < s := hpos s (List.mem_cons_self s rest)
    have hrange : ¬((eid : Int) < 0 ∨ (g.num_edges : Int) ≤ (eid : Int)) := by
      push_neg
      constructor
      · exact Int.natCast_nonneg eid
      · exact_mod_cast hid
    have hstep : (apply_update g (eid : Int) s).2 =
        { g with edges := g.edges.set eid (emaUpdatedEdge (g.edges.getD eid default) s) } := by
      rw [apply_update_ok hrange (not_le.mpr hs)]
      simp
    have hunf : apply_updates g (eid : Int) (s :: rest) =
        apply_updates (apply_update g (eid : Int) s).2 (eid : Int) rest := rfl
    set e := g.edges.getD eid default with he
    set g1 : Graph :=
      { g with edges := g.edges.set eid (emaUpdatedEdge e s) } with hg1
    have hg1len : g1.edges.length = g1.num_edges := by
      rw [hg1]
      show (g.edges.set eid (emaUpdatedEdge e s)).length = g.num_edges
      rw [List.length_set, hlen]
    have hg1id : eid < g1.num_edges := hid
    have hg1get : g1.edges.getD eid default = emaUpdatedEdge e s := by
      rw [hg1]
      show (g.edges.set eid (emaUpdatedEdge e s)).getD eid default = emaUpdatedEdge e s
      rw [List.getD_eq_getElem?_getD, List.getElem?_set_self (by rw [hlen]; exact hid)]
      rfl
    have ihres := ih g1 eid hg1len hg1id (fun x hx => hpos x (List.mem_cons_of_mem s hx))
    rw [hg1get] at ihres
    obtain ⟨hfe, hfc, hfo, hfb, hfs⟩ := emaUpdatedEdge_fields e s
    obtain ⟨ih1, ih2, ih3, ih4, ih5⟩ := ihres
    rw [hfb, hfe, hfo] at ih1
    rw [hfo] at ih2
    rw [hfb] at ih3
    rw [hfs] at ih4
    rw [hunf, hstep]
    refine ⟨?_, ?_, ih3, ih4, ?_⟩
    · rw [emaRecAux]
      exact ih1
    · rw [ih2, List.length_cons]
      omega
    · intro _
      exact ih5 hfc

/-- C3: starting from an edge with `current_travel_time =
base_length / base_speed_limit`, `ema = current` and a zero observation
count (the `graph_add_edge` initial state), any sequence of positive
observed speeds applied through `apply_update` leaves
`current_travel_time = ema_travel_time` equal to the spec's EMA recurrence
(`alpha = 1` first, `alpha = 0.2` later, `measured = base_length /
max(s, 1e-6)`), and `observation_count` equal to the number of updates. -/
theorem ema_updates_match_recurrence (g : Graph) (eid : Nat)
    (hlen : g.edges.length = g.num_edges) (hid : eid < g.num_edges)
    (hobs : (g.edges.getD eid default).observation_count = 0)
    (hcur : (g.edges.getD eid default).current_travel_time =
      (g.edges.getD eid default).base_length / (g.edges.getD eid default).base_speed_limit)
    (hema : (g.edges.getD eid default).ema_travel_time =
      (g.edges.getD eid default).current_travel_time)
    (ss : List Q) (hss : ∀ s ∈ ss, 0 < s) :
    ((apply_updates g (eid : Int) ss).edges.getD eid default).current_travel_time =
      emaRecAux (g.edges.getD eid default).base_length
        ((g.edges.getD eid default).base_length /
          (g.edges.getD eid default).base_speed_limit) 0 ss ∧
    ((apply_updates g (eid : Int) ss).edges.getD eid default).current_travel_time =
      ((apply_updates g (eid : Int) ss).edges.getD eid default).ema_travel_time ∧
    ((apply_updates g (eid : Int) ss).edges.getD eid default).observation_count =
      ss.length := by
  obtain ⟨h1, h2, _, _, h5⟩ := apply_updates_edge_state ss g eid hlen hid hss
  have hcureq := h5 (by rw [hema])
  refine ⟨?_, hcureq, ?_⟩
  · rw [hcureq, h1, hobs, hema, hcur]
  · rw [h2, hobs, Nat.zero_add]

/-- A concrete two-node graph with one edge of length 1 and speed limit 1,
built by `graph_init` and `graph_add_edge`.  Used by several witnesses. -/
def gW : Graph :=
  ((graph_init 2 1).bind fun g => graph_add_edge g 0 0 1 1 1).getD default

theorem ema_updates_match_recurrence_witness :
    ((apply_updates gW ((0 : Nat) : Int) [2, 4]).edges.getD 0 default).current_travel_time =
      emaRecAux (gW.edges.getD 0 default).base_length
        ((gW.edges.getD 0 default).base_length /
          (gW.edges.getD 0 default).base_speed_limit) 0 [2, 4] ∧
    ((apply_updates gW ((0 : Nat) : Int) [2, 4]).edges.getD 0 default).observation_count = 2 ∧
    ((apply_updates gW ((0 : Nat) : Int) [2, 4]).edges.getD 0 default).current_travel_time =
      9 / 20 := by
  have hthm := ema_updates_match_recurrence gW 0 rfl (by decide) rfl rfl rfl
    [2, 4] (by decide)
  have hL : (gW.edges.getD 0 default).base_length = 1 := rfl
  have hS : (gW.edges.getD 0 default).base_speed_limit = 1 := rfl
  refine ⟨hthm.1, hthm.2.2, ?_⟩
  rw [hthm.1, hL, hS]
  norm_num [emaRecAux, max_def]

theorem apply_update_error_contract_witness :
    (apply_update gW 5 2).1 = "ERR BAD_EDGE\n" ∧
    (apply_update gW 0 (-1)).1 = "ERR BAD_SPEED\n" ∧
    (apply_update gW 0 (1 / 2000000)).2 = (apply_update gW 0 (1 / 1000000)).2 := by
  refine ⟨(apply_update_error_contract gW 5 2).1.mpr (by decide), ?_, ?_⟩
  · exact ((apply_update_error_contract gW 0 (-1)).2.1 (by decide)).mpr (by norm_num)
  · rw [(apply_update_error_contract gW 0 (1 / 2000000)).2.2.1 (by norm_num) (by norm_num)]

/-! ### Claim C2 -/

/-- C2 counterexample: on the constructed edge with `base_length = 1` and
`base_speed_limit = 1`, a single positive observation of speed `2` drives
`current_travel_time` to `1/2`, strictly below
`base_length / base_speed_limit = 1`.  The claimed invariant fails as soon
as an observed speed exceeds the edge's base speed limit. -/
theorem travel_time_lower_bound_counterexample :
    ((graph_init 2 1).bind fun g => graph_add_edge g 0 0 1 1 1) = some gW ∧
    (0 : Q) < 2 ∧
    ((apply_update gW 0 2).2.edges.getD 0 default).current_travel_time <
      (gW.edges.getD 0 default).base_length / (gW.edges.getD 0 default).base_speed_limit := by
  refine ⟨rfl, by norm_num, ?_⟩
  have hok : apply_update gW 0 2 = ("ACK\n",
      { gW with edges := gW.edges.set 0 (emaUpdatedEdge (gW.edges.getD 0 default) 2) }) := by
    rw [apply_update_ok (by decide) (by norm_num)]
    rfl
  rw [hok]
  show ((gW.edges.set 0 (emaUpdatedEdge (gW.edges.getD 0 default) 2)).getD
      0 default).current_travel_time < _
  have hget : (gW.edges.set 0 (emaUpdatedEdge (gW.edges.getD 0 default) 2)).getD 0 default =
      emaUpdatedEdge (gW.edges.getD 0 default) 2 := by
    rw [List.getD_eq_getElem?_getD, List.getElem?_set_self (by decide)]
    rfl
  rw [hget]
  obtain ⟨hfe, hfc, _, _, _⟩ := emaUpdatedEdge_fields (gW.edges.getD 0 default) 2
  rw [hfc, hfe]
  have h0 : (gW.edges.getD 0 default).observation_count = 0 := rfl
  have hL : (gW.edges.getD 0 default).base_length = 1 := rfl
  have hS : (gW.edges.getD 0 default).base_speed_limit = 1 := rfl
  have hE : (gW.edges.getD 0 default).ema_travel_time = 1 / 1 := rfl
  rw [h0, hL, hS, hE]
  norm_num [max_def]

/-- The largest of the base speed limit and all clamped observed speeds:
the divisor in the corrected lower bound. -/
def clampedMax (base : Q) (ss : List Q) : Q :=
  ss.foldl (fun m s => max m (max s (1 / 1000000))) base

theorem clampedMax_base_le : ∀ (ss : List Q) (base : Q), base ≤ clampedMax base ss := by
  intro ss
  induction ss with
  | nil => intro base; exact le_refl base
  | cons s rest ih =>
    intro base
    exact le_trans (le_max_left base (max s (1 / 1000000))) (ih _)

theorem clampedMax_mem_le :
    ∀ (ss : List Q) (base : Q) (s : Q), s ∈ ss →
      max s (1 / 1000000) ≤ clampedMax base ss := by
  intro ss
  induction ss with
  | nil => intro base s hs; exact absurd hs (List.not_mem_nil s)
  | cons x rest ih =>
    intro base s hs
    rcases List.mem_cons.mp hs with rfl | hs'
    · exact le_trans (le_max_right base (max s (1 / 1000000))) (clampedMax_base_le rest _)
    · exact ih _ s hs'

theorem clampedMax_pos {base : Q} (hb : 0 < base) (ss : List Q) :
    0 < clampedMax base ss :=
  lt_of_lt_of_le hb (clampedMax_base_le ss base)

/-- The invariant behind the corrected C2: a lower bound `L / B` on the EMA
is preserved by updates whose clamped speeds stay at most `B`. -/
theorem apply_updates_ema_lower_bound :
    ∀ (ss : List Q) (g : Graph) (eid : Nat) (B : Q), g.edges.length = g.num_edges →
      eid < g.num_edges → 0 < B →
      0 ≤ (g.edges.getD eid default).base_length →
      (∀ s ∈ ss, 0 < s ∧ max s (1 / 1000000) ≤ B) →
      (g.edges.getD eid default).base_length / B ≤
        (g.edges.getD eid default).ema_travel_time →
      (g.edges.getD eid default).base_length / B ≤
        ((apply_updates g (eid : Int) ss).edges.getD eid default).ema_travel_time := by
  intro ss
  induction ss with
  | nil =>
    intro g eid B _ _ _ _ _ hbound
    exact hbound
  | cons s rest ih =>
    intro g eid B hlen hid hB hL hss hbound
    obtain ⟨hs, hsB⟩ := hss s (List.mem_cons_self s rest)
    have hrange : ¬((eid : Int) < 0 ∨ (g.num_edges : Int) ≤ (eid : Int)) := by
      push_neg
      exact ⟨Int.natCast_nonneg eid, by exact_mod_cast hid⟩
    have hstep : (apply_update g (eid : Int) s).2 =
        { g with edges := g.edges.set eid (emaUpdatedEdge (g.edges.getD eid default) s) } := by
      rw [apply_update_ok hrange (not_le.mpr hs)]
      simp
    set e := g.edges.getD eid default with he
    set g1 : Graph := { g with edges := g.edges.set eid (emaUpdatedEdge e s) } with hg1
    have hg1len : g1.edges.length = g1.num_edges := by
      rw [hg1]
      show (g.edges.set eid (emaUpdatedEdge e s)).length = g.num_edges
      rw [List.length_set, hlen]
    have hg1get : g1.edges.getD eid default = emaUpdatedEdge e s := by
      rw [hg1]
      show (g.edges.set eid (emaUpdatedEdge e s)).getD eid default = emaUpdatedEdge e s
      rw [List.getD_eq_getElem?_getD, List.getElem?_set_self (by rw [hlen]; exact hid)]
      rfl
    obtain ⟨hfe, _, _, hfb, _⟩ := emaUpdatedEdge_fields e s
    have hcpos : (0 : Q) < max s (1 / 1000000) := lt_of_lt_of_le (by norm_num) (le_max_right _ _)
    have hmeas : e.base_length / B ≤ e.base_length / max s (1 / 1000000) :=
      div_le_div_of_nonneg_left hL hcpos hsB
    have hstep_bound : e.base_length / B ≤ (emaUpdatedEdge e s).ema_travel_time := by
      rw [hfe]
      by_cases h0 : e.observation_count = 0
      · rw [if_pos h0]
        have hx := hmeas
        nlinarith [hx]
      · rw [if_neg h0]
        nlinarith [hmeas, hbound]
    have hres := ih g1 eid B hg1len hid hB (by rw [hg1get, hfb]; exact hL)
      (fun x hx => hss x (List.mem_cons_of_mem s hx))
      (by rw [hg1get, hfb]; exact hstep_bound)
    rw [hg1get, hfb] at hres
    have hunf : apply_updates g (eid : Int) (s :: rest) =
        apply_updates (apply_update g (eid : Int) s).2 (eid : Int) rest := rfl
    rw [hunf, hstep]
    exact hres

/-- C2 corrected: after construction and any sequence of successful positive
observations, `current_travel_time ≥ base_length / max(base_speed_limit,
max clamped observed speed)`.  The bound `base_length / base_speed_limit`
claimed in C2 is recovered exactly when no clamped observed speed exceeds
the base speed limit; the counterexample shows it fails otherwise, so the
heuristic `euclidean / max_speed` is admissible only while observed speeds
stay within `max_speed`. -/
theorem travel_time_lower_bound_amended (g : Graph) (eid : Nat)
    (hlen : g.edges.length = g.num_edges) (hid : eid < g.num_edges)
    (hL : 0 ≤ (g.edges.getD eid default).base_length)
    (hsl : 0 < (g.edges.getD eid default).base_speed_limit)
    (hema : (g.edges.getD eid default).ema_travel_time =
      (g.edges.getD eid default).base_length /
        (g.edges.getD eid default).base_speed_limit)
    (hcur : (g.edges.getD eid default).current_travel_time =
      (g.edges.getD eid default).ema_travel_time)
    (ss : List Q) (hss : ∀ s ∈ ss, 0 < s) :
    (g.edges.getD eid default).base_length /
        clampedMax (g.edges.getD eid default).base_speed_limit ss ≤
      ((apply_updates g (eid : Int) ss).edges.getD eid default).current_travel_time ∧
    ((∀ s ∈ ss, max s (1 / 1000000) ≤ (g.edges.getD eid default).base_speed_limit) →
      (g.edges.getD eid default).base_length /
          (g.edges.getD eid default).base_speed_limit ≤
        ((apply_updates g (eid : Int) ss).edges.getD eid default).current_travel_time) := by
  obtain ⟨_, _, _, _, h5⟩ := apply_updates_edge_state ss g eid hlen hid hss
  have hcureq := h5 hcur
  constructor
  · rw [hcureq]
    refine apply_updates_ema_lower_bound ss g eid _ hlen hid
      (clampedMax_pos hsl ss) hL
      (fun s hs => ⟨hss s hs, clampedMax_mem_le ss _ s hs⟩) ?_
    rw [hema]
    exact div_le_div_of_nonneg_left hL hsl (clampedMax_base_le ss _)
  · intro hbelow
    rw [hcureq]
    refine apply_updates_ema_lower_bound ss g eid _ hlen hid hsl hL
      (fun s hs => ⟨hss s hs, hbelow s hs⟩) ?_
    rw [hema]

theorem travel_time_lower_bound_amended_witness :
    (gW.edges.getD 0 default).base_length /
        clampedMax (gW.edges.getD 0 default).base_speed_limit [2] ≤
      ((apply_updates gW ((0 : Nat) : Int) [2]).edges.getD 0 default).current_travel_time := by
  have hL1 : (gW.edges.getD 0 default).base_length = 1 := rfl
  have hS1 : (gW.edges.getD 0 default).base_speed_limit = 1 := rfl
  exact (travel_time_lower_bound_amended gW 0 rfl (by decide)
    (by rw [hL1]; norm_num) (by rw [hS1]; norm_num) rfl rfl [2] (by decide)).1

/-! ### Claim C9 -/

theorem apply_update_preserve (g : Graph) (eid : Int) (s : Q) :
    (apply_update g eid s).2.num_edges = g.num_edges ∧
    (apply_update g eid s).2.edges.length = g.edges.length ∧
    (apply_update g eid s).2.num_nodes = g.num_nodes ∧
    (apply_update g eid s).2.nodes = g.nodes := by
  unfold apply_update
  split_ifs <;> simp

theorem apply_updates_preserve :
    ∀ (ss : List Q) (g : Graph) (eid : Int),
      (apply_updates g eid ss).num_edges = g.num_edges ∧
      (apply_updates g eid ss).edges.length = g.edges.length ∧
      (apply_updates g eid ss).num_nodes = g.num_nodes ∧
      (apply_updates g eid ss).nodes = g.nodes := by
  intro ss
  induction ss with
  | nil => intro g eid; exact ⟨rfl, rfl, rfl, rfl⟩
  | cons s rest ih =>
    intro g eid
    have h1 := apply_update_preserve g eid s
    have h2 := ih (apply_update g eid s).2 eid
    have hunf : apply_updates g eid (s :: rest) =
        apply_updates (apply_update g eid s).2 eid rest := rfl
    rw [hunf]
    exact ⟨h2.1.trans h1.1, h2.2.1.trans h1.2.1, h2.2.2.1.trans h1.2.2.1,
      h2.2.2.2.trans h1.2.2.2⟩

theorem apply_updates_append (g : Graph) (eid : Int) (xs ys : List Q) :
    apply_updates g eid (xs ++ ys) = apply_updates (apply_updates g eid xs) eid ys := by
  unfold apply_updates
  rw [List.foldl_append]

/-- One repetition of `UPD eid s` on top of `k` earlier repetitions:
the distance of the EMA to `base_length / max(s, 1e-6)` scales by exactly
`1 - alpha`. -/
theorem ema_replicate_step (g : Graph) (eid : Nat)
    (hlen : g.edges.length = g.num_edges) (hid : eid < g.num_edges)
    (s : Q) (hs : 0 < s) (k : Nat) :
    ((apply_updates g (eid : Int) (List.replicate (k + 1) s)).edges.getD
        eid default).ema_travel_time -
      (g.edges.getD eid default).base_length / max s (1 / 1000000) =
    (1 - (if (g.edges.getD eid default).observation_count + k = 0 then (1 : Q) else 1 / 5)) *
      (((apply_updates g (eid : Int) (List.replicate k s)).edges.getD
          eid default).ema_travel_time -
        (g.edges.getD eid default).base_length / max s (1 / 1000000)) := by
  have hpos : ∀ x ∈ List.replicate k s, 0 < x := by
    intro x hx
    rw [List.eq_of_mem_replicate hx]
    exact hs
  obtain ⟨_, hobs, hbase, _, _⟩ := apply_updates_edge_state (List.replicate k s) g eid hlen hid hpos
  rw [List.length_replicate] at hobs
  obtain ⟨hnum, hlength, _, _⟩ := apply_updates_preserve (List.replicate k s) g (eid : Int)
  set gk := apply_updates g (eid : Int) (List.replicate k s) with hgk
  have hklen : gk.edges.length = gk.num_edges := by rw [hlength, hnum]; exact hlen
  have hkid : eid < gk.num_edges := by rw [hnum]; exact hid
  have hrange : ¬((eid : Int) < 0 ∨ (gk.num_edges : Int) ≤ (eid : Int)) := by
    push_neg
    exact ⟨Int.natCast_nonneg eid, by exact_mod_cast hkid⟩
  have hstep : (apply_update gk (eid : Int) s).2 =
      { gk with edges := gk.edges.set eid (emaUpdatedEdge (gk.edges.getD eid default) s) } := by
    rw [apply_update_ok hrange (not_le.mpr hs)]
    simp
  have hsucc : apply_updates g (eid : Int) (List.replicate (k + 1) s) =
      (apply_update gk (eid : Int) s).2 := by
    rw [List.replicate_succ', apply_updates_append]
    rfl
  rw [hsucc, hstep]
  have hget : (gk.edges.set eid (emaUpdatedEdge (gk.edges.getD eid default) s)).getD
      eid default = emaUpdatedEdge (gk.edges.getD eid default) s := by
    rw [List.getD_eq_getElem?_getD, List.getElem?_set_self (by rw [hklen]; exact hkid)]
    rfl
  show ((gk.edges.set eid (emaUpdatedEdge (gk.edges.getD eid default) s)).getD
      eid default).ema_travel_time - _ = _
  rw [hget]
  obtain ⟨hfe, _, _, _, _⟩ := emaUpdatedEdge_fields (gk.edges.getD eid default) s
  rw [hfe, hobs, hbase]
  by_cases h0 : (g.edges.getD eid default).observation_count + k = 0
  · rw [if_pos h0]
    ring
  · rw [if_neg h0]
    ring

/-- With a fresh edge the first repetition lands exactly on
`base_length / max(s, 1e-6)` and later repetitions stay there. -/
theorem ema_replicate_exact (g : Graph) (eid : Nat)
    (hlen : g.edges.length = g.num_edges) (hid : eid < g.num_edges)
    (s : Q) (hs : 0 < s)
    (hobs0 : (g.edges.getD eid default).observation_count = 0) :
    ∀ k : Nat,
      ((apply_updates g (eid : Int) (List.replicate (k + 1) s)).edges.getD
          eid default).ema_travel_time =
        (g.edges.getD eid default).base_length / max s (1 / 1000000) := by
  intro k
  induction k with
  | zero =>
    have hstep := ema_replicate_step g eid hlen hid s hs 0
    rw [hobs0, if_pos (by norm_num : (0 : Nat) + 0 = 0)] at hstep
    rw [show ((1 : Q) - 1) = 0 by norm_num, zero_mul] at hstep
    linarith [hstep]
  | succ k ih =>
    have hstep := ema_replicate_step g eid hlen hid s hs (k + 1)
    rw [ih, sub_self, mul_zero] at hstep
    linarith [hstep]

/-- C9 corrected: repeating `UPD e s` with a fixed positive speed drives
`ema_travel_time` toward `base_length / max(s, 1e-6)` — the clamped target,
not `base_length / s` — with the distance scaled by exactly `1 - alpha` at
each step (`alpha = 1` on a first-ever observation, `0.2` thereafter), hence
monotonically non-increasing; from a fresh edge the first repetition lands
exactly on the target. -/
theorem repeated_update_convergence_amended (g : Graph) (eid : Nat)
    (hlen : g.edges.length = g.num_edges) (hid : eid < g.num_edges)
    (s : Q) (hs : 0 < s) (k : Nat) :
    (((apply_updates g (eid : Int) (List.replicate (k + 1) s)).edges.getD
          eid default).ema_travel_time -
        (g.edges.getD eid default).base_length / max s (1 / 1000000) =
      (1 - (if (g.edges.getD eid default).observation_count + k = 0 then (1 : Q) else 1 / 5)) *
        (((apply_updates g (eid : Int) (List.replicate k s)).edges.getD
            eid default).ema_travel_time -
          (g.edges.getD eid default).base_length / max s (1 / 1000000))) ∧
    |((apply_updates g (eid : Int) (List.replicate (k + 1) s)).edges.getD
          eid default).ema_travel_time -
        (g.edges.getD eid default).base_length / max s (1 / 1000000)| ≤
      |((apply_updates g (eid : Int) (List.replicate k s)).edges.getD
          eid default).ema_travel_time -
        (g.edges.getD eid default).base_length / max s (1 / 1000000)| ∧
    ((g.edges.getD eid default).observation_count = 0 →
      ((apply_updates g (eid : Int) (List.replicate (k + 1) s)).edges.getD
          eid default).ema_travel_time =
        (g.edges.getD eid default).base_length / max s (1 / 1000000)) := by
  have hstep := ema_replicate_step g eid hlen hid s hs k
  refine ⟨hstep, ?_, fun h0 => ema_replicate_exact g eid hlen hid s hs h0 k⟩
  rw [hstep, abs_mul]
  have hd := abs_nonneg
    (((apply_updates g (eid : Int) (List.replicate k s)).edges.getD
        eid default).ema_travel_time -
      (g.edges.getD eid default).base_length / max s (1 / 1000000))
  by_cases h0 : (g.edges.getD eid default).observation_count + k = 0
  · rw [if_pos h0]
    norm_num
  · rw [if_neg h0]
    have habs : |1 - (1 / 5 : Q)| = 4 / 5 := by norm_num
    rw [habs]
    nlinarith [hd]

theorem repeated_update_convergence_amended_witness :
    ((apply_updates gW ((0 : Nat) : Int) (List.replicate 1 2)).edges.getD
        0 default).ema_travel_time =
      (gW.edges.getD 0 default).base_length / max 2 (1 / 1000000) := by
  exact (repeated_update_convergence_amended gW 0 rfl (by decide) 2 (by norm_num) 0).2.2 rfl

/-- C9 counterexample: with a positive speed below the clamp floor
(`s = 1e-7`) the EMA converges to `base_length / 1e-6 = 10^6`, not to
`base_length / s = 10^7`; in particular the first repetition (where
`alpha = 1`, so the claimed distance to `base_length / s` must shrink to 0)
leaves the EMA at `10^6 ≠ 10^7`. -/
theorem repeated_update_convergence_counterexample :
    (0 : Q) < 1 / 10000000 ∧
    ((apply_update gW 0 (1 / 10000000)).2.edges.getD 0 default).ema_travel_time = 1000000 ∧
    (gW.edges.getD 0 default).base_length / (1 / 10000000) = 10000000 ∧
    (1000000 : Q) ≠ 10000000 := by
  refine ⟨by norm_num, ?_, ?_, by norm_num⟩
  · have hok : apply_update gW 0 (1 / 10000000) = ("ACK\n",
        { gW with
          edges :=
            gW.edges.set 0 (emaUpdatedEdge (gW.edges.getD 0 default) (1 / 10000000)) }) := by
      rw [apply_update_ok (by decide) (by norm_num)]
      rfl
    rw [hok]
    show ((gW.edges.set 0 (emaUpdatedEdge (gW.edges.getD 0 default) (1 / 10000000))).getD
        0 default).ema_travel_time = _
    have hget : (gW.edges.set 0 (emaUpdatedEdge (gW.edges.getD 0 default)
        (1 / 10000000))).getD 0 default =
        emaUpdatedEdge (gW.edges.getD 0 default) (1 / 10000000) := by
      rw [List.getD_eq_getElem?_getD, List.getElem?_set_self (by decide)]
      rfl
    rw [hget]
    obtain ⟨hfe, _, _, _, _⟩ := emaUpdatedEdge_fields (gW.edges.getD 0 default) (1 / 10000000)
    rw [hfe]
    have h0 : (gW.edges.getD 0 default).observation_count = 0 := rfl
    have hL : (gW.edges.getD 0 default).base_length = 1 := rfl
    have hE : (gW.edges.getD 0 default).ema_travel_time = 1 / 1 := rfl
    rw [h0, hL, hE]
    norm_num [max_def]
  · have hL : (gW.edges.getD 0 default).base_length = 1 := rfl
    rw [hL]
    norm_num

/-! ## routing.c : the A* engine

The engine is modelled over an arbitrary heuristic `h : Nat → Nat → Q`:
the C `heuristic` computes `sqrt(dx^2+dy^2) / max_speed` over doubles, an
irrational value in general, so the engine is verified for any heuristic
function and the claims constrain `h` (admissibility/consistency) exactly
where the code's heuristic needs those properties.  `DBL_MAX` is `⊤`. -/

structure AState where
  gs : List QInf
  fs : List QInf
  par : List (Option Nat)
  heap : MinHeap
  deriving Repr, DecidableEq

/-- The body of the neighbor loop of `find_route_a_star_path`: process one
adjacency entry of the just-extracted node `u`. -/
def relaxEdge (g : Graph) (h : Nat → Nat → Q) (t u : Nat) (st : AState) (eid : Nat) :
    AState :=
  if eid < g.num_edges then
    let v := (g.edges.getD eid default).to_node
    let w := get_edge_weight g eid
    if v < g.num_nodes then
      let gu := st.gs.getD u ⊤
      if gu ≠ ⊤ then
        let tg : QInf := gu + (w : QInf)
        if tg < st.gs.getD v ⊤ then
          let fv : QInf := tg + ((h v t : Q) : QInf)
          { gs := st.gs.set v tg,
            fs := st.fs.set v fv,
            par := st.par.set v (some u),
            heap := if isInMinHeap st.heap v then decreaseKey st.heap v fv else st.heap }
        else st
      else st
    else st
  else st

/-- The full neighbor scan of the extracted node `u`. -/
def relaxAll (g : Graph) (h : Nat → Nat → Q) (t u : Nat) (st : AState) : AState :=
  (adjOf g u).foldl (relaxEdge g h t u) st

inductive LoopExit where
  | infKey
  | foundTarget
  | emptyHeap
  deriving Repr, DecidableEq

/-- The main `while (!isEmpty(minHeap))` loop.  One fuel unit per iteration;
every extraction shrinks the heap, so `initial size + 1` fuel always
suffices (proved below), and `none` is never returned at the call site. -/
def astarLoop (g : Graph) (h : Nat → Nat → Q) (t : Nat) :
    Nat → AState → Option (AState × LoopExit)
  | 0, _ => none
  | fuel + 1, st =>
    if st.heap.size = 0 then some (st, LoopExit.emptyHeap)
    else
      let ex := extractMin st.heap
      let st1 : AState := { st with heap := ex.2 }
      if ex.1.2 = ⊤ then some (st1, LoopExit.infKey)
      else if ex.1.1 = t then some (st1, LoopExit.foundTarget)
      else astarLoop g h t fuel (relaxAll g h t ex.1.1 st1)

/-- The initialization of `find_route_a_star_path`: every node enters the
heap with key `DBL_MAX`, `g_score`/`f_score` are `DBL_MAX` except at the
source, and the source's heap key is lowered to `f_score[start]`. -/
def astarInit (g : Graph) (h : Nat → Nat → Q) (s t : Nat) : AState :=
  let V := g.num_nodes
  let st0 : AState :=
    { gs := (List.replicate V (⊤ : QInf)).set s ((0 : Q) : QInf),
      fs := (List.replicate V (⊤ : QInf)).set s ((h s t : Q) : QInf),
      par := List.replicate V none,
      heap :=
        { capacity := V, size := V, pos := List.range V,
          arr := (List.range V).map fun i => (i, (⊤ : QInf)) } }
  { st0 with heap := decreaseKey st0.heap s ((h s t : Q) : QInf) }

/-- `find_edge_id` from routing.c: first adjacency entry of `u` that is a
valid edge id with head `v`. -/
def find_edge_id (g : Graph) (u v : Nat) : Option Nat :=
  (adjOf g u).find? fun eid =>
    decide (eid < g.num_edges ∧ (g.edges.getD eid default).to_node = v)

/-- The parent-chain walk of the reconstruction (`for (v = target; v != -1;
v = parent[v])` followed by the in-place reversal): produces the node path
in source-to-target order.  The C code writes into a `V`-slot buffer with
no bound check, so fuel `V` is the exact budget; `none` marks the buffer
overflow (undefined behavior in C), which positive weights rule out. -/
def walkParent (par : List (Option Nat)) : Nat → Nat → List Nat → Option (List Nat)
  | 0, _, _ => none
  | fuel + 1, v, acc =>
    match par.getD v none with
    | none => some (v :: acc)
    | some u => walkParent par fuel u (v :: acc)

/-- The node-path-to-edge-ids loop, with the C error codes: `15` when no
adjacency entry matches a consecutive pair, `16` when `out_edges` capacity
is exceeded. -/
def mapEdges (g : Graph) (max_edges : Nat) : Nat → List Nat → Except Nat (List Nat)
  | _, [] => Except.ok []
  | _, [_] => Except.ok []
  | count, u :: v :: rest =>
    match find_edge_id g u v with
    | none => Except.error 15
    | some eid =>
      if max_edges ≤ count then Except.error 16
      else
        match mapEdges g max_edges (count + 1) (v :: rest) with
        | Except.error c => Except.error c
        | Except.ok es => Except.ok (eid :: es)

inductive RouteResult where
  | ok (cost : QInf) (nodes : List Nat) (edges : List Nat)
  | noPath
  | err (code : Nat)
  deriving Repr, DecidableEq

/-- `find_route_a_star_path` from routing.c.  Error codes as in the C code
(`11` invalid ids, `17` node buffer too small, `15`/`16` from the edge
mapping); allocation failures are not modelled.  Code `99` marks the
parent-walk buffer overflow, which is undefined behavior in the C code and
unreachable for positive weights. -/
def find_route_a_star_path (g : Graph) (h : Nat → Nat → Q)
    (start_id target_id : Int) (max_edges max_nodes : Nat) : RouteResult :=
  if start_id < 0 ∨ (g.num_nodes : Int) ≤ start_id ∨
      target_id < 0 ∨ (g.num_nodes : Int) ≤ target_id then RouteResult.err 11
  else
    let s := start_id.toNat
    let t := target_id.toNat
    match astarLoop g h t (g.num_nodes + 1) (astarInit g h s t) with
    | none => RouteResult.err 99
    | some (st, ex) =>
      match ex with
      | LoopExit.foundTarget =>
        match walkParent st.par g.num_nodes t [] with
        | none => RouteResult.err 99
        | some nodes =>
          if max_nodes < nodes.length then RouteResult.err 17
          else
            match mapEdges g max_edges 0 nodes with
            | Except.error c => RouteResult.err c
            | Except.ok edges => RouteResult.ok (st.gs.getD t ⊤) nodes edges
      | _ => RouteResult.noPath

/-! ### Path semantics

Paths follow the adjacency lists, exactly as the engine explores them: an
edge step uses an adjacency entry of `u` that passes the engine's own
validity checks. -/

inductive IsPath (g : Graph) : Nat → Nat → List Nat → Prop where
  | nil (u : Nat) (hu : u < g.num_nodes) : IsPath g u u []
  | cons (u : Nat) (eid : Nat) {v w : Nat} {es : List Nat}
      (hu : u < g.num_nodes) (he : eid ∈ adjOf g u) (hev : eid < g.num_edges)
      (hto : (g.edges.getD eid default).to_node = v)
      (rest : IsPath g v w es) : IsPath g u w (eid :: es)

/-- The travel-time cost of an edge-id path under the current weights. -/
def pathCost (g : Graph) (es : List Nat) : Q :=
  (es.map (get_edge_weight g)).sum

/-- `v` is reachable from `u` along adjacency edges. -/
def Reachable (g : Graph) (u v : Nat) : Prop :=
  ∃ es, IsPath g u v es

theorem pathCost_nil (g : Graph) : pathCost g [] = 0 := rfl

theorem pathCost_cons (g : Graph) (eid : Nat) (es : List Nat) :
    pathCost g (eid :: es) = get_edge_weight g eid + pathCost g es := by
  unfold pathCost
  rw [List.map_cons, List.sum_cons]

theorem pathCost_append (g : Graph) (es1 es2 : List Nat) :
    pathCost g (es1 ++ es2) = pathCost g es1 + pathCost g es2 := by
  unfold pathCost
  rw [List.map_append, List.sum_append]

theorem IsPath.source_lt {g : Graph} {a b : Nat} {es : List Nat}
    (p : IsPath g a b es) : a < g.num_nodes := by
  cases p with
  | nil _ hu => exact hu
  | cons _ _ hu _ _ _ _ => exact hu

theorem IsPath.target_lt {g : Graph} {a b : Nat} {es : List Nat}
    (p : IsPath g a b es) : b < g.num_nodes := by
  induction p with
  | nil _ hu => exact hu
  | cons _ _ _ _ _ _ _ ih => exact ih

theorem IsPath.append_edge {g : Graph} {a b : Nat} {es : List Nat}
    (p : IsPath g a b es) {eid v : Nat} (he : eid ∈ adjOf g b)
    (hev : eid < g.num_edges) (hto : (g.edges.getD eid default).to_node = v)
    (hv : v < g.num_nodes) : IsPath g a v (es ++ [eid]) := by
  induction p with
  | nil u hu =>
    exact IsPath.cons u eid hu he hev hto (IsPath.nil v hv)
  | cons u eid0 hu he0 hev0 hto0 rest ih =>
    exact IsPath.cons u eid0 hu he0 hev0 hto0 (ih he)

theorem pathCost_nonneg {g : Graph}
    (hw : ∀ eid, eid < g.num_edges → 0 ≤ get_edge_weight g eid)
    {a b : Nat} {es : List Nat} (p : IsPath g a b es) : 0 ≤ pathCost g es := by
  induction p with
  | nil _ _ => exact le_refl 0
  | cons u eid hu he hev hto rest ih =>
    rw [pathCost_cons]
    have := hw eid hev
    linarith

/-- Consistency of the heuristic toward target `t` with respect to the
current edge weights: the property the spec's admissibility argument needs
and the code's `heuristic` has only when observed speeds stay within
`max_speed` and lengths dominate straight-line distances. -/
def HConsistent (g : Graph) (h : Nat → Nat → Q) (t : Nat) : Prop :=
  ∀ u, u < g.num_nodes → ∀ eid, eid ∈ adjOf g u → eid < g.num_edges →
    (g.edges.getD eid default).to_node < g.num_nodes →
    h u t ≤ get_edge_weight g eid + h ((g.edges.getD eid default).to_node) t

theorem hconsistent_telescope {g : Graph} {h : Nat → Nat → Q} {t : Nat}
    (hc : HConsistent g h t) {a b : Nat} {es : List Nat}
    (p : IsPath g a b es) : h a t ≤ pathCost g es + h b t := by
  induction p with
  | nil u _ =>
    rw [pathCost_nil, zero_add]
  | cons u eid hu he hev hto rest ih =>
    rw [pathCost_cons]
    have hvlt := rest.source_lt
    have h1 := hc u hu eid he hev (by rw [hto]; exact hvlt)
    rw [hto] at h1
    linarith

/-! ### The A* loop invariant -/

def gsD (st : AState) (v : Nat) : QInf := st.gs.getD v ⊤

def parD (st : AState) (v : Nat) : Option Nat := st.par.getD v none

/-- The neighbor-finiteness fact for one settled node: every valid out-edge
head has a finite g-score. -/
def NbFin (g : Graph) (st : AState) (v : Nat) : Prop :=
  ∀ eid, eid ∈ adjOf g v → eid < g.num_edges →
    (g.edges.getD eid default).to_node < g.num_nodes →
    gsD st ((g.edges.getD eid default).to_node) ≠ ⊤

/-- The relaxed-edge bound for one settled node. -/
def NbLe (g : Graph) (st : AState) (v : Nat) : Prop :=
  ∀ eid, eid ∈ adjOf g v → eid < g.num_edges →
    (g.edges.getD eid default).to_node < g.num_nodes →
    gsD st ((g.edges.getD eid default).to_node) ≤
      gsD st v + ((get_edge_weight g eid : Q) : QInf)

/-- The core loop invariant of the A* engine (no heuristic assumptions). -/
structure BaseInv (g : Graph) (h : Nat → Nat → Q) (s t : Nat) (st : AState) : Prop where
  gs_len : st.gs.length = g.num_nodes
  fs_len : st.fs.length = g.num_nodes
  par_len : st.par.length = g.num_nodes
  hvalid : HeapValid st.heap
  hfaith : PosFaithful st.heap
  hcap : st.heap.capacity = g.num_nodes
  key_top_iff : ∀ v, Mem st.heap v → (keyOf st.heap v = ⊤ ↔ gsD st v = ⊤)
  key_eq : ∀ v, Mem st.heap v → gsD st v ≠ ⊤ →
    keyOf st.heap v = gsD st v + ((h v t : Q) : QInf)
  gs_s : gsD st s = ((0 : Q) : QInf)
  par_s : parD st s = none
  gs_real : ∀ v, gsD st v ≠ ⊤ →
    ∃ es, IsPath g s v es ∧ gsD st v = ((pathCost g es : Q) : QInf)
  par_spec : ∀ v u, parD st v = some u → u < g.num_nodes ∧ v < g.num_nodes ∧
    ¬Mem st.heap u ∧ gsD st u ≠ ⊤ ∧ gsD st v ≠ ⊤ ∧
    ∃ eid, eid ∈ adjOf g u ∧ eid < g.num_edges ∧
      (g.edges.getD eid default).to_node = v ∧
      gsD st u + ((get_edge_weight g eid : Q) : QInf) ≤ gsD st v
  mem_t : Mem st.heap t
  closed_fin : ∀ v, v < g.num_nodes → ¬Mem st.heap v → gsD st v ≠ ⊤
  par_fin : ∀ v, v ≠ s → gsD st v ≠ ⊤ → parD st v ≠ none

/-- The settled-neighbor half of the invariant, tracked separately because
it is established edge by edge during the scan of a freshly settled node. -/
def ClosedNb (g : Graph) (st : AState) (excl : Nat → Prop) : Prop :=
  ∀ v, v < g.num_nodes → ¬Mem st.heap v → ¬excl v → NbFin g st v

/-- The extra invariant available when the heuristic is consistent. -/
structure ConsAdd (g : Graph) (h : Nat → Nat → Q) (s t : Nat) (st : AState)
    (excl : Nat → Prop) : Prop where
  closed_lb : ∀ v, v < g.num_nodes → ¬Mem st.heap v → ∀ es, IsPath g s v es →
    gsD st v ≤ ((pathCost g es : Q) : QInf)
  closed_nb_le : ∀ v, v < g.num_nodes → ¬Mem st.heap v → ¬excl v → NbLe g st v
  par_exact : ∀ v u, parD st v = some u →
    ∃ eid, eid ∈ adjOf g u ∧ eid < g.num_edges ∧
      (g.edges.getD eid default).to_node = v ∧
      gsD st v = gsD st u + ((get_edge_weight g eid : Q) : QInf)

theorem getD_set {α : Type} (l : List α) (i x : Nat) (a d : α) :
    (l.set i a).getD x d = if x = i ∧ i < l.length then a else l.getD x d := by
  rw [List.getD_eq_getElem?_getD, List.getD_eq_getElem?_getD, List.getElem?_set]
  by_cases h1 : i = x
  · subst h1
    by_cases h2 : i < l.length
    · rw [if_pos rfl, if_pos h2, if_pos ⟨rfl, h2⟩]
      rfl
    · rw [if_pos rfl, if_neg h2, if_neg (fun hh => h2 hh.2)]
      rw [List.getElem?_eq_none (Nat.le_of_not_lt h2)]
  · rw [if_neg h1, if_neg (fun hh => h1 hh.1.symm)]

theorem qinf_ne_top_of_le {x : QInf} {q : Q} (hx : x ≤ (q : QInf)) : x ≠ ⊤ := by
  intro hh
  rw [hh] at hx
  exact absurd (top_le_iff.mp hx) (WithTop.coe_ne_top)

theorem qinf_add_ne_top {x : QInf} (hx : x ≠ ⊤) (q : Q) : x + (q : QInf) ≠ ⊤ := by
  obtain ⟨a, rfl⟩ := WithTop.ne_top_iff_exists.mp hx
  rw [← WithTop.coe_add]
  exact WithTop.coe_ne_top

theorem relaxEdge_cases (g : Graph) (h : Nat → Nat → Q) (t u : Nat) (st : AState)
    (eid : Nat) :
    relaxEdge g h t u st eid = st ∨
    (eid < g.num_edges ∧ (g.edges.getD eid default).to_node < g.num_nodes ∧
      gsD st u ≠ ⊤ ∧
      gsD st u + ((get_edge_weight g eid : Q) : QInf) <
        gsD st ((g.edges.getD eid default).to_node) ∧
      relaxEdge g h t u st eid =
        { gs := st.gs.set ((g.edges.getD eid default).to_node)
            (gsD st u + ((get_edge_weight g eid : Q) : QInf)),
          fs := st.fs.set ((g.edges.getD eid default).to_node)
            (gsD st u + ((get_edge_weight g eid : Q) : QInf) +
              ((h ((g.edges.getD eid default).to_node) t : Q) : QInf)),
          par := st.par.set ((g.edges.getD eid default).to_node) (some u),
          heap :=
            if isInMinHeap st.heap ((g.edges.getD eid default).to_node) then
              decreaseKey st.heap ((g.edges.getD eid default).to_node)
                (gsD st u + ((get_edge_weight g eid : Q) : QInf) +
                  ((h ((g.edges.getD eid default).to_node) t : Q) : QInf))
            else st.heap }) := by
  unfold relaxEdge
  simp only
  by_cases h1 : eid < g.num_edges
  · rw [if_pos h1]
    by_cases h2 : (g.edges.getD eid default).to_node < g.num_nodes
    · rw [if_pos h2]
      by_cases h3 : st.gs.getD u ⊤ ≠ ⊤
      · rw [if_pos h3]
        by_cases h4 : st.gs.getD u ⊤ + ((get_edge_weight g eid : Q) : QInf) <
            st.gs.getD ((g.edges.getD eid default).to_node) ⊤
        · rw [if_pos h4]
          exact Or.inr ⟨h1, h2, h3, h4, rfl⟩
        · rw [if_neg h4]
          exact Or.inl rfl
      · rw [if_neg h3]
        exact Or.inl rfl
    · rw [if_neg h2]
      exact Or.inl rfl
  · rw [if_neg h1]
    exact Or.inl rfl

/-- The relaxation bound that one processed adjacency entry guarantees. -/
theorem relaxEdge_establish {g : Graph} (h : Nat → Nat → Q) (t u : Nat)
    {st : AState} (eid : Nat) (he1 : eid < g.num_edges)
    (hv0 : (g.edges.getD eid default).to_node < g.num_nodes)
    (huf : gsD st u ≠ ⊤)
    (hlen : (g.edges.getD eid default).to_node < st.gs.length) :
    gsD (relaxEdge g h t u st eid) ((g.edges.getD eid default).to_node) ≤
      gsD st u + ((get_edge_weight g eid : Q) : QInf) := by
  have huf' : st.gs.getD u ⊤ ≠ ⊤ := huf
  unfold relaxEdge
  simp only
  rw [if_pos he1, if_pos hv0, if_pos huf']
  by_cases h4 : st.gs.getD u ⊤ + ((get_edge_weight g eid : Q) : QInf) <
      st.gs.getD ((g.edges.getD eid default).to_node) ⊤
  · rw [if_pos h4]
    show ((st.gs.set _ _).getD _ ⊤) ≤ _
    rw [getD_set, if_pos ⟨rfl, hlen⟩]
    exact le_refl _
  · rw [if_neg h4]
    exact le_of_not_lt h4

theorem qinf_ne_top_mono {x y : QInf} (hxy : x ≤ y) (hy : y ≠ ⊤) : x ≠ ⊤ := by
  intro hh
  rw [hh] at hxy
  exact hy (top_le_iff.mp hxy)

/-- One relaxation step from a freshly settled node `u` preserves the core
invariant, never increases any g-score, never changes heap membership, and
leaves the g-score of `u` itself unchanged. -/
theorem relaxEdge_step {g : Graph} {h : Nat → Nat → Q} {s t : Nat} {st : AState}
    {u : Nat} (eid : Nat)
    (hw : ∀ e, e < g.num_edges → 0 ≤ get_edge_weight g e)
    (hb : BaseInv g h s t st)
    (hu : u < g.num_nodes) (huc : ¬Mem st.heap u) (huf : gsD st u ≠ ⊤)
    (hmem : eid ∈ adjOf g u) :
    BaseInv g h s t (relaxEdge g h t u st eid) ∧
    (∀ v, gsD (relaxEdge g h t u st eid) v ≤ gsD st v) ∧
    (∀ v, Mem (relaxEdge g h t u st eid).heap v ↔ Mem st.heap v) ∧
    gsD (relaxEdge g h t u st eid) u = gsD st u ∧
    (relaxEdge g h t u st eid).heap.size = st.heap.size := by
  rcases relaxEdge_cases g h t u st eid with hid | ⟨he1, hv0, _, hlt, heq⟩
  · rw [hid]
    exact ⟨hb, fun v => le_refl _, fun v => Iff.rfl, rfl, rfl⟩
  set v0 := (g.edges.getD eid default).to_node with hv0def
  set w0 := get_edge_weight g eid with hw0def
  obtain ⟨esu, hpu, hgsu⟩ := hb.gs_real u huf
  have hw0nn : 0 ≤ w0 := hw eid he1
  have hcnn : 0 ≤ pathCost g esu := pathCost_nonneg hw hpu
  have hne_u : v0 ≠ u := by
    intro hh
    rw [hh, hgsu, ← WithTop.coe_add, WithTop.coe_lt_coe] at hlt
    linarith
  have hne_s : v0 ≠ s := by
    intro hh
    rw [hh, hb.gs_s, hgsu, ← WithTop.coe_add, WithTop.coe_lt_coe] at hlt
    linarith
  have htgfin : gsD st u + ((w0 : Q) : QInf) ≠ ⊤ := qinf_add_ne_top huf w0
  have hgs' : ∀ x, gsD (relaxEdge g h t u st eid) x =
      if x = v0 then gsD st u + ((w0 : Q) : QInf) else gsD st x := by
    intro x
    rw [heq]
    show (st.gs.set v0 (gsD st u + ((w0 : Q) : QInf))).getD x ⊤ = _
    rw [getD_set]
    by_cases hx : x = v0
    · rw [if_pos ⟨hx, by rw [hb.gs_len]; exact hv0⟩, if_pos hx]
    · rw [if_neg (fun hh => hx hh.1), if_neg hx]
      rfl
  have hpar' : ∀ x, parD (relaxEdge g h t u st eid) x =
      if x = v0 then some u else parD st x := by
    intro x
    rw [heq]
    show (st.par.set v0 (some u)).getD x none = _
    rw [getD_set]
    by_cases hx : x = v0
    · rw [if_pos ⟨hx, by rw [hb.par_len]; exact hv0⟩, if_pos hx]
    · rw [if_neg (fun hh => hx hh.1), if_neg hx]
      rfl
  have hre : (relaxEdge g h t u st eid).heap =
      if isInMinHeap st.heap v0 = true then
        decreaseKey st.heap v0
          (gsD st u + ((w0 : Q) : QInf) + ((h v0 t : Q) : QInf))
      else st.heap := by
    rw [heq]
  have hheap : HeapValid (relaxEdge g h t u st eid).heap ∧
      PosFaithful (relaxEdge g h t u st eid).heap ∧
      (relaxEdge g h t u st eid).heap.capacity = st.heap.capacity ∧
      (∀ x, Mem (relaxEdge g h t u st eid).heap x ↔ Mem st.heap x) ∧
      (∀ x, x ≠ v0 → Mem st.heap x →
        keyOf (relaxEdge g h t u st eid).heap x = keyOf st.heap x) ∧
      (Mem st.heap v0 → keyOf (relaxEdge g h t u st eid).heap v0 =
        gsD st u + ((w0 : Q) : QInf) + ((h v0 t : Q) : QInf)) ∧
      (relaxEdge g h t u st eid).heap.size = st.heap.size := by
    rw [hre]
    split_ifs with hmm0
    · have hm0 : Mem st.heap v0 :=
        (isInMinHeap_iff_mem (by rw [hb.hcap]; exact hv0)).mp hmm0
      have hkle : gsD st u + ((w0 : Q) : QInf) + ((h v0 t : Q) : QInf) ≤
          keyOf st.heap v0 := by
        by_cases htop : gsD st v0 = ⊤
        · rw [(hb.key_top_iff v0 hm0).mpr htop]
          exact le_top
        · rw [hb.key_eq v0 hm0 htop]
          exact add_le_add_right (le_of_lt hlt) _
      obtain ⟨hdv, hds, hdc, hdm, hdf⟩ := decreaseKey_spec hb.hvalid hm0 hkle
      obtain ⟨hdff, hdkv, hdko⟩ := hdf hb.hfaith
      exact ⟨hdv, hdff, hdc, hdm, fun x hx hxm => hdko x hx hxm, fun _ => hdkv, hds⟩
    · refine ⟨hb.hvalid, hb.hfaith, rfl, fun x => Iff.rfl, fun x _ _ => rfl, ?_, rfl⟩
      intro hm0
      exact absurd ((isInMinHeap_iff_mem (by rw [hb.hcap]; exact hv0)).mpr hm0) hmm0
  obtain ⟨hH1, hH2, hH3, hH4, hH5, hH6, hH7⟩ := hheap
  have hmono : ∀ v, gsD (relaxEdge g h t u st eid) v ≤ gsD st v := by
    intro v
    rw [hgs' v]
    by_cases hx : v = v0
    · rw [if_pos hx, hx]
      exact le_of_lt hlt
    · rw [if_neg hx]
  have hgsu' : gsD (relaxEdge g h t u st eid) u = gsD st u := by
    rw [hgs' u, if_neg (fun hh => hne_u hh.symm)]
  refine ⟨⟨?_, ?_, ?_, hH1, hH2, ?_, ?_, ?_, ?_, ?_, ?_, ?_,
    (hH4 t).mpr hb.mem_t, ?_, ?_⟩, hmono, hH4, hgsu', hH7⟩
  · rw [heq]
    show (st.gs.set v0 _).length = g.num_nodes
    rw [List.length_set, hb.gs_len]
  · rw [heq]
    show (st.fs.set v0 _).length = g.num_nodes
    rw [List.length_set, hb.fs_len]
  · rw [heq]
    show (st.par.set v0 _).length = g.num_nodes
    rw [List.length_set, hb.par_len]
  · rw [hH3, hb.hcap]
  · intro v hv
    have hvm := (hH4 v).mp hv
    by_cases hx : v = v0
    · rw [hx] at hvm ⊢
      rw [hH6 hvm, hgs' v0, if_pos rfl]
      exact iff_of_false (qinf_add_ne_top htgfin _) htgfin
    · rw [hH5 v hx hvm, hgs' v, if_neg hx]
      exact hb.key_top_iff v hvm
  · intro v hv hvf
    have hvm := (hH4 v).mp hv
    by_cases hx : v = v0
    · rw [hx] at hvm ⊢
      rw [hH6 hvm, hgs' v0, if_pos rfl]
    · rw [hgs' v, if_neg hx] at hvf
      rw [hH5 v hx hvm, hgs' v, if_neg hx]
      exact hb.key_eq v hvm hvf
  · rw [hgs' s, if_neg (fun hh => hne_s hh.symm)]
    exact hb.gs_s
  · rw [hpar' s, if_neg (fun hh => hne_s hh.symm)]
    exact hb.par_s
  · intro v hvf
    by_cases hx : v = v0
    · subst hx
      refine ⟨esu ++ [eid], hpu.append_edge hmem he1 hv0def.symm hv0, ?_⟩
      rw [hgs' v0, if_pos rfl, hgsu, pathCost_append, pathCost_cons, pathCost_nil,
        add_zero, ← hw0def, ← WithTop.coe_add]
    · rw [hgs' v, if_neg hx] at hvf ⊢
      exact hb.gs_real v hvf
  · intro v pu hpv
    rw [hpar' v] at hpv
    by_cases hx : v = v0
    · rw [if_pos hx] at hpv
      injection hpv with hupu
      subst hupu
      subst hx
      refine ⟨hu, hv0, ?_, ?_, ?_, eid, hmem, he1, hv0def.symm, ?_⟩
      · intro hmem'
        exact huc ((hH4 u).mp hmem')
      · rw [hgsu']
        exact huf
      · rw [hgs' v0, if_pos rfl]
        exact htgfin
      · rw [hgs' v0, if_pos rfl, hgsu', ← hw0def]
    · rw [if_neg hx] at hpv
      obtain ⟨h1, h2, h3, h4, h5, eid', hm', he1', hto', hle'⟩ := hb.par_spec v pu hpv
      refine ⟨h1, h2, fun hmem' => h3 ((hH4 pu).mp hmem'), ?_, ?_, eid', hm', he1', hto', ?_⟩
      · exact qinf_ne_top_mono (hmono pu) h4
      · rw [hgs' v, if_neg hx]
        exact h5
      · rw [hgs' v, if_neg hx]
        exact le_trans (add_le_add_right (hmono pu) _) hle'
  · intro v hv hnm
    exact qinf_ne_top_mono (hmono v) (hb.closed_fin v hv (fun hh => hnm ((hH4 v).mpr hh)))
  · intro v hvs hvf
    rw [hpar' v]
    by_cases hx : v = v0
    · rw [if_pos hx]
      exact Option.some_ne_none u
    · rw [if_neg hx]
      rw [hgs' v, if_neg hx] at hvf
      exact hb.par_fin v hvs hvf

/-- Under the consistency invariant, a relaxation step never touches the
g-score of a settled node, and the additional invariant is preserved. -/
theorem relaxEdge_cons {g : Graph} {h : Nat → Nat → Q} {s t : Nat} {st : AState}
    {u : Nat} {excl : Nat → Prop} (eid : Nat)
    (hw : ∀ e, e < g.num_edges → 0 ≤ get_edge_weight g e)
    (hb : BaseInv g h s t st)
    (hu : u < g.num_nodes) (huc : ¬Mem st.heap u) (huf : gsD st u ≠ ⊤)
    (hmem : eid ∈ adjOf g u)
    (hca : ConsAdd g h s t st excl) :
    ConsAdd g h s t (relaxEdge g h t u st eid) excl ∧
    (∀ v, ¬Mem st.heap v → gsD (relaxEdge g h t u st eid) v = gsD st v) := by
  obtain ⟨_, hmono, hmemiff, _, _⟩ := relaxEdge_step eid hw hb hu huc huf hmem
  rcases relaxEdge_cases g h t u st eid with hid | ⟨he1, hv0, _, hlt, heq⟩
  · rw [hid] at hmono hmemiff ⊢
    exact ⟨hca, fun v _ => rfl⟩
  set v0 := (g.edges.getD eid default).to_node with hv0def
  set w0 := get_edge_weight g eid with hw0def
  obtain ⟨esu, hpu, hgsu⟩ := hb.gs_real u huf
  have hgs' : ∀ x, gsD (relaxEdge g h t u st eid) x =
      if x = v0 then gsD st u + ((w0 : Q) : QInf) else gsD st x := by
    intro x
    rw [heq]
    show (st.gs.set v0 (gsD st u + ((w0 : Q) : QInf))).getD x ⊤ = _
    rw [getD_set]
    by_cases hx : x = v0
    · rw [if_pos ⟨hx, by rw [hb.gs_len]; exact hv0⟩, if_pos hx]
    · rw [if_neg (fun hh => hx hh.1), if_neg hx]
      rfl
  have hpar' : ∀ x, parD (relaxEdge g h t u st eid) x =
      if x = v0 then some u else parD st x := by
    intro x
    rw [heq]
    show (st.par.set v0 (some u)).getD x none = _
    rw [getD_set]
    by_cases hx : x = v0
    · rw [if_pos ⟨hx, by rw [hb.par_len]; exact hv0⟩, if_pos hx]
    · rw [if_neg (fun hh => hx hh.1), if_neg hx]
      rfl
  have hv0mem : Mem st.heap v0 := by
    by_contra hop
    have hpath : IsPath g s v0 (esu ++ [eid]) :=
      hpu.append_edge hmem he1 hv0def.symm hv0
    have hlb := hca.closed_lb v0 hv0 hop (esu ++ [eid]) hpath
    rw [pathCost_append, pathCost_cons, pathCost_nil, add_zero, ← hw0def] at hlb
    rw [hgsu, ← WithTop.coe_add] at hlt
    exact absurd (lt_of_le_of_lt hlb hlt) (lt_irrefl _)
  have hfrozen : ∀ v, ¬Mem st.heap v →
      gsD (relaxEdge g h t u st eid) v = gsD st v := by
    intro v hvc
    rw [hgs' v, if_neg (fun hh => hvc (by rw [hh]; exact hv0mem))]
  refine ⟨⟨?_, ?_, ?_⟩, hfrozen⟩
  · intro v hv hvc es hp
    have hvc0 : ¬Mem st.heap v := fun hh => hvc ((hmemiff v).mpr hh)
    rw [hfrozen v hvc0]
    exact hca.closed_lb v hv hvc0 es hp
  · intro v hv hvc hex eid' he' hev' hto'
    have hvc0 : ¬Mem st.heap v := fun hh => hvc ((hmemiff v).mpr hh)
    rw [hfrozen v hvc0]
    exact le_trans (hmono _) (hca.closed_nb_le v hv hvc0 hex eid' he' hev' hto')
  · intro v pu hpv
    rw [hpar' v] at hpv
    by_cases hx : v = v0
    · rw [if_pos hx] at hpv
      injection hpv with hupu
      subst hupu
      subst hx
      refine ⟨eid, hmem, he1, hv0def.symm, ?_⟩
      rw [hgs' v0, if_pos rfl, hfrozen u huc, ← hw0def]
    · rw [if_neg hx] at hpv
      obtain ⟨eid', hm', hev', hto', hexact⟩ := hca.par_exact v pu hpv
      have hpuc : ¬Mem st.heap pu := (hb.par_spec v pu hpv).2.2.1
      refine ⟨eid', hm', hev', hto', ?_⟩
      rw [hgs' v, if_neg hx, hfrozen pu hpuc]
      exact hexact

theorem relaxList_spec {g : Graph} {h : Nat → Nat → Q} {s t : Nat} {u : Nat}
    (hw : ∀ e, e < g.num_edges → 0 ≤ get_edge_weight g e)
    (hu : u < g.num_nodes) :
    ∀ (l : List Nat) (st : AState), (∀ e ∈ l, e ∈ adjOf g u) →
    BaseInv g h s t st → ¬Mem st.heap u → gsD st u ≠ ⊤ →
    BaseInv g h s t (l.foldl (relaxEdge g h t u) st) ∧
    (∀ v, gsD (l.foldl (relaxEdge g h t u) st) v ≤ gsD st v) ∧
    (∀ v, Mem (l.foldl (relaxEdge g h t u) st).heap v ↔ Mem st.heap v) ∧
    gsD (l.foldl (relaxEdge g h t u) st) u = gsD st u ∧
    (l.foldl (relaxEdge g h t u) st).heap.size = st.heap.size ∧
    (∀ e ∈ l, e < g.num_edges → (g.edges.getD e default).to_node < g.num_nodes →
      gsD (l.foldl (relaxEdge g h t u) st) ((g.edges.getD e default).to_node) ≤
        gsD (l.foldl (relaxEdge g h t u) st) u + ((get_edge_weight g e : Q) : QInf)) := by
  intro l
  induction l with
  | nil =>
    intro st _ hb huc huf
    exact ⟨hb, fun v => le_refl _, fun v => Iff.rfl, rfl, rfl,
      fun e he => absurd he (List.not_mem_nil e)⟩
  | cons e l ih =>
    intro st hl hb huc huf
    rw [List.foldl_cons]
    obtain ⟨hb1, hmono1, hmem1, hgsu1, hsz1⟩ :=
      relaxEdge_step e hw hb hu huc huf (hl e (List.mem_cons_self e l))
    have huc1 : ¬Mem (relaxEdge g h t u st e).heap u := fun hh => huc ((hmem1 u).mp hh)
    have huf1 : gsD (relaxEdge g h t u st e) u ≠ ⊤ := by
      rw [hgsu1]
      exact huf
    obtain ⟨hb', hmono', hmem', hgsu', hsz', hnb'⟩ :=
      ih (relaxEdge g h t u st e) (fun e' he' => hl e' (List.mem_cons_of_mem e he'))
        hb1 huc1 huf1
    refine ⟨hb', fun v => le_trans (hmono' v) (hmono1 v),
      fun v => (hmem' v).trans (hmem1 v), hgsu'.trans hgsu1, hsz'.trans hsz1, ?_⟩
    intro e' he' hev' hto'
    rcases List.mem_cons.mp he' with rfl | he2
    · have hest := relaxEdge_establish h t u e' hev' hto' huf
        (by rw [hb.gs_len]; exact hto')
      rw [hgsu'.trans hgsu1]
      exact le_trans (hmono' _) hest
    · exact hnb' e' he2 hev' hto'

/-- The full neighbor scan of a freshly settled node: the core invariant is
preserved, no g-score grows, heap membership is untouched, the settled
node's g-score is unchanged, and afterwards every out-edge of `u` is
relaxed. -/
theorem relaxAll_spec {g : Graph} {h : Nat → Nat → Q} {s t : Nat} {u : Nat}
    {st : AState}
    (hw : ∀ e, e < g.num_edges → 0 ≤ get_edge_weight g e)
    (hb : BaseInv g h s t st)
    (hu : u < g.num_nodes) (huc : ¬Mem st.heap u) (huf : gsD st u ≠ ⊤) :
    BaseInv g h s t (relaxAll g h t u st) ∧
    (∀ v, gsD (relaxAll g h t u st) v ≤ gsD st v) ∧
    (∀ v, Mem (relaxAll g h t u st).heap v ↔ Mem st.heap v) ∧
    gsD (relaxAll g h t u st) u = gsD st u ∧
    (relaxAll g h t u st).heap.size = st.heap.size ∧
    NbLe g (relaxAll g h t u st) u := by
  obtain ⟨h1, h2, h3, h4, h5, h6⟩ :=
    relaxList_spec hw hu (adjOf g u) st (fun _ he => he) hb huc huf
  exact ⟨h1, h2, h3, h4, h5, fun e he hev hto => h6 e he hev hto⟩

theorem relaxList_cons {g : Graph} {h : Nat → Nat → Q} {s t : Nat} {u : Nat}
    {excl : Nat → Prop}
    (hw : ∀ e, e < g.num_edges → 0 ≤ get_edge_weight g e)
    (hu : u < g.num_nodes) :
    ∀ (l : List Nat) (st : AState), (∀ e ∈ l, e ∈ adjOf g u) →
    BaseInv g h s t st → ¬Mem st.heap u → gsD st u ≠ ⊤ →
    ConsAdd g h s t st excl →
    ConsAdd g h s t (l.foldl (relaxEdge g h t u) st) excl ∧
    (∀ v, ¬Mem st.heap v → gsD (l.foldl (relaxEdge g h t u) st) v = gsD st v) := by
  intro l
  induction l with
  | nil =>
    intro st _ _ _ _ hca
    exact ⟨hca, fun v _ => rfl⟩
  | cons e l ih =>
    intro st hl hb huc huf hca
    rw [List.foldl_cons]
    obtain ⟨hb1, hmono1, hmem1, hgsu1, hsz1⟩ :=
      relaxEdge_step e hw hb hu huc huf (hl e (List.mem_cons_self e l))
    obtain ⟨hca1, hfr1⟩ :=
      relaxEdge_cons e hw hb hu huc huf (hl e (List.mem_cons_self e l)) hca
    have huc1 : ¬Mem (relaxEdge g h t u st e).heap u := fun hh => huc ((hmem1 u).mp hh)
    have huf1 : gsD (relaxEdge g h t u st e) u ≠ ⊤ := by
      rw [hgsu1]
      exact huf
    obtain ⟨hca', hfr'⟩ :=
      ih (relaxEdge g h t u st e) (fun e' he' => hl e' (List.mem_cons_of_mem e he'))
        hb1 huc1 huf1 hca1
    refine ⟨hca', ?_⟩
    intro v hvc
    rw [hfr' v (fun hh => hvc ((hmem1 v).mp hh)), hfr1 v hvc]

/-- The consistency-side counterpart of `relaxAll_spec`. -/
theorem relaxAll_cons {g : Graph} {h : Nat → Nat → Q} {s t : Nat} {u : Nat}
    {excl : Nat → Prop} {st : AState}
    (hw : ∀ e, e < g.num_edges → 0 ≤ get_edge_weight g e)
    (hb : BaseInv g h s t st)
    (hu : u < g.num_nodes) (huc : ¬Mem st.heap u) (huf : gsD st u ≠ ⊤)
    (hca : ConsAdd g h s t st excl) :
    ConsAdd g h s t (relaxAll g h t u st) excl ∧
    (∀ v, ¬Mem st.heap v → gsD (relaxAll g h t u st) v = gsD st v) :=
  relaxList_cons hw hu (adjOf g u) st (fun _ he => he) hb huc huf hca

/-- Frontier crossing: following any adjacency path from a settled node,
either the endpoint's g-score is already bounded by the path, or the path
crosses an open node whose key is bounded by the path (consistency
telescoping the heuristic along the remainder). -/
theorem frontier_cover {g : Graph} {h : Nat → Nat → Q} {s t : Nat} {st : AState}
    (hc : HConsistent g h t)
    (hb : BaseInv g h s t st)
    (hca : ConsAdd g h s t st (fun _ => False)) :
    ∀ (es : List Nat) (a b : Nat), IsPath g a b es → ¬Mem st.heap a →
      gsD st b ≤ gsD st a + ((pathCost g es : Q) : QInf) ∨
      ∃ y, Mem st.heap y ∧ gsD st y ≠ ⊤ ∧
        gsD st y + ((h y t : Q) : QInf) ≤
          gsD st a + ((pathCost g es + h b t : Q) : QInf) := by
  intro es a b hp
  induction hp with
  | nil u hu =>
    intro _
    left
    rw [pathCost_nil, WithTop.coe_zero, add_zero]
  | @cons u eid v w es hu he hev hto rest ih =>
    intro hac
    have huf : gsD st u ≠ ⊤ := hb.closed_fin u hu hac
    have hvlt : v < g.num_nodes := rest.source_lt
    have hgv_le : gsD st v ≤ gsD st u + ((get_edge_weight g eid : Q) : QInf) := by
      have hx := hca.closed_nb_le u hu hac (fun hf => hf) eid he hev
        (by rw [hto]; exact hvlt)
      rw [hto] at hx
      exact hx
    obtain ⟨γ, hγ⟩ := WithTop.ne_top_iff_exists.mp huf
    by_cases hvm : Mem st.heap v
    · right
      have hvf : gsD st v ≠ ⊤ := by
        apply qinf_ne_top_of_le (q := γ + get_edge_weight g eid)
        rw [WithTop.coe_add, hγ]
        exact hgv_le
      obtain ⟨δ, hδ⟩ := WithTop.ne_top_iff_exists.mp hvf
      have hδγ : δ ≤ γ + get_edge_weight g eid := by
        rw [← hγ, ← hδ, ← WithTop.coe_add, WithTop.coe_le_coe] at hgv_le
        exact hgv_le
      have htel : h v t ≤ pathCost g es + h w t := hconsistent_telescope hc rest
      refine ⟨v, hvm, hvf, ?_⟩
      rw [← hγ, ← hδ, ← WithTop.coe_add, ← WithTop.coe_add, WithTop.coe_le_coe,
        pathCost_cons]
      linarith
    · rcases ih hvm with hleft | ⟨y, hym, hyf, hyle⟩
      · left
        calc gsD st w ≤ gsD st v + ((pathCost g es : Q) : QInf) := hleft
          _ ≤ (gsD st u + ((get_edge_weight g eid : Q) : QInf)) +
              ((pathCost g es : Q) : QInf) := add_le_add_right hgv_le _
          _ = gsD st u + ((pathCost g (eid :: es) : Q) : QInf) := by
              rw [add_assoc, ← WithTop.coe_add, pathCost_cons]
      · right
        refine ⟨y, hym, hyf, ?_⟩
        calc gsD st y + ((h y t : Q) : QInf)
            ≤ gsD st v + ((pathCost g es + h w t : Q) : QInf) := hyle
          _ ≤ (gsD st u + ((get_edge_weight g eid : Q) : QInf)) +
              ((pathCost g es + h w t : Q) : QInf) := add_le_add_right hgv_le _
          _ = gsD st u + ((pathCost g (eid :: es) + h w t : Q) : QInf) := by
              rw [add_assoc, ← WithTop.coe_add, pathCost_cons, add_assoc]

theorem root_mem {hp : MinHeap} (hv : HeapValid hp) (hne : 0 < hp.size) :
    Mem hp (arrGet hp 0).1 ∧ keyOf hp (arrGet hp 0).1 = (arrGet hp 0).2 := by
  have h1 : (arrGet hp 0).1 < hp.capacity := hv.id_lt 0 hne
  have h2 : posGet hp (arrGet hp 0).1 = 0 := hv.pos_eq 0 hne
  refine ⟨⟨h1, ?_⟩, ?_⟩
  · rw [h2]
    exact hne
  · show (arrGet hp (posGet hp (arrGet hp 0).1)).2 = (arrGet hp 0).2
    rw [h2]

/-- When the heuristic is consistent, the g-score of the root about to be
extracted is a lower bound on the cost of every path from the source. -/
theorem extraction_lb {g : Graph} {h : Nat → Nat → Q} {s t : Nat} {st : AState}
    (hc : HConsistent g h t)
    (hb : BaseInv g h s t st)
    (hca : ConsAdd g h s t st (fun _ => False))
    (hne : 0 < st.heap.size)
    (hku : (arrGet st.heap 0).2 ≠ ⊤) :
    ∀ es, IsPath g s ((arrGet st.heap 0).1) es →
      gsD st ((arrGet st.heap 0).1) ≤ ((pathCost g es : Q) : QInf) := by
  obtain ⟨hum, hkey⟩ := root_mem hb.hvalid hne
  set u := (arrGet st.heap 0).1 with hudef
  have huf : gsD st u ≠ ⊤ := by
    intro hh
    apply hku
    rw [← hkey]
    exact (hb.key_top_iff u hum).mpr hh
  obtain ⟨γ, hγ⟩ := WithTop.ne_top_iff_exists.mp huf
  have hkeyu : keyOf st.heap u = gsD st u + ((h u t : Q) : QInf) :=
    hb.key_eq u hum huf
  have hmin : ∀ y, Mem st.heap y → keyOf st.heap u ≤ keyOf st.heap y := by
    intro y hym
    have hx := extractMin_min hb.hvalid hym
    rw [extractMin_fst] at hx
    rw [hkey]
    exact hx
  intro es hp
  by_cases hsm : Mem st.heap s
  · have hsf : gsD st s ≠ ⊤ := by
      rw [hb.gs_s]
      exact WithTop.coe_ne_top
    have hkeys : keyOf st.heap s = ((0 : Q) : QInf) + ((h s t : Q) : QInf) := by
      rw [hb.key_eq s hsm hsf, hb.gs_s]
    have htel : h s t ≤ pathCost g es + h u t := hconsistent_telescope hc hp
    have h1 := hmin s hsm
    rw [hkeyu, hkeys, ← hγ, ← WithTop.coe_add, ← WithTop.coe_add,
      WithTop.coe_le_coe] at h1
    rw [← hγ, WithTop.coe_le_coe]
    linarith
  · rcases frontier_cover hc hb hca es s u hp hsm with hleft | ⟨y, hym, hyf, hyle⟩
    · rw [hb.gs_s, ← hγ, ← WithTop.coe_add, WithTop.coe_le_coe] at hleft
      rw [← hγ, WithTop.coe_le_coe]
      linarith
    · obtain ⟨ρ, hρ⟩ := WithTop.ne_top_iff_exists.mp hyf
      have h1 := hmin y hym
      rw [hkeyu, hb.key_eq y hym hyf, ← hγ, ← hρ, ← WithTop.coe_add,
        ← WithTop.coe_add, WithTop.coe_le_coe] at h1
      rw [hb.gs_s, ← hρ, ← WithTop.coe_add, ← WithTop.coe_add, WithTop.coe_le_coe] at hyle
      rw [← hγ, WithTop.coe_le_coe]
      linarith

/-- The facts about `g_score`/`parent` that survive to the loop's exit state
(the heap is no longer constrained there). -/
structure ExitInv (g : Graph) (h : Nat → Nat → Q) (s t : Nat) (st : AState) : Prop where
  gs_len : st.gs.length = g.num_nodes
  par_len : st.par.length = g.num_nodes
  gs_s : gsD st s = ((0 : Q) : QInf)
  par_s : parD st s = none
  gs_real : ∀ v, gsD st v ≠ ⊤ →
    ∃ es, IsPath g s v es ∧ gsD st v = ((pathCost g es : Q) : QInf)
  par_spec : ∀ v pu, parD st v = some pu → pu < g.num_nodes ∧ v < g.num_nodes ∧
    gsD st pu ≠ ⊤ ∧ gsD st v ≠ ⊤ ∧
    ∃ eid, eid ∈ adjOf g pu ∧ eid < g.num_edges ∧
      (g.edges.getD eid default).to_node = v ∧
      gsD st pu + ((get_edge_weight g eid : Q) : QInf) ≤ gsD st v
  par_fin : ∀ v, v ≠ s → gsD st v ≠ ⊤ → parD st v ≠ none

theorem exitInv_of_base {g : Graph} {h : Nat → Nat → Q} {s t : Nat} {st : AState}
    (hb : BaseInv g h s t st) : ExitInv g h s t st := by
  refine ⟨hb.gs_len, hb.par_len, hb.gs_s, hb.par_s, hb.gs_real, ?_, hb.par_fin⟩
  intro v pu hpv
  obtain ⟨h1, h2, _, h4, h5, eid, hm, hev, hto, hle⟩ := hb.par_spec v pu hpv
  exact ⟨h1, h2, h4, h5, eid, hm, hev, hto, hle⟩

/-- Finite g-scores propagate across settled nodes: when every open node's
g-score is `⊤`, any adjacency path from a settled finite node stays settled
and finite. -/
theorem closed_propagate {g : Graph} {h : Nat → Nat → Q} {s t : Nat} {st : AState}
    (hb : BaseInv g h s t st)
    (hcnb : ClosedNb g st (fun _ => False))
    (htopmem : ∀ y, Mem st.heap y → gsD st y = ⊤) :
    ∀ (es : List Nat) (a b : Nat), IsPath g a b es → ¬Mem st.heap a →
      gsD st a ≠ ⊤ → ¬Mem st.heap b ∧ gsD st b ≠ ⊤ := by
  intro es a b hp
  induction hp with
  | nil u hu =>
    intro hac haf
    exact ⟨hac, haf⟩
  | @cons u eid v w es hu he hev hto rest ih =>
    intro hac haf
    have hvlt : v < g.num_nodes := rest.source_lt
    have hvf : gsD st v ≠ ⊤ := by
      have hx := hcnb u hu hac (fun hf => hf) eid he hev (by rw [hto]; exact hvlt)
      rw [hto] at hx
      exact hx
    have hvc : ¬Mem st.heap v := fun hh => hvf (htopmem v hh)
    exact ih hvc hvf

/-- Removing the root (finite key, not the target) from the heap keeps the
core invariant; the root becomes settled with a finite g-score. -/
theorem extract_step {g : Graph} {h : Nat → Nat → Q} {s t : Nat} {st : AState}
    (hb : BaseInv g h s t st)
    (hne : 0 < st.heap.size)
    (hku : (arrGet st.heap 0).2 ≠ ⊤)
    (hut : (arrGet st.heap 0).1 ≠ t) :
    BaseInv g h s t { st with heap := (extractMin st.heap).2 } ∧
    (arrGet st.heap 0).1 < g.num_nodes ∧
    ¬Mem (extractMin st.heap).2 ((arrGet st.heap 0).1) ∧
    gsD st ((arrGet st.heap 0).1) ≠ ⊤ ∧
    (∀ v, v ≠ (arrGet st.heap 0).1 →
      (Mem (extractMin st.heap).2 v ↔ Mem st.heap v)) ∧
    (extractMin st.heap).2.size = st.heap.size - 1 := by
  obtain ⟨hum, hkey⟩ := root_mem hb.hvalid hne
  have huf : gsD st ((arrGet st.heap 0).1) ≠ ⊤ := by
    intro hh
    apply hku
    rw [← hkey]
    exact (hb.key_top_iff _ hum).mpr hh
  obtain ⟨hv', hsz', hcap', hpos', hnm', hfa⟩ := extractMin_spec hb.hvalid hne
  obtain ⟨hfaith', hmem', hkey'⟩ := hfa hb.hfaith
  have hu_lt : (arrGet st.heap 0).1 < g.num_nodes := by
    rw [← hb.hcap]
    exact hum.1
  refine ⟨⟨hb.gs_len, hb.fs_len, hb.par_len, hv', hfaith', ?_, ?_, ?_, hb.gs_s,
    hb.par_s, hb.gs_real, ?_, ?_, ?_, hb.par_fin⟩, hu_lt, hnm', huf, hmem', hsz'⟩
  · show (extractMin st.heap).2.capacity = g.num_nodes
    rw [hcap', hb.hcap]
  · intro v hv
    have hvne : v ≠ (arrGet st.heap 0).1 := fun hh => hnm' (hh ▸ hv)
    have hvm : Mem st.heap v := (hmem' v hvne).mp hv
    show keyOf (extractMin st.heap).2 v = ⊤ ↔ gsD st v = ⊤
    rw [hkey' v hvne hvm]
    exact hb.key_top_iff v hvm
  · intro v hv hvf
    have hvne : v ≠ (arrGet st.heap 0).1 := fun hh => hnm' (hh ▸ hv)
    have hvm : Mem st.heap v := (hmem' v hvne).mp hv
    show keyOf (extractMin st.heap).2 v = gsD st v + ((h v t : Q) : QInf)
    rw [hkey' v hvne hvm]
    exact hb.key_eq v hvm hvf
  · intro v pu hpv
    obtain ⟨h1, h2, h3, h4, h5, eid, hm, hev, hto, hle⟩ := hb.par_spec v pu hpv
    refine ⟨h1, h2, ?_, h4, h5, eid, hm, hev, hto, hle⟩
    intro hh
    by_cases hx : pu = (arrGet st.heap 0).1
    · rw [hx] at hh
      exact hnm' hh
    · exact h3 ((hmem' pu hx).mp hh)
  · show Mem (extractMin st.heap).2 t
    exact (hmem' t (fun hh => hut hh.symm)).mpr hb.mem_t
  · intro v hv hnm
    by_cases hx : v = (arrGet st.heap 0).1
    · rw [hx]
      exact huf
    · exact hb.closed_fin v hv (fun hh => hnm ((hmem' v hx).mpr hh))

/-- One full A* iteration (pop a finite-key non-target root and scan its
out-edges) re-establishes all three loop invariants and shrinks the heap. -/
theorem loop_iter {g : Graph} {h : Nat → Nat → Q} {s t : Nat} {st : AState}
    (hw : ∀ e, e < g.num_edges → 0 ≤ get_edge_weight g e)
    (hb : BaseInv g h s t st)
    (hcnb : ClosedNb g st (fun _ => False))
    (hcons : HConsistent g h t → ConsAdd g h s t st (fun _ => False))
    (hne : 0 < st.heap.size)
    (hku : (arrGet st.heap 0).2 ≠ ⊤)
    (hut : (arrGet st.heap 0).1 ≠ t) :
    BaseInv g h s t
      (relaxAll g h t ((arrGet st.heap 0).1)
        { st with heap := (extractMin st.heap).2 }) ∧
    ClosedNb g
      (relaxAll g h t ((arrGet st.heap 0).1)
        { st with heap := (extractMin st.heap).2 }) (fun _ => False) ∧
    (HConsistent g h t → ConsAdd g h s t
      (relaxAll g h t ((arrGet st.heap 0).1)
        { st with heap := (extractMin st.heap).2 }) (fun _ => False)) ∧
    (relaxAll g h t ((arrGet st.heap 0).1)
      { st with heap := (extractMin st.heap).2 }).heap.size =
      st.heap.size - 1 := by
  obtain ⟨hb1, hu_lt, hnm1, huf, hmem1, hsz1⟩ := extract_step hb hne hku hut
  obtain ⟨hb2, hmono2, hmem2, hgsu2, hsz2, hnble⟩ :=
    relaxAll_spec hw hb1 hu_lt hnm1 huf
  refine ⟨hb2, ?_, ?_, hsz2.trans hsz1⟩
  · intro v hv hvc _
    by_cases hx : v = (arrGet st.heap 0).1
    · subst hx
      intro eid he hev hto
      have hbd := hnble eid he hev hto
      have huf2 : gsD (relaxAll g h t ((arrGet st.heap 0).1)
          { st with heap := (extractMin st.heap).2 }) ((arrGet st.heap 0).1) ≠ ⊤ := by
        rw [hgsu2]
        exact huf
      obtain ⟨γ, hγ⟩ := WithTop.ne_top_iff_exists.mp huf2
      apply qinf_ne_top_of_le (q := γ + get_edge_weight g eid)
      rw [WithTop.coe_add, hγ]
      exact hbd
    · intro eid he hev hto
      have hvc1 : ¬Mem st.heap v :=
        fun hh => hvc ((hmem2 v).mpr ((hmem1 v hx).mpr hh))
      have hfin := hcnb v hv hvc1 (fun hf => hf) eid he hev hto
      exact qinf_ne_top_mono (hmono2 _) hfin
  · intro hc
    have hca := hcons hc
    have hca1 : ConsAdd g h s t { st with heap := (extractMin st.heap).2 }
        (fun v => v = (arrGet st.heap 0).1) := by
      refine ⟨?_, ?_, ?_⟩
      · intro v hv hvc es hp
        by_cases hx : v = (arrGet st.heap 0).1
        · subst hx
          exact extraction_lb hc hb hca hne hku es hp
        · have hvc0 : ¬Mem st.heap v := fun hh => hvc ((hmem1 v hx).mpr hh)
          exact hca.closed_lb v hv hvc0 es hp
      · intro v hv hvc hex eid he hev hto
        have hvc0 : ¬Mem st.heap v := fun hh => hvc ((hmem1 v hex).mpr hh)
        exact hca.closed_nb_le v hv hvc0 (fun hf => hf) eid he hev hto
      · intro v pu hpv
        exact hca.par_exact v pu hpv
    obtain ⟨hca2, _⟩ := relaxAll_cons hw hb1 hu_lt hnm1 huf hca1
    refine ⟨hca2.closed_lb, ?_, hca2.par_exact⟩
    intro v hv hvc _
    by_cases hx : v = (arrGet st.heap 0).1
    · subst hx
      exact hnble
    · exact hca2.closed_nb_le v hv hvc hx

/-- The A* loop always exits (with enough fuel) via `infKey` or
`foundTarget`; at exit the surviving state facts hold, a found target's
g-score is path-realizable, consistent heuristics make it optimal, and an
`infKey` exit certifies unreachability. -/
theorem astarLoop_spec {g : Graph} {h : Nat → Nat → Q} {s t : Nat}
    (hw : ∀ e, e < g.num_edges → 0 ≤ get_edge_weight g e) :
    ∀ (fuel : Nat) (st : AState), BaseInv g h s t st →
    ClosedNb g st (fun _ => False) →
    (HConsistent g h t → ConsAdd g h s t st (fun _ => False)) →
    st.heap.size ≤ fuel →
    ∃ st' ex, astarLoop g h t fuel st = some (st', ex) ∧
      ExitInv g h s t st' ∧
      (HConsistent g h t → ∀ v pu, parD st' v = some pu →
        ∃ eid, eid ∈ adjOf g pu ∧ eid < g.num_edges ∧
          (g.edges.getD eid default).to_node = v ∧
          gsD st' v = gsD st' pu + ((get_edge_weight g eid : Q) : QInf)) ∧
      (ex = LoopExit.foundTarget → gsD st' t ≠ ⊤ ∧
        (HConsistent g h t → ∀ es, IsPath g s t es →
          gsD st' t ≤ ((pathCost g es : Q) : QInf))) ∧
      (ex = LoopExit.infKey → ∀ es, ¬IsPath g s t es) ∧
      ex ≠ LoopExit.emptyHeap := by
  intro fuel
  induction fuel with
  | zero =>
    intro st hb _ _ hfuel
    have := hb.mem_t.2
    omega
  | succ fuel ih =>
    intro st hb hcnb hcons hfuel
    have hne : 0 < st.heap.size := by
      have := hb.mem_t.2
      omega
    have hstep : astarLoop g h t (fuel + 1) st =
        (if st.heap.size = 0 then some (st, LoopExit.emptyHeap)
         else
           if (extractMin st.heap).1.2 = ⊤ then
             some ({ st with heap := (extractMin st.heap).2 }, LoopExit.infKey)
           else if (extractMin st.heap).1.1 = t then
             some ({ st with heap := (extractMin st.heap).2 }, LoopExit.foundTarget)
           else astarLoop g h t fuel
             (relaxAll g h t (extractMin st.heap).1.1
               { st with heap := (extractMin st.heap).2 })) := rfl
    rw [hstep, if_neg (by omega), extractMin_fst]
    by_cases hku : (arrGet st.heap 0).2 = ⊤
    · rw [if_pos hku]
      refine ⟨_, _, rfl, ?_, ?_, ?_, ?_, by decide⟩
      · obtain ⟨e1, e2, e3, e4, e5, e6, e7⟩ := exitInv_of_base hb
        exact ⟨e1, e2, e3, e4, e5, e6, e7⟩
      · intro hc v pu hpv
        exact (hcons hc).par_exact v pu hpv
      · intro hex
        exact absurd hex (by decide)
      · intro _ es hp
        have htopmem : ∀ y, Mem st.heap y → gsD st y = ⊤ := by
          intro y hym
          have hx := extractMin_min hb.hvalid hym
          rw [extractMin_fst, hku] at hx
          exact (hb.key_top_iff y hym).mp (top_le_iff.mp hx)
        have hsf : gsD st s ≠ ⊤ := by
          rw [hb.gs_s]
          exact WithTop.coe_ne_top
        have hsc : ¬Mem st.heap s := fun hh => hsf (htopmem s hh)
        exact (closed_propagate hb hcnb htopmem es s t hp hsc hsf).1 hb.mem_t
    · rw [if_neg hku]
      by_cases hut : (arrGet st.heap 0).1 = t
      · rw [if_pos hut]
        obtain ⟨hum, hkey⟩ := root_mem hb.hvalid hne
        have huf : gsD st ((arrGet st.heap 0).1) ≠ ⊤ := by
          intro hh
          apply hku
          rw [← hkey]
          exact (hb.key_top_iff _ hum).mpr hh
        refine ⟨_, _, rfl, ?_, ?_, ?_, ?_, by decide⟩
        · obtain ⟨e1, e2, e3, e4, e5, e6, e7⟩ := exitInv_of_base hb
          exact ⟨e1, e2, e3, e4, e5, e6, e7⟩
        · intro hc v pu hpv
          exact (hcons hc).par_exact v pu hpv
        · intro _
          constructor
          · show gsD st t ≠ ⊤
            rw [← hut]
            exact huf
          · intro hc es hp
            show gsD st t ≤ ((pathCost g es : Q) : QInf)
            rw [← hut] at hp ⊢
            exact extraction_lb hc hb (hcons hc) hne hku es hp
        · intro hex
          exact absurd hex (by decide)
      · rw [if_neg hut]
        obtain ⟨hb2, hcnb2, hcons2, hsz2⟩ := loop_iter hw hb hcnb hcons hne hku hut
        exact ih _ hb2 hcnb2 hcons2 (by omega)

/-- The heap as `find_route_a_star_path` fills it before the initial
`decreaseKey`: every node in order, all keys `DBL_MAX`. -/
def initHeap (V : Nat) : MinHeap :=
  { capacity := V, size := V, pos := List.range V,
    arr := (List.range V).map fun i => (i, (⊤ : QInf)) }

theorem astarInit_eq (g : Graph) (h : Nat → Nat → Q) (s t : Nat) :
    astarInit g h s t =
      { gs := (List.replicate g.num_nodes (⊤ : QInf)).set s ((0 : Q) : QInf),
        fs := (List.replicate g.num_nodes (⊤ : QInf)).set s ((h s t : Q) : QInf),
        par := List.replicate g.num_nodes none,
        heap := decreaseKey (initHeap g.num_nodes) s ((h s t : Q) : QInf) } := rfl

theorem getD_replicate_self {α : Type} (n i : Nat) (d : α) :
    (List.replicate n d).getD i d = d := by
  rw [List.getD_eq_getElem?_getD, List.getElem?_replicate]
  split_ifs <;> rfl

theorem initHeap_arrGet {V : Nat} {i : Nat} (hi : i < V) :
    arrGet (initHeap V) i = (i, (⊤ : QInf)) := by
  show (((List.range V).map fun i => (i, (⊤ : QInf)))[i]?).getD (0, ⊤) = _
  rw [List.getElem?_map, List.getElem?_range hi]
  rfl

theorem initHeap_posGet {V : Nat} {v : Nat} (hv : v < V) :
    posGet (initHeap V) v = v := by
  show ((List.range V)[v]?).getD 0 = v
  rw [List.getElem?_range hv]
  rfl

theorem initHeap_valid (V : Nat) : HeapValid (initHeap V) := by
  refine ⟨⟨?_, ?_, le_refl _, ?_, ?_⟩, ?_⟩
  · show ((List.range V).map _).length = V
    rw [List.length_map, List.length_range]
  · show (List.range V).length = V
    rw [List.length_range]
  · intro i hi
    have hi' : i < V := hi
    rw [initHeap_arrGet hi']
    exact hi'
  · intro i hi
    have hi' : i < V := hi
    rw [initHeap_arrGet hi']
    exact initHeap_posGet hi'
  · intro i h0 hi
    have hi' : i < V := hi
    rw [initHeap_arrGet hi', initHeap_arrGet (show (i - 1) / 2 < V by omega)]

theorem initHeap_faithful (V : Nat) : PosFaithful (initHeap V) := by
  intro v hv _
  have hv' : v < V := hv
  rw [initHeap_posGet hv', initHeap_arrGet hv']

theorem initHeap_mem {V : Nat} (v : Nat) : Mem (initHeap V) v ↔ v < V := by
  constructor
  · intro hm
    exact hm.1
  · intro hv
    refine ⟨hv, ?_⟩
    rw [initHeap_posGet hv]
    exact hv

theorem initHeap_keyOf {V : Nat} {v : Nat} (hv : v < V) :
    keyOf (initHeap V) v = ⊤ := by
  show (arrGet (initHeap V) (posGet (initHeap V) v)).2 = ⊤
  rw [initHeap_posGet hv, initHeap_arrGet hv]

theorem astarInit_gs {g : Graph} (h : Nat → Nat → Q) {s : Nat} (t : Nat)
    (hs : s < g.num_nodes) :
    ∀ v, gsD (astarInit g h s t) v = if v = s then ((0 : Q) : QInf) else ⊤ := by
  intro v
  rw [astarInit_eq]
  show ((List.replicate g.num_nodes (⊤ : QInf)).set s ((0 : Q) : QInf)).getD v ⊤ = _
  rw [getD_set]
  by_cases hx : v = s
  · rw [if_pos ⟨hx, by rw [List.length_replicate]; exact hs⟩, if_pos hx]
  · rw [if_neg (fun hh => hx hh.1), if_neg hx, getD_replicate_self]

theorem astarInit_par (g : Graph) (h : Nat → Nat → Q) (s t : Nat) :
    ∀ v, parD (astarInit g h s t) v = none := by
  intro v
  rw [astarInit_eq]
  show (List.replicate g.num_nodes none).getD v none = none
  rw [getD_replicate_self]

/-- Initialization establishes all three loop invariants with a full heap. -/
theorem astarInit_spec (g : Graph) (h : Nat → Nat → Q) {s t : Nat}
    (hs : s < g.num_nodes) (ht : t < g.num_nodes) :
    BaseInv g h s t (astarInit g h s t) ∧
    ClosedNb g (astarInit g h s t) (fun _ => False) ∧
    ConsAdd g h s t (astarInit g h s t) (fun _ => False) ∧
    (astarInit g h s t).heap.size = g.num_nodes := by
  have hsm : Mem (initHeap g.num_nodes) s := (initHeap_mem s).mpr hs
  have hkle : ((h s t : Q) : QInf) ≤ keyOf (initHeap g.num_nodes) s := by
    rw [initHeap_keyOf hs]
    exact le_top
  obtain ⟨hdv, hds, hdc, hdm, hdf⟩ := decreaseKey_spec (initHeap_valid g.num_nodes) hsm hkle
  obtain ⟨hdff, hdkv, hdko⟩ := hdf (initHeap_faithful g.num_nodes)
  have hheap : (astarInit g h s t).heap =
      decreaseKey (initHeap g.num_nodes) s ((h s t : Q) : QInf) := by
    rw [astarInit_eq]
  have hmem : ∀ v, Mem (astarInit g h s t).heap v ↔ v < g.num_nodes := by
    intro v
    rw [hheap]
    exact (hdm v).trans (initHeap_mem v)
  refine ⟨⟨?_, ?_, ?_, ?_, ?_, ?_, ?_, ?_, ?_, ?_, ?_, ?_, ?_, ?_, ?_⟩, ?_, ⟨?_, ?_, ?_⟩, ?_⟩
  · rw [astarInit_eq]
    show ((List.replicate g.num_nodes (⊤ : QInf)).set s _).length = g.num_nodes
    rw [List.length_set, List.length_replicate]
  · rw [astarInit_eq]
    show ((List.replicate g.num_nodes (⊤ : QInf)).set s _).length = g.num_nodes
    rw [List.length_set, List.length_replicate]
  · rw [astarInit_eq]
    show (List.replicate g.num_nodes (none : Option Nat)).length = g.num_nodes
    rw [List.length_replicate]
  · rw [hheap]
    exact hdv
  · rw [hheap]
    exact hdff
  · rw [hheap, hdc]
    rfl
  · intro v hv
    have hvlt : v < g.num_nodes := (hmem v).mp hv
    by_cases hx : v = s
    · rw [hx, hheap, hdkv, astarInit_gs h t hs s, if_pos rfl]
      exact iff_of_false WithTop.coe_ne_top WithTop.coe_ne_top
    · rw [hheap, hdko v hx ((initHeap_mem v).mpr hvlt), initHeap_keyOf hvlt,
        astarInit_gs h t hs v, if_neg hx]
  · intro v hv hvf
    by_cases hx : v = s
    · rw [hx, hheap, hdkv, astarInit_gs h t hs s, if_pos rfl, ← WithTop.coe_add,
        zero_add]
    · rw [astarInit_gs h t hs v, if_neg hx] at hvf
      exact absurd rfl hvf
  · rw [astarInit_gs h t hs s, if_pos rfl]
  · exact astarInit_par g h s t s
  · intro v hvf
    by_cases hx : v = s
    · refine ⟨[], ?_, ?_⟩
      · rw [hx]
        exact IsPath.nil s hs
      · rw [hx, astarInit_gs h t hs s, if_pos rfl, pathCost_nil]
    · rw [astarInit_gs h t hs v, if_neg hx] at hvf
      exact absurd rfl hvf
  · intro v pu hpv
    rw [astarInit_par g h s t v] at hpv
    exact absurd hpv (by simp)
  · exact (hmem t).mpr ht
  · intro v hvlt hnm
    exact absurd ((hmem v).mpr hvlt) hnm
  · intro v hvs hvf
    rw [astarInit_gs h t hs v, if_neg hvs] at hvf
    exact absurd rfl hvf
  · intro v hvlt hnm
    exact absurd ((hmem v).mpr hvlt) hnm
  · intro v hvlt hnm
    exact absurd ((hmem v).mpr hvlt) hnm
  · intro v hvlt hnm
    exact absurd ((hmem v).mpr hvlt) hnm
  · intro v pu hpv
    rw [astarInit_par g h s t v] at hpv
    exact absurd hpv (by simp)
  · rw [hheap, hds]
    rfl

/-- Rank of a node under the exit state's g-scores: how many nodes are
strictly cheaper.  The parent chain strictly descends in rank when every
edge weight is positive, which bounds its length by `num_nodes`. -/
def gsRank (g : Graph) (st : AState) (v : Nat) : Nat :=
  ((Finset.range g.num_nodes).filter fun x => gsD st x < gsD st v).card

theorem gsRank_lt {g : Graph} {st : AState} {v pu : Nat}
    (hpu : pu < g.num_nodes) (hlt : gsD st pu < gsD st v) :
    gsRank g st pu < gsRank g st v := by
  apply Finset.card_lt_card
  rw [Finset.ssubset_iff_of_subset]
  · refine ⟨pu, ?_, ?_⟩
    · rw [Finset.mem_filter]
      exact ⟨Finset.mem_range.mpr hpu, hlt⟩
    · intro hh
      exact absurd (Finset.mem_filter.mp hh).2 (lt_irrefl _)
  · intro x hx
    rw [Finset.mem_filter] at hx ⊢
    exact ⟨hx.1, lt_trans hx.2 hlt⟩

theorem gsRank_lt_nodes {g : Graph} {st : AState} {v : Nat}
    (hv : v < g.num_nodes) : gsRank g st v < g.num_nodes := by
  have hss : ((Finset.range g.num_nodes).filter fun x => gsD st x < gsD st v) ⊂
      Finset.range g.num_nodes := by
    rw [Finset.ssubset_iff_of_subset (Finset.filter_subset _ _)]
    refine ⟨v, Finset.mem_range.mpr hv, ?_⟩
    intro hh
    exact absurd (Finset.mem_filter.mp hh).2 (lt_irrefl _)
  have := Finset.card_lt_card hss
  rw [Finset.card_range] at this
  exact this

/-- The strict descent of the parent chain under positive weights. -/
theorem par_strict {g : Graph} {h : Nat → Nat → Q} {s t : Nat} {st : AState}
    (hE : ExitInv g h s t st)
    (hwpos : ∀ e, e < g.num_edges → 0 < get_edge_weight g e) :
    ∀ v pu, parD st v = some pu → gsD st pu < gsD st v := by
  intro v pu hpv
  obtain ⟨_, _, hpuf, _, eid, _, hev, _, hle⟩ := hE.par_spec v pu hpv
  obtain ⟨γ, hγ⟩ := WithTop.ne_top_iff_exists.mp hpuf
  apply lt_of_lt_of_le _ hle
  rw [← hγ, ← WithTop.coe_add, WithTop.coe_lt_coe]
  have := hwpos eid hev
  linarith

/-- The reconstruction walk succeeds within the `num_nodes` buffer and
produces the parent chain from the source. -/
theorem walkParent_ok {g : Graph} {h : Nat → Nat → Q} {s t : Nat} {st : AState}
    (hE : ExitInv g h s t st)
    (hstrict : ∀ v pu, parD st v = some pu → gsD st pu < gsD st v) :
    ∀ (fuel : Nat) (v : Nat) (acc : List Nat), v < g.num_nodes → gsD st v ≠ ⊤ →
    gsRank g st v < fuel →
    ∃ nodes, walkParent st.par fuel v acc = some (nodes ++ acc) ∧
      nodes.head? = some s ∧ nodes.getLast? = some v ∧
      List.Chain' (fun a b => parD st b = some a) nodes ∧
      (∀ x ∈ nodes, x < g.num_nodes ∧ gsD st x ≠ ⊤) := by
  intro fuel
  induction fuel with
  | zero =>
    intro v acc _ _ hrank
    omega
  | succ fuel ih =>
    intro v acc hv hvf hrank
    have hwalk : walkParent st.par (fuel + 1) v acc =
        (match st.par.getD v none with
         | none => some (v :: acc)
         | some u => walkParent st.par fuel u (v :: acc)) := rfl
    rcases hpv : parD st v with _ | pu
    · have hvs : v = s := by
        by_contra hvs
        exact hE.par_fin v hvs hvf hpv
      refine ⟨[v], ?_, ?_, rfl, ?_, ?_⟩
      · rw [hwalk]
        show (match parD st v with
          | none => some (v :: acc)
          | some u => walkParent st.par fuel u (v :: acc)) = some ([v] ++ acc)
        rw [hpv]
        rfl
      · rw [hvs]
        rfl
      · exact List.chain'_singleton v
      · intro x hx
        rw [List.mem_singleton] at hx
        rw [hx]
        exact ⟨hv, hvf⟩
    · obtain ⟨hpu_lt, _, hpuf, _, _⟩ := hE.par_spec v pu hpv
      have hlt := hstrict v pu hpv
      have hrank' : gsRank g st pu < fuel := by
        have := gsRank_lt hpu_lt hlt
        omega
      obtain ⟨nodes, hwret, hhead, hlast, hchain, hmem⟩ :=
        ih pu (v :: acc) hpu_lt hpuf hrank'
      refine ⟨nodes ++ [v], ?_, ?_, List.getLast?_concat _, ?_, ?_⟩
      · rw [hwalk]
        show (match parD st v with
          | none => some (v :: acc)
          | some u => walkParent st.par fuel u (v :: acc)) = _
        rw [hpv]
        show walkParent st.par fuel pu (v :: acc) = _
        rw [hwret, List.append_cons]
      · rcases nodes with _ | ⟨x, xs⟩
        · exact absurd hhead (by simp)
        · exact hhead
      · rw [List.chain'_append]
        refine ⟨hchain, List.chain'_singleton v, ?_⟩
        intro x hx y hy
        rw [hlast] at hx
        injection hx with hx
        rw [Option.mem_def] at hy
        injection hy with hy
        rw [← hx, ← hy]
        exact hpv
      · intro x hx
        rcases List.mem_append.mp hx with hx1 | hx2
        · exact hmem x hx1
        · rw [List.mem_singleton] at hx2
          rw [hx2]
          exact ⟨hv, hvf⟩

theorem chain_nodup {st : AState}
    (hstrict : ∀ v pu, parD st v = some pu → gsD st pu < gsD st v)
    {nodes : List Nat}
    (hchain : List.Chain' (fun a b => parD st b = some a) nodes) :
    nodes.Nodup := by
  have h2 : List.Chain' (fun a b => gsD st a < gsD st b) nodes :=
    List.Chain'.imp (fun a b hab => hstrict b a hab) hchain
  haveI : IsTrans Nat (fun a b => gsD st a < gsD st b) :=
    ⟨fun a b c hab hbc => lt_trans hab hbc⟩
  have h3 : List.Pairwise (fun a b => gsD st a < gsD st b) nodes :=
    List.chain'_iff_pairwise.mp h2
  exact h3.imp (fun hab heq => absurd (heq ▸ hab) (lt_irrefl _))

theorem nodes_length_le {nodes : List Nat} {V : Nat} (hnd : nodes.Nodup)
    (hall : ∀ x ∈ nodes, x < V) : nodes.length ≤ V := by
  have h1 : nodes.toFinset ⊆ Finset.range V :=
    fun x hx => Finset.mem_range.mpr (hall x (List.mem_toFinset.mp hx))
  have h2 := Finset.card_le_card h1
  rw [List.toFinset_card_of_nodup hnd, Finset.card_range] at h2
  exact h2

/-- The returned edge list connects the returned node list step by step,
each entry drawn from the tail node's adjacency. -/
def edgesMatch (g : Graph) : List Nat → List Nat → Prop
  | [], [] => True
  | [_], [] => True
  | u :: v :: rest, e :: es =>
      e ∈ adjOf g u ∧ e < g.num_edges ∧ (g.edges.getD e default).to_node = v ∧
      edgesMatch g (v :: rest) es
  | _, _ => False

/-- No two distinct parallel edges: an adjacency source and a head determine
the edge id.  `find_edge_id` is only faithful to the engine's parent choice
under this assumption (claim C4's correction). -/
def NoParallel (g : Graph) : Prop :=
  ∀ u e1 e2, e1 ∈ adjOf g u → e2 ∈ adjOf g u → e1 < g.num_edges →
    e2 < g.num_edges →
    (g.edges.getD e1 default).to_node = (g.edges.getD e2 default).to_node →
    e1 = e2

theorem mapEdges_ok {g : Graph} {me : Nat} :
    ∀ (nodes : List Nat) (count : Nat), nodes ≠ [] →
    List.Chain' (fun a b => ∃ eid, eid ∈ adjOf g a ∧ eid < g.num_edges ∧
      (g.edges.getD eid default).to_node = b) nodes →
    count + nodes.length ≤ me + 1 →
    ∃ es, mapEdges g me count nodes = Except.ok es ∧
      es.length + 1 = nodes.length ∧ edgesMatch g nodes es := by
  intro nodes
  induction nodes with
  | nil =>
    intro count hne _ _
    exact absurd rfl hne
  | cons u rest ih =>
    intro count _ hchain hcount
    rcases rest with _ | ⟨v, rest'⟩
    · exact ⟨[], rfl, rfl, trivial⟩
    · obtain ⟨⟨eid0, hm0, hev0, hto0⟩, hchain'⟩ := List.chain'_cons.mp hchain
      have hfind : ∃ e, find_edge_id g u v = some e := by
        cases hfe : find_edge_id g u v with
        | some e => exact ⟨e, rfl⟩
        | none =>
          exfalso
          have hfe' : (adjOf g u).find? (fun eid => decide (eid < g.num_edges ∧
              (g.edges.getD eid default).to_node = v)) = none := hfe
          exact List.find?_eq_none.mp hfe' eid0 hm0 (decide_eq_true ⟨hev0, hto0⟩)
      obtain ⟨e, hfe⟩ := hfind
      have hfe' : (adjOf g u).find? (fun eid => decide (eid < g.num_edges ∧
          (g.edges.getD eid default).to_node = v)) = some e := hfe
      have hprop : e < g.num_edges ∧ (g.edges.getD e default).to_node = v :=
        of_decide_eq_true (List.find?_some (p := fun eid => decide (eid < g.num_edges ∧
          (g.edges.getD eid default).to_node = v)) hfe')
      have hemem : e ∈ adjOf g u :=
        List.mem_of_find?_eq_some (p := fun eid => decide (eid < g.num_edges ∧
          (g.edges.getD eid default).to_node = v)) hfe'
      have hlen2 : (u :: v :: rest').length = rest'.length + 2 := by
        simp [List.length_cons]
      obtain ⟨es, hrec, hlen, hmatch⟩ := ih (count + 1) (by simp) hchain'
        (by rw [hlen2] at hcount; simp [List.length_cons]; omega)
      have hnle : ¬ me ≤ count := by
        rw [hlen2] at hcount
        omega
      refine ⟨e :: es, ?_, ?_, ?_⟩
      · show (match find_edge_id g u v with
          | none => Except.error 15
          | some eid =>
            if me ≤ count then Except.error 16
            else match mapEdges g me (count + 1) (v :: rest') with
              | Except.error c => Except.error c
              | Except.ok es => Except.ok (eid :: es)) = Except.ok (e :: es)
        rw [hfe]
        show (if me ≤ count then Except.error 16
          else match mapEdges g me (count + 1) (v :: rest') with
            | Except.error c => Except.error c
            | Except.ok es => Except.ok (e :: es)) = Except.ok (e :: es)
        rw [if_neg hnle, hrec]
      · rw [hlen2]
        simp [List.length_cons] at hlen ⊢
        omega
      · exact ⟨hemem, hprop.1, hprop.2, hmatch⟩

theorem edgesMatch_isPath {g : Graph} :
    ∀ (nodes es : List Nat) (a b : Nat), edgesMatch g nodes es →
      nodes.head? = some a → nodes.getLast? = some b →
      (∀ x ∈ nodes, x < g.num_nodes) →
      IsPath g a b es := by
  intro nodes
  induction nodes with
  | nil =>
    intro es a b _ hhead _ _
    exact absurd hhead (by simp)
  | cons u rest ih =>
    intro es a b hmatch hhead hlast hall
    rcases rest with _ | ⟨v, rest'⟩
    · rcases es with _ | ⟨e, es'⟩
      · injection hhead with hhead
        rw [List.getLast?_singleton] at hlast
        injection hlast with hlast
        rw [← hhead, ← hlast]
        exact IsPath.nil u (hall u (by simp))
      · exact absurd hmatch (by intro hh; exact hh)
    · rcases es with _ | ⟨e, es'⟩
      · exact absurd hmatch (by intro hh; exact hh)
      · obtain ⟨hemem, hev, hto, hmatch'⟩ := hmatch
        injection hhead with hhead
        rw [List.getLast?_cons_cons] at hlast
        have hrest := ih es' v b hmatch' rfl hlast
          (fun x hx => hall x (List.mem_cons_of_mem u hx))
        rw [← hhead]
        exact IsPath.cons u e (hall u (by simp)) hemem hev hto hrest

theorem chain_gs_cost {g : Graph} {st : AState}
    (hNP : NoParallel g)
    (hpe : ∀ v pu, parD st v = some pu →
      ∃ eid, eid ∈ adjOf g pu ∧ eid < g.num_edges ∧
        (g.edges.getD eid default).to_node = v ∧
        gsD st v = gsD st pu + ((get_edge_weight g eid : Q) : QInf)) :
    ∀ (nodes es : List Nat) (a b : Nat),
      List.Chain' (fun x y => parD st y = some x) nodes →
      edgesMatch g nodes es →
      nodes.head? = some a → nodes.getLast? = some b →
      gsD st b = gsD st a + ((pathCost g es : Q) : QInf) := by
  intro nodes
  induction nodes with
  | nil =>
    intro es a b _ _ hhead _
    exact absurd hhead (by simp)
  | cons u rest ih =>
    intro es a b hchain hmatch hhead hlast
    rcases rest with _ | ⟨v, rest'⟩
    · rcases es with _ | ⟨e, es'⟩
      · injection hhead with hhead
        rw [List.getLast?_singleton] at hlast
        injection hlast with hlast
        rw [← hhead, ← hlast, pathCost_nil, WithTop.coe_zero, add_zero]
      · exact absurd hmatch (by intro hh; exact hh)
    · rcases es with _ | ⟨e, es'⟩
      · exact absurd hmatch (by intro hh; exact hh)
      · obtain ⟨hemem, hev, hto, hmatch'⟩ := hmatch
        obtain ⟨hpv, hchain'⟩ := List.chain'_cons.mp hchain
        obtain ⟨eid0, hm0, hev0, hto0, hgv⟩ := hpe v u hpv
        have hee : e = eid0 := hNP u e eid0 hemem hm0 hev hev0 (by rw [hto, hto0])
        injection hhead with hhead
        rw [List.getLast?_cons_cons] at hlast
        have hrest := ih es' v b hchain' hmatch' rfl hlast
        rw [← hhead, hrest, hgv, ← hee, add_assoc, ← WithTop.coe_add, pathCost_cons]

theorem find_route_eq (g : Graph) (h : Nat → Nat → Q) (s t : Nat) (me mn : Nat)
    (hs : s < g.num_nodes) (ht : t < g.num_nodes) :
    find_route_a_star_path g h s t me mn =
      match astarLoop g h t (g.num_nodes + 1) (astarInit g h s t) with
      | none => RouteResult.err 99
      | some (st, ex) =>
        match ex with
        | LoopExit.foundTarget =>
          match walkParent st.par g.num_nodes t [] with
          | none => RouteResult.err 99
          | some nodes =>
            if mn < nodes.length then RouteResult.err 17
            else match mapEdges g me 0 nodes with
              | Except.error c => RouteResult.err c
              | Except.ok edges => RouteResult.ok (st.gs.getD t ⊤) nodes edges
        | _ => RouteResult.noPath := by
  have hbound : ¬((s : Int) < 0 ∨ (g.num_nodes : Int) ≤ (s : Int) ∨
      (t : Int) < 0 ∨ (g.num_nodes : Int) ≤ (t : Int)) := by
    intro hcon
    rcases hcon with h1 | h2 | h3 | h4 <;> omega
  unfold find_route_a_star_path
  simp only
  rw [if_neg hbound, Int.toNat_natCast, Int.toNat_natCast]

/-- Full behavior of `find_route_a_star_path` on in-range endpoints with
positive weights and the dispatcher's buffer sizes: an unreachable target
reports no path; a reachable one succeeds with a genuine adjacency path
whose cost the engine realized, optimal whenever the heuristic is
consistent, and (then) summing exactly to the edge weights when the graph
has no parallel edges. -/
theorem find_route_spec {g : Graph} {h : Nat → Nat → Q} {s t : Nat} {me mn : Nat}
    (hwpos : ∀ e, e < g.num_edges → 0 < get_edge_weight g e)
    (hs : s < g.num_nodes) (ht : t < g.num_nodes)
    (hme : g.num_nodes ≤ me + 1) (hmn : g.num_nodes ≤ mn) :
    (¬Reachable g s t ∧
      find_route_a_star_path g h s t me mn = RouteResult.noPath) ∨
    (Reachable g s t ∧
      ∃ (c : QInf) (nodes es : List Nat),
        find_route_a_star_path g h s t me mn = RouteResult.ok c nodes es ∧
        c ≠ ⊤ ∧
        (∃ es0, IsPath g s t es0 ∧ c = ((pathCost g es0 : Q) : QInf)) ∧
        IsPath g s t es ∧
        nodes.head? = some s ∧ nodes.getLast? = some t ∧
        edgesMatch g nodes es ∧
        (HConsistent g h t →
          (∀ es0, IsPath g s t es0 → c ≤ ((pathCost g es0 : Q) : QInf)) ∧
          (NoParallel g → c = ((pathCost g es : Q) : QInf)))) := by
  obtain ⟨hb0, hcnb0, hca0, hsz0⟩ := astarInit_spec g h hs ht
  obtain ⟨st', ex, hloop, hE, hpe, hfound, hinf, hnemp⟩ :=
    astarLoop_spec (fun e he => le_of_lt (hwpos e he)) (g.num_nodes + 1)
      (astarInit g h s t) hb0 hcnb0 (fun _ => hca0) (by rw [hsz0]; omega)
  cases ex with
  | emptyHeap => exact absurd rfl hnemp
  | infKey =>
    left
    constructor
    · intro hreach
      obtain ⟨es, hp⟩ := hreach
      exact hinf rfl es hp
    · rw [find_route_eq g h s t me mn hs ht, hloop]
  | foundTarget =>
    obtain ⟨htf, hopt⟩ := hfound rfl
    obtain ⟨es0, hp0, hc0⟩ := hE.gs_real t htf
    have hstrict := par_strict hE hwpos
    obtain ⟨nodes, hwret, hhead, hlast, hchain, hallm⟩ :=
      walkParent_ok hE hstrict g.num_nodes t [] ht htf (gsRank_lt_nodes ht)
    rw [List.append_nil] at hwret
    have hnd := chain_nodup hstrict hchain
    have hlen := nodes_length_le hnd (fun x hx => (hallm x hx).1)
    have hchainE : List.Chain' (fun a b => ∃ eid, eid ∈ adjOf g a ∧
        eid < g.num_edges ∧ (g.edges.getD eid default).to_node = b) nodes := by
      apply List.Chain'.imp ?_ hchain
      intro a b hab
      obtain ⟨_, _, _, _, eid, hm, hev, hto, _⟩ := hE.par_spec b a hab
      exact ⟨eid, hm, hev, hto⟩
    have hne : nodes ≠ [] := by
      intro hh
      rw [hh] at hhead
      exact absurd hhead (by simp)
    obtain ⟨esR, hmret, hlenR, hmatch⟩ := @mapEdges_ok g me nodes 0 hne hchainE (by omega)
    have hres : find_route_a_star_path g h s t me mn =
        RouteResult.ok (st'.gs.getD t ⊤) nodes esR := by
      rw [find_route_eq g h s t me mn hs ht, hloop]
      show (match walkParent st'.par g.num_nodes t [] with
        | none => RouteResult.err 99
        | some nodes =>
          if mn < nodes.length then RouteResult.err 17
          else match mapEdges g me 0 nodes with
            | Except.error c => RouteResult.err c
            | Except.ok edges => RouteResult.ok (st'.gs.getD t ⊤) nodes edges) = _
      rw [hwret]
      show (if mn < nodes.length then RouteResult.err 17
        else match mapEdges g me 0 nodes with
          | Except.error c => RouteResult.err c
          | Except.ok edges => RouteResult.ok (st'.gs.getD t ⊤) nodes edges) = _
      rw [if_neg (by omega), hmret]
    right
    refine ⟨⟨es0, hp0⟩, st'.gs.getD t ⊤, nodes, esR, hres, htf, ⟨es0, hp0, hc0⟩,
      edgesMatch_isPath nodes esR s t hmatch hhead hlast
        (fun x hx => (hallm x hx).1), hhead, hlast, hmatch, ?_⟩
    intro hc
    constructor
    · exact hopt hc
    · intro hNP
      have hcost := chain_gs_cost hNP (hpe hc) nodes esR s t hchain hmatch hhead hlast
      rw [hE.gs_s, ← WithTop.coe_add, zero_add] at hcost
      exact hcost

/-- With `s = t` the very first extraction pops the source (the only node
with a finite key) and the loop exits immediately. -/
theorem astarLoop_self {g : Graph} (h : Nat → Nat → Q) {s : Nat}
    (hs : s < g.num_nodes) :
    astarLoop g h s (g.num_nodes + 1) (astarInit g h s s) =
      some ({ astarInit g h s s with
        heap := (extractMin (astarInit g h s s).heap).2 },
        LoopExit.foundTarget) := by
  obtain ⟨hb0, _, _, hsz0⟩ := astarInit_spec g h hs hs
  have hne : 0 < (astarInit g h s s).heap.size := by
    rw [hsz0]
    omega
  obtain ⟨hum, hkey⟩ := root_mem hb0.hvalid hne
  have hsf : gsD (astarInit g h s s) s ≠ ⊤ := by
    rw [hb0.gs_s]
    exact WithTop.coe_ne_top
  have hkeys : keyOf (astarInit g h s s).heap s =
      ((0 : Q) : QInf) + ((h s s : Q) : QInf) := by
    rw [hb0.key_eq s hb0.mem_t hsf, hb0.gs_s]
  have hroot_le := extractMin_min hb0.hvalid hb0.mem_t
  rw [extractMin_fst, hkeys] at hroot_le
  have hku : (arrGet (astarInit g h s s).heap 0).2 ≠ ⊤ := by
    apply qinf_ne_top_of_le (q := 0 + h s s)
    rw [WithTop.coe_add]
    exact hroot_le
  have hriff : gsD (astarInit g h s s)
      ((arrGet (astarInit g h s s).heap 0).1) ≠ ⊤ := by
    intro hh
    apply hku
    rw [← hkey]
    exact (hb0.key_top_iff _ hum).mpr hh
  have hroot_s : (arrGet (astarInit g h s s).heap 0).1 = s := by
    by_contra hx
    rw [astarInit_gs h s hs _, if_neg hx] at hriff
    exact hriff rfl
  have hstep : astarLoop g h s (g.num_nodes + 1) (astarInit g h s s) =
      (if (astarInit g h s s).heap.size = 0 then
        some (astarInit g h s s, LoopExit.emptyHeap)
       else
         if (extractMin (astarInit g h s s).heap).1.2 = ⊤ then
           some ({ astarInit g h s s with
             heap := (extractMin (astarInit g h s s).heap).2 }, LoopExit.infKey)
         else if (extractMin (astarInit g h s s).heap).1.1 = s then
           some ({ astarInit g h s s with
             heap := (extractMin (astarInit g h s s).heap).2 },
             LoopExit.foundTarget)
         else astarLoop g h s g.num_nodes
           (relaxAll g h s (extractMin (astarInit g h s s).heap).1.1
             { astarInit g h s s with
               heap := (extractMin (astarInit g h s s).heap).2 })) := rfl
  rw [hstep, if_neg (by omega), extractMin_fst, if_neg hku, if_pos hroot_s]

/-- `s == t` route queries: success, cost `0`, node path `[s]`, no edges. -/
theorem find_route_self {g : Graph} (h : Nat → Nat → Q) {s : Nat}
    (hs : s < g.num_nodes) {me mn : Nat} (hmn : 1 ≤ mn) :
    find_route_a_star_path g h s s me mn =
      RouteResult.ok ((0 : Q) : QInf) [s] [] := by
  rw [find_route_eq g h s s me mn hs hs, astarLoop_self h hs]
  show (match walkParent (astarInit g h s s).par g.num_nodes s [] with
    | none => RouteResult.err 99
    | some nodes =>
      if mn < nodes.length then RouteResult.err 17
      else match mapEdges g me 0 nodes with
        | Except.error c => RouteResult.err c
        | Except.ok edges =>
          RouteResult.ok ((astarInit g h s s).gs.getD s ⊤) nodes edges) = _
  obtain ⟨k, hk⟩ : ∃ k, g.num_nodes = k + 1 := ⟨g.num_nodes - 1, by omega⟩
  have hwalk : walkParent (astarInit g h s s).par g.num_nodes s [] = some [s] := by
    rw [hk]
    show (match (astarInit g h s s).par.getD s none with
      | none => some [s]
      | some u => walkParent (astarInit g h s s).par k u [s]) = some [s]
    have hp : (astarInit g h s s).par.getD s none = none := astarInit_par g h s s s
    rw [hp]
  rw [hwalk]
  show (if mn < ([s] : List Nat).length then RouteResult.err 17
    else match mapEdges g me 0 [s] with
      | Except.error c => RouteResult.err c
      | Except.ok edges =>
        RouteResult.ok ((astarInit g h s s).gs.getD s ⊤) [s] edges) = _
  rw [if_neg (by rw [List.length_singleton]; omega),
    show mapEdges g me 0 [s] = Except.ok [] from rfl]
  have hc : (astarInit g h s s).gs.getD s ⊤ = ((0 : Q) : QInf) := by
    have hx := astarInit_gs h s hs s
    rw [if_pos rfl] at hx
    exact hx
  rw [hc]

/-- `%.3f` on an exact value `q = a/b`: scale by `1000`, round to the
nearest integer with ties to even (`printf` on an exactly representable
value), then print with three forced decimals. -/
def fmt3 (q : Q) : String :=
  let a : Int := q.num * 1000
  let b : Int := (q.den : Int)
  let f : Int := Int.fdiv a b
  let r2 : Int := 2 * (a - f * b)
  let n : Int :=
    if r2 < b then f
    else if b < r2 then f + 1
    else if f % 2 = 0 then f else f + 1
  let sign : String := if n < 0 then "-" else ""
  let m : Nat := n.natAbs
  let ip : Nat := m / 1000
  let fp : Nat := m % 1000
  let pad : String := if fp < 10 then "00" else if fp < 100 then "0" else ""
  sign ++ toString ip ++ "." ++ pad ++ toString fp

/-- The per-element `" %d"` appends of the response-building loops. -/
def numList (xs : List Nat) : String :=
  xs.foldl (fun acc v => acc ++ " " ++ toString v) ""

/-- `build_route_response` from server.c (allocation failures and the
`snprintf` overflow guard are not modelled; the heuristic is the `h`
parameter). -/
def build_route_response (g : Graph) (h : Nat → Nat → Q) (src dst : Int) : String :=
  if src < 0 ∨ (g.num_nodes : Int) ≤ src ∨ dst < 0 ∨ (g.num_nodes : Int) ≤ dst then
    "ERR BAD_NODES\n"
  else
    let me := if 0 < g.num_nodes then g.num_nodes else 1
    match find_route_a_star_path g h src dst me g.num_nodes with
    | RouteResult.noPath => "ERR NO_ROUTE\n"
    | RouteResult.err _ => "ERR ROUTE_FAIL\n"
    | RouteResult.ok c nodes edges =>
      "ROUTE2 " ++ fmt3 (WithTop.untop' 0 c) ++ " " ++ toString nodes.length ++
      numList nodes ++ " " ++ toString edges.length ++ numList edges ++ "\n"

theorem build_route_eq (g : Graph) (h : Nat → Nat → Q) {s t : Nat}
    (hs : s < g.num_nodes) (ht : t < g.num_nodes) :
    build_route_response g h s t =
      match find_route_a_star_path g h s t g.num_nodes g.num_nodes with
      | RouteResult.noPath => "ERR NO_ROUTE\n"
      | RouteResult.err _ => "ERR ROUTE_FAIL\n"
      | RouteResult.ok c nodes edges =>
        "ROUTE2 " ++ fmt3 (WithTop.untop' 0 c) ++ " " ++ toString nodes.length ++
        numList nodes ++ " " ++ toString edges.length ++ numList edges ++ "\n" := by
  have hbound : ¬((s : Int) < 0 ∨ (g.num_nodes : Int) ≤ (s : Int) ∨
      (t : Int) < 0 ∨ (g.num_nodes : Int) ≤ (t : Int)) := by
    intro hcon
    rcases hcon with h1 | h2 | h3 | h4 <;> omega
  unfold build_route_response
  simp only
  rw [if_neg hbound, if_pos (show 0 < g.num_nodes by omega)]

theorem route2_ne_err (x : String) {y : String}
    (hy : y.data.head? = some 'E') : "ROUTE2 " ++ x ≠ y := by
  intro heq
  have h1 := congrArg String.data heq
  rw [String.data_append] at h1
  have h2 := congrArg List.head? h1
  rw [hy] at h2
  have h3 : some 'R' = some 'E' := h2
  exact absurd h3 (by decide)

def hZero : Nat → Nat → Q := fun _ _ => 0

def gW8 : Graph := (graph_init 6 0).getD default

/-- Claim C8: a route query with source equal to target succeeds with cost
`0`, a node path containing exactly the single node `s`, and an empty edge
path — for every graph, heuristic, and valid `s`; and at the protocol level
`REQ 5 5` on any graph containing node 5 yields `ROUTE2 0.000 1 5 0`. -/
theorem self_route_trivial :
    (∀ (g : Graph) (h : Nat → Nat → Q) (s : Nat), s < g.num_nodes →
      ∀ me mn : Nat, 1 ≤ mn →
      find_route_a_star_path g h s s me mn =
        RouteResult.ok ((0 : Q) : QInf) [s] []) ∧
    (∀ (g : Graph) (h : Nat → Nat → Q), 5 < g.num_nodes →
      build_route_response g h ((5 : Nat) : Int) ((5 : Nat) : Int) =
        "ROUTE2 0.000 1 5 0\n") := by
  constructor
  · intro g h s hs me mn hmn
    exact find_route_self h hs hmn
  · intro g h h5
    rw [build_route_eq g h h5 h5, find_route_self h h5 (by omega)]
    rfl

theorem self_route_trivial_witness :
    find_route_a_star_path gW8 hZero 2 2 6 6 =
      RouteResult.ok ((0 : Q) : QInf) [2] [] ∧
    build_route_response gW8 hZero ((5 : Nat) : Int) ((5 : Nat) : Int) =
      "ROUTE2 0.000 1 5 0\n" :=
  ⟨self_route_trivial.1 gW8 hZero 2 (by decide) 6 6 (by decide),
   self_route_trivial.2 gW8 hZero (by decide)⟩

/-- Claim C6: with the positive edge weights the system maintains, a `REQ`
task answers `ERR BAD_NODES` exactly when an endpoint is outside `[0, N)`;
for in-range endpoints it answers `ERR NO_ROUTE` exactly when the target is
unreachable under the current weights, and a reachable target always gets a
`ROUTE2` response. -/
theorem req_response_contract (g : Graph) (h : Nat → Nat → Q) (src dst : Int)
    (hwpos : ∀ e, e < g.num_edges → 0 < get_edge_weight g e) :
    (build_route_response g h src dst = "ERR BAD_NODES\n" ↔
      (src < 0 ∨ (g.num_nodes : Int) ≤ src ∨ dst < 0 ∨
        (g.num_nodes : Int) ≤ dst)) ∧
    (∀ s t : Nat, src = (s : Int) → dst = (t : Int) →
      s < g.num_nodes → t < g.num_nodes →
      (build_route_response g h src dst = "ERR NO_ROUTE\n" ↔ ¬Reachable g s t) ∧
      (Reachable g s t →
        ∃ body : String, build_route_response g h src dst = "ROUTE2 " ++ body)) := by
  have main : ∀ s t : Nat, s < g.num_nodes → t < g.num_nodes →
      (¬Reachable g s t →
        build_route_response g h s t = "ERR NO_ROUTE\n") ∧
      (Reachable g s t → ∃ body : String,
        build_route_response g h s t = "ROUTE2 " ++ body) := by
    intro s t hs ht
    rcases find_route_spec (g := g) (h := h) hwpos hs ht
        (show g.num_nodes ≤ g.num_nodes + 1 by omega) (le_refl g.num_nodes) with
      ⟨hnr, hres⟩ | ⟨hre, c, nodes, es, hres, _⟩
    · constructor
      · intro _
        rw [build_route_eq g h hs ht, hres]
      · intro hre
        exact absurd hre hnr
    · constructor
      · intro hnr
        exact absurd hre hnr
      · intro _
        refine ⟨fmt3 (WithTop.untop' 0 c) ++ " " ++ toString nodes.length ++
          numList nodes ++ " " ++ toString es.length ++ numList es ++ "\n", ?_⟩
        rw [build_route_eq g h hs ht, hres]
        simp [String.append_assoc]
  constructor
  · by_cases hb : src < 0 ∨ (g.num_nodes : Int) ≤ src ∨ dst < 0 ∨
        (g.num_nodes : Int) ≤ dst
    · refine iff_of_true ?_ hb
      unfold build_route_response
      simp only
      rw [if_pos hb]
    · refine iff_of_false ?_ hb
      push_neg at hb
      obtain ⟨h1, h2, h3, h4⟩ := hb
      have hseq : src = (src.toNat : Int) := (Int.toNat_of_nonneg h1).symm
      have hteq : dst = (dst.toNat : Int) := (Int.toNat_of_nonneg h3).symm
      have hslt : src.toNat < g.num_nodes := by omega
      have htlt : dst.toNat < g.num_nodes := by omega
      rw [hseq, hteq]
      by_cases hre : Reachable g src.toNat dst.toNat
      · obtain ⟨body, hb2⟩ := (main _ _ hslt htlt).2 hre
        rw [hb2]
        exact route2_ne_err body (by decide)
      · rw [(main _ _ hslt htlt).1 hre]
        decide
  · intro s t hseq hteq hs ht
    subst hseq
    subst hteq
    constructor
    · by_cases hre : Reachable g s t
      · obtain ⟨body, hb2⟩ := (main s t hs ht).2 hre
        rw [hb2]
        exact iff_of_false (route2_ne_err body (by decide)) (not_not_intro hre)
      · rw [(main s t hs ht).1 hre]
        exact iff_of_true rfl hre
    · exact (main s t hs ht).2

theorem req_response_contract_witness :
    (∀ e, e < gW.num_edges → 0 < get_edge_weight gW e) ∧
    (build_route_response gW hZero ((1 : Nat) : Int) ((0 : Nat) : Int) =
      "ERR NO_ROUTE\n" ↔ ¬Reachable gW 1 0) := by
  have hw : ∀ e, e < gW.num_edges → 0 < get_edge_weight gW e := by
    intro e he
    have h1 : gW.num_edges = 1 := rfl
    have he0 : e = 0 := by omega
    subst he0
    have hv : get_edge_weight gW 0 = 1 / 1 := rfl
    rw [hv]
    norm_num
  exact ⟨hw, ((req_response_contract gW hZero ((1 : Nat) : Int) ((0 : Nat) : Int)
    hw).2 1 0 rfl rfl (by decide) (by decide)).1⟩

/-- Three nodes at coordinates `(0,0)`, `(100,1)`, `(0,1)` with
`max_speed = 1`: the code's euclidean heuristic toward node `2` takes the
exactly representable values `1`, `100`, `0`. -/
def hC1 : Nat → Nat → Q := fun u _ => if u = 0 then 1 else if u = 1 then 100 else 0

def gC1 : Graph :=
  ((graph_init 3 3).bind fun g0 =>
    (graph_add_edge g0 0 0 1 1 1).bind fun g1 =>
      (graph_add_edge g1 1 1 2 1 1).bind fun g2 =>
        graph_add_edge g2 2 0 2 10 1).getD default

/-- The heap state right before the second sift-up of the run on `gC1`. -/
def heapMidC1 : MinHeap :=
  { capacity := 3, size := 2, pos := [2, 1, 0],
    arr := [(2, ((0 : Q) : QInf) + ((get_edge_weight gC1 2 : Q) : QInf) +
              ((hC1 2 2 : Q) : QInf)),
            (1, ((0 : Q) : QInf) + ((get_edge_weight gC1 0 : Q) : QInf) +
              ((hC1 1 2 : Q) : QInf)),
            (2, (⊤ : QInf))] }

/-- The engine state after node `0`'s scan on `gC1`, parameterized by the
heap. -/
def stMidC1 (hp : MinHeap) : AState :=
  { gs := [((0 : Q) : QInf),
           ((0 : Q) : QInf) + ((get_edge_weight gC1 0 : Q) : QInf),
           ((0 : Q) : QInf) + ((get_edge_weight gC1 2 : Q) : QInf)],
    fs := [((hC1 0 2 : Q) : QInf),
           ((0 : Q) : QInf) + ((get_edge_weight gC1 0 : Q) : QInf) +
             ((hC1 1 2 : Q) : QInf),
           ((0 : Q) : QInf) + ((get_edge_weight gC1 2 : Q) : QInf) +
             ((hC1 2 2 : Q) : QInf)],
    par := [none, some 0, some 0],
    heap := hp }

theorem gC1_sift : siftUp heapMidC1 1 2 = heapMidC1 := by
  have hn : ¬(0 < 1 ∧ (arrGet heapMidC1 1).2 <
      (arrGet heapMidC1 ((1 - 1) / 2)).2) := by
    intro hcon
    have hlt := hcon.2
    have e1 : (arrGet heapMidC1 1).2 = ((0 + 1 / 1 + 100 : Q) : QInf) := rfl
    have e2 : (arrGet heapMidC1 ((1 - 1) / 2)).2 =
      ((0 + 10 / 1 + 0 : Q) : QInf) := rfl
    rw [e1, e2, WithTop.coe_lt_coe] at hlt
    norm_num at hlt
  show (if 0 < 1 ∧ (arrGet heapMidC1 1).2 <
      (arrGet heapMidC1 ((1 - 1) / 2)).2 then
    siftUp (heapSwap heapMidC1 1 ((1 - 1) / 2)) ((1 - 1) / 2) 1
    else heapMidC1) = heapMidC1
  rw [if_neg hn]

theorem gC1_loop : astarLoop gC1 hC1 2 (gC1.num_nodes + 1) (astarInit gC1 hC1 0 2) =
    some (stMidC1 (extractMin heapMidC1).2, LoopExit.foundTarget) := by
  calc astarLoop gC1 hC1 2 (gC1.num_nodes + 1) (astarInit gC1 hC1 0 2)
      = astarLoop gC1 hC1 2 3 (stMidC1 (siftUp heapMidC1 1 2)) := rfl
    _ = astarLoop gC1 hC1 2 3 (stMidC1 heapMidC1) := by rw [gC1_sift]
    _ = some (stMidC1 (extractMin heapMidC1).2, LoopExit.foundTarget) := rfl

theorem gC1_run :
    find_route_a_star_path gC1 hC1 ((0 : Nat) : Int) ((2 : Nat) : Int) 3 3 =
      RouteResult.ok ((10 : Q) : QInf) [0, 2] [2] := by
  rw [find_route_eq gC1 hC1 0 2 3 3 (by decide) (by decide), gC1_loop]
  show RouteResult.ok ((stMidC1 (extractMin heapMidC1).2).gs.getD 2 ⊤) [0, 2] [2]
    = RouteResult.ok ((10 : Q) : QInf) [0, 2] [2]
  have hcost : (stMidC1 (extractMin heapMidC1).2).gs.getD 2 ⊤ =
      ((0 + 10 / 1 : Q) : QInf) := rfl
  rw [hcost, show ((0 + 10 / 1 : Q)) = (10 : Q) from by norm_num]

/-- Claim C1, refuted as stated: on `gC1` (whose euclidean heuristic toward
node 2 takes values `1`, `100`, `0` — inadmissible at node 1 because the
detour node lies far off the straight line), the engine returns cost `10`
although the path `[0, 1]` costs `2`. -/
theorem astar_shortest_cost_counterexample :
    IsPath gC1 0 2 [0, 1] ∧ pathCost gC1 [0, 1] = 2 ∧
    find_route_a_star_path gC1 hC1 ((0 : Nat) : Int) ((2 : Nat) : Int) 3 3 =
      RouteResult.ok ((10 : Q) : QInf) [0, 2] [2] ∧
    (2 : Q) < 10 := by
  refine ⟨?_, ?_, gC1_run, by norm_num⟩
  · exact IsPath.cons 0 0 (by decide) (by decide) (by decide) (by decide)
      (IsPath.cons 1 1 (by decide) (by decide) (by decide) (by decide)
        (IsPath.nil 2 (by decide)))
  · show get_edge_weight gC1 0 + (get_edge_weight gC1 1 + 0) = 2
    rw [show get_edge_weight gC1 0 = 1 / 1 from rfl,
      show get_edge_weight gC1 1 = 1 / 1 from rfl]
    norm_num

/-- Claim C1, amended: with strictly positive weights and a heuristic that
is consistent for the current weights, a reachable target yields success
with a cost that some adjacency path realizes and that no adjacency path
beats — the cost Dijkstra computes on the same snapshot. -/
theorem astar_shortest_cost_amended {g : Graph} {h : Nat → Nat → Q}
    {s t me mn : Nat}
    (hwpos : ∀ e, e < g.num_edges → 0 < get_edge_weight g e)
    (hc : HConsistent g h t)
    (hs : s < g.num_nodes) (ht : t < g.num_nodes)
    (hme : g.num_nodes ≤ me + 1) (hmn : g.num_nodes ≤ mn)
    (hreach : Reachable g s t) :
    ∃ (c : Q) (nodes es : List Nat),
      find_route_a_star_path g h s t me mn =
        RouteResult.ok ((c : Q) : QInf) nodes es ∧
      (∃ es0, IsPath g s t es0 ∧ c = pathCost g es0) ∧
      (∀ es0, IsPath g s t es0 → c ≤ pathCost g es0) := by
  rcases find_route_spec hwpos hs ht hme hmn with ⟨hnr, _⟩ |
    ⟨_, c, nodes, es, hres, hcne, hreal, _, _, _, _, hcons⟩
  · exact absurd hreach hnr
  · obtain ⟨γ, hγ⟩ := WithTop.ne_top_iff_exists.mp hcne
    refine ⟨γ, nodes, es, by rw [hγ]; exact hres, ?_, ?_⟩
    · obtain ⟨es0, hp0, hc0⟩ := hreal
      refine ⟨es0, hp0, ?_⟩
      rw [← hγ, WithTop.coe_eq_coe] at hc0
      exact hc0
    · intro es0 hp0
      have hle := (hcons hc).1 es0 hp0
      rw [← hγ, WithTop.coe_le_coe] at hle
      exact hle

theorem astar_shortest_cost_amended_witness :
    ∃ (c : Q) (nodes es : List Nat),
      find_route_a_star_path gW hZero ((0 : Nat) : Int) ((1 : Nat) : Int) 2 2 =
        RouteResult.ok ((c : Q) : QInf) nodes es ∧
      (∃ es0, IsPath gW 0 1 es0 ∧ c = pathCost gW es0) ∧
      (∀ es0, IsPath gW 0 1 es0 → c ≤ pathCost gW es0) := by
  have hw : ∀ e, e < gW.num_edges → 0 < get_edge_weight gW e := by
    intro e he
    have h1 : gW.num_edges = 1 := rfl
    have he0 : e = 0 := by omega
    subst he0
    rw [show get_edge_weight gW 0 = 1 / 1 from rfl]
    norm_num
  have hc : HConsistent gW hZero 1 := by
    intro u hu eid hm hev hto
    show (0 : Q) ≤ get_edge_weight gW eid + 0
    have h1 : gW.num_edges = 1 := rfl
    have he0 : eid = 0 := by omega
    subst he0
    rw [show get_edge_weight gW 0 = 1 / 1 from rfl]
    norm_num
  exact astar_shortest_cost_amended hw hc (by decide) (by decide) (by decide)
    (by decide) ⟨[0], IsPath.cons 0 0 (by decide) (by decide) (by decide)
      (by decide) (IsPath.nil 1 (by decide))⟩

/-- Two parallel edges `0 → 1`: id `0` with length `5` (added first), id `1`
with length `7` (added second, hence first in the adjacency list). -/
def gC4 : Graph :=
  ((graph_init 2 2).bind fun g0 =>
    (graph_add_edge g0 0 0 1 5 1).bind fun g1 =>
      graph_add_edge g1 1 0 1 7 1).getD default

/-- The engine state after relaxing one of the parallel edges with
weight-term `q`, parameterized by the heap. -/
def stC4 (q : Q) (hp : MinHeap) : AState :=
  { gs := [((0 : Q) : QInf), ((0 : Q) : QInf) + ((q : Q) : QInf)],
    fs := [((hZero 0 1 : Q) : QInf),
           ((0 : Q) : QInf) + ((q : Q) : QInf) + ((hZero 1 1 : Q) : QInf)],
    par := [none, some 0],
    heap := hp }

def heapC4 (q : Q) : MinHeap :=
  { capacity := 2, size := 1, pos := [1, 0],
    arr := [(1, ((0 : Q) : QInf) + ((q : Q) : QInf) + ((hZero 1 1 : Q) : QInf)),
            (1, (⊤ : QInf))] }

theorem gC4_rel :
    relaxEdge gC4 hZero 1 0
      (stC4 (get_edge_weight gC4 1) (heapC4 (get_edge_weight gC4 1))) 0 =
    stC4 (get_edge_weight gC4 0) (heapC4 (get_edge_weight gC4 0)) := by
  have hc : ((0 : Q) : QInf) + ((get_edge_weight gC4 0 : Q) : QInf) <
      (stC4 (get_edge_weight gC4 1) (heapC4 (get_edge_weight gC4 1))).gs.getD 1 ⊤ := by
    have e0 : ((0 : Q) : QInf) + ((get_edge_weight gC4 0 : Q) : QInf) =
        ((0 + 5 / 1 : Q) : QInf) := rfl
    have e1 : (stC4 (get_edge_weight gC4 1)
        (heapC4 (get_edge_weight gC4 1))).gs.getD 1 ⊤ =
        ((0 + 7 / 1 : Q) : QInf) := rfl
    rw [e0, e1, WithTop.coe_lt_coe]
    norm_num
  show (if ((0 : Q) : QInf) + ((get_edge_weight gC4 0 : Q) : QInf) <
      (stC4 (get_edge_weight gC4 1) (heapC4 (get_edge_weight gC4 1))).gs.getD 1 ⊤
    then stC4 (get_edge_weight gC4 0) (heapC4 (get_edge_weight gC4 0))
    else stC4 (get_edge_weight gC4 1) (heapC4 (get_edge_weight gC4 1))) =
    stC4 (get_edge_weight gC4 0) (heapC4 (get_edge_weight gC4 0))
  rw [if_pos hc]

theorem gC4_loop :
    astarLoop gC4 hZero 1 (gC4.num_nodes + 1) (astarInit gC4 hZero 0 1) =
      some (stC4 (get_edge_weight gC4 0)
        (extractMin (heapC4 (get_edge_weight gC4 0))).2,
        LoopExit.foundTarget) := by
  calc astarLoop gC4 hZero 1 (gC4.num_nodes + 1) (astarInit gC4 hZero 0 1)
      = astarLoop gC4 hZero 1 2 (relaxEdge gC4 hZero 1 0
          (stC4 (get_edge_weight gC4 1) (heapC4 (get_edge_weight gC4 1))) 0) := rfl
    _ = astarLoop gC4 hZero 1 2
          (stC4 (get_edge_weight gC4 0) (heapC4 (get_edge_weight gC4 0))) := by
        rw [gC4_rel]
    _ = some (stC4 (get_edge_weight gC4 0)
          (extractMin (heapC4 (get_edge_weight gC4 0))).2,
          LoopExit.foundTarget) := rfl

theorem gC4_run :
    find_route_a_star_path gC4 hZero ((0 : Nat) : Int) ((1 : Nat) : Int) 2 2 =
      RouteResult.ok ((5 : Q) : QInf) [0, 1] [1] := by
  rw [find_route_eq gC4 hZero 0 1 2 2 (by decide) (by decide), gC4_loop]
  show RouteResult.ok ((stC4 (get_edge_weight gC4 0)
      (extractMin (heapC4 (get_edge_weight gC4 0))).2).gs.getD 1 ⊤) [0, 1] [1] =
    RouteResult.ok ((5 : Q) : QInf) [0, 1] [1]
  have hcost : (stC4 (get_edge_weight gC4 0)
      (extractMin (heapC4 (get_edge_weight gC4 0))).2).gs.getD 1 ⊤ =
      ((0 + 5 / 1 : Q) : QInf) := rfl
  rw [hcost, show ((0 + 5 / 1 : Q)) = (5 : Q) from by norm_num]

/-- Claim C4, refuted as stated: with parallel edges `0 → 1` of lengths `5`
and `7`, the engine finds the length-`5` route (cost `5`), but `find_edge_id`
rebuilds the edge path as `[1]` — the length-`7` edge — so the reported cost
differs from the returned edge path's weight sum by `2`, far beyond 1 ULP. -/
theorem route_cost_mismatch_counterexample :
    find_route_a_star_path gC4 hZero ((0 : Nat) : Int) ((1 : Nat) : Int) 2 2 =
      RouteResult.ok ((5 : Q) : QInf) [0, 1] [1] ∧
    pathCost gC4 [1] = 7 ∧ (5 : Q) ≠ 7 := by
  refine ⟨gC4_run, ?_, by norm_num⟩
  show get_edge_weight gC4 1 + 0 = 7
  rw [show get_edge_weight gC4 1 = 7 / 1 from rfl]
  norm_num

/-- Claim C4, amended: the structural guarantees hold for every successful
route (the node path runs from `s` to `t` and each edge path entry connects
consecutive nodes from the tail node's adjacency list); the reported cost
equals the edge path's exact weight sum once the heuristic is consistent
and the graph has no parallel edges. -/
theorem route_reconstruction_amended {g : Graph} {h : Nat → Nat → Q}
    {s t me mn : Nat}
    (hwpos : ∀ e, e < g.num_edges → 0 < get_edge_weight g e)
    (hs : s < g.num_nodes) (ht : t < g.num_nodes)
    (hme : g.num_nodes ≤ me + 1) (hmn : g.num_nodes ≤ mn)
    (hreach : Reachable g s t) :
    ∃ (c : QInf) (nodes es : List Nat),
      find_route_a_star_path g h s t me mn = RouteResult.ok c nodes es ∧
      IsPath g s t es ∧ nodes.head? = some s ∧ nodes.getLast? = some t ∧
      edgesMatch g nodes es ∧
      (HConsistent g h t → NoParallel g →
        c = ((pathCost g es : Q) : QInf)) := by
  rcases find_route_spec hwpos hs ht hme hmn with ⟨hnr, _⟩ |
    ⟨_, c, nodes, es, hres, _, _, hpath, hhead, hlast, hmatch, hcons⟩
  · exact absurd hreach hnr
  · exact ⟨c, nodes, es, hres, hpath, hhead, hlast, hmatch,
      fun hc hNP => (hcons hc).2 hNP⟩

theorem route_reconstruction_amended_witness :
    ∃ (c : QInf) (nodes es : List Nat),
      find_route_a_star_path gW hZero ((0 : Nat) : Int) ((1 : Nat) : Int) 2 2 =
        RouteResult.ok c nodes es ∧
      IsPath gW 0 1 es ∧ nodes.head? = some 0 ∧ nodes.getLast? = some 1 ∧
      edgesMatch gW nodes es ∧
      (HConsistent gW hZero 1 → NoParallel gW →
        c = ((pathCost gW es : Q) : QInf)) := by
  have hw : ∀ e, e < gW.num_edges → 0 < get_edge_weight gW e := by
    intro e he
    have h1 : gW.num_edges = 1 := rfl
    have he0 : e = 0 := by omega
    subst he0
    rw [show get_edge_weight gW 0 = 1 / 1 from rfl]
    norm_num
  exact route_reconstruction_amended hw (by decide) (by decide) (by decide)
    (by decide) ⟨[0], IsPath.cons 0 0 (by decide) (by decide) (by decide)
      (by decide) (IsPath.nil 1 (by decide))⟩

/-! ### The line dispatcher (server.c, `client_thread_main`)

`sscanf` with `"REQ %d %d"` / `"UPD %d %lf"`: a literal matches exactly,
`%d` skips whitespace, accepts an optional sign and a maximal digit run,
and trailing input beyond the format is ignored.  `scanFloat` models the
plain-decimal subset of `%lf` (exponents, `inf`/`nan` and hex floats are
not modelled; the dispatch facts proved below only use decimal inputs). -/

def isSpaceC (c : Char) : Bool :=
  c == ' ' || c == '\t' || c == '\n' || c == '\x0b' || c == '\x0c' || c == '\r'

def natOfDigits (ds : List Char) : Nat :=
  ds.foldl (fun acc c => 10 * acc + (c.toNat - 48)) 0

def scanIntCore (l : List Char) : Option (Int × List Char) :=
  if (l.takeWhile Char.isDigit).isEmpty then none
  else some ((natOfDigits (l.takeWhile Char.isDigit) : Int),
    l.dropWhile Char.isDigit)

def scanInt (s : List Char) : Option (Int × List Char) :=
  match s.dropWhile isSpaceC with
  | [] => none
  | c :: rest =>
    if c = '-' then (scanIntCore rest).map fun p => (-p.1, p.2)
    else if c = '+' then scanIntCore rest
    else scanIntCore (c :: rest)

def scanFloatCore (l : List Char) : Option (Q × List Char) :=
  let ip := l.takeWhile Char.isDigit
  let r1 := l.dropWhile Char.isDigit
  if r1.head? = some '.' then
    let fp := r1.tail.takeWhile Char.isDigit
    let r3 := r1.tail.dropWhile Char.isDigit
    if ip.isEmpty && fp.isEmpty then none
    else some ((natOfDigits ip : Q) + (natOfDigits fp : Q) / ((10 : Q) ^ fp.length), r3)
  else if ip.isEmpty then none
  else some ((natOfDigits ip : Q), r1)

def scanFloat (s : List Char) : Option (Q × List Char) :=
  match s.dropWhile isSpaceC with
  | [] => none
  | c :: rest =>
    if c = '-' then (scanFloatCore rest).map fun p => (-p.1, p.2)
    else if c = '+' then scanFloatCore rest
    else scanFloatCore (c :: rest)

def scanREQ (l : List Char) : Option (Int × Int) :=
  if l.take 3 = ['R', 'E', 'Q'] then
    match scanInt (l.drop 3) with
    | none => none
    | some (a, r1) =>
      match scanInt r1 with
      | none => none
      | some (b, _) => some (a, b)
  else none

def scanUPD (l : List Char) : Option (Int × Q) :=
  if l.take 3 = ['U', 'P', 'D'] then
    match scanInt (l.drop 3) with
    | none => none
    | some (e, r1) =>
      match scanFloat r1 with
      | none => none
      | some (spd, _) => some (e, spd)
  else none

inductive Dispatch where
  | empty
  | routing (src dst : Int)
  | traffic (edge : Int) (speed : Q)
  | unknown
  deriving Repr, DecidableEq

/-- `trim_crlf` from server.c: strip trailing `'\n'`/`'\r'`. -/
def trim_crlf (s : List Char) : List Char :=
  (s.reverse.dropWhile fun c => c == '\n' || c == '\r').reverse

/-- The per-line dispatch of `client_thread_main` (server.c lines 324-397):
empty after trimming → `ERR EMPTY`; `sscanf "REQ %d %d"` succeeding with 2 →
routing task; otherwise `sscanf "UPD %d %lf"` with 2 → traffic task;
otherwise `ERR UNKNOWN_CMD`. -/
def dispatch_line (raw : List Char) : Dispatch :=
  let line := trim_crlf raw
  if line.isEmpty then Dispatch.empty
  else
    match scanREQ line with
    | some (a, b) => Dispatch.routing a b
    | none =>
      match scanUPD line with
      | some (e, spd) => Dispatch.traffic e spd
      | none => Dispatch.unknown

/-- The grammar claimed by the spec for routing lines (modelled from the
spec's words, for comparison): exactly `REQ`, one space, a bare digit run,
one space, a bare digit run, end of line. -/
def isSpecREQ (l : List Char) : Bool :=
  match l with
  | 'R' :: 'E' :: 'Q' :: ' ' :: rest =>
    let d1 := rest.takeWhile Char.isDigit
    let r1 := rest.dropWhile Char.isDigit
    match d1, r1 with
    | [], _ => false
    | _, ' ' :: rest2 =>
      let d2 := rest2.takeWhile Char.isDigit
      let r2 := rest2.dropWhile Char.isDigit
      decide (¬d2.isEmpty = true ∧ r2 = [])
    | _, _ => false
  | _ => false

theorem dropWhile_head_not (p : Char → Bool) :
    ∀ (l : List Char) (c : Char), (l.dropWhile p).head? = some c → p c = false := by
  intro l
  induction l with
  | nil =>
    intro c hc
    exact absurd hc (by simp)
  | cons a l ih =>
    intro c hc
    rw [List.dropWhile_cons] at hc
    by_cases hp : p a = true
    · rw [if_pos hp] at hc
      exact ih c hc
    · rw [if_neg hp] at hc
      injection hc with hc
      rw [← hc]
      exact Bool.not_eq_true _ |>.mp hp

theorem dropWhile_all_append (p : Char → Bool) :
    ∀ (w : List Char), (∀ c ∈ w, p c = true) → ∀ l : List Char,
      (w ++ l).dropWhile p = l.dropWhile p := by
  intro w
  induction w with
  | nil =>
    intro _ l
    rfl
  | cons a w ih =>
    intro hw l
    rw [List.cons_append, List.dropWhile_cons, if_pos (hw a (by simp))]
    exact ih (fun c hc => hw c (List.mem_cons_of_mem a hc)) l

theorem digit_not_space {c : Char} (hd : c.isDigit = true) : isSpaceC c = false := by
  cases hx : isSpaceC c with
  | false => rfl
  | true =>
    exfalso
    unfold isSpaceC at hx
    simp only [Bool.or_eq_true, beq_iff_eq] at hx
    rcases hx with ((((h | h) | h) | h) | h) | h <;> (subst h; exact absurd hd (by decide))

theorem space_not_digit {c : Char} (hs : isSpaceC c = true) : c.isDigit = false := by
  cases hx : c.isDigit with
  | false => rfl
  | true =>
    exfalso
    rw [digit_not_space hx] at hs
    exact absurd hs (by decide)

theorem scanIntCore_shape {l : List Char} {v : Int} {r : List Char}
    (h : scanIntCore l = some (v, r)) :
    ∃ d, l = d ++ r ∧ d ≠ [] ∧ (∀ c ∈ d, c.isDigit = true) ∧
      (∀ c, r.head? = some c → c.isDigit = false) := by
  unfold scanIntCore at h
  by_cases he : (l.takeWhile Char.isDigit).isEmpty = true
  · rw [if_pos he] at h
    exact absurd h (by simp)
  · rw [if_neg he] at h
    injection h with h2
    rw [Prod.mk.injEq] at h2
    obtain ⟨_, hr⟩ := h2
    refine ⟨l.takeWhile Char.isDigit, ?_, ?_, ?_, ?_⟩
    · rw [← hr]
      exact (List.takeWhile_append_dropWhile Char.isDigit l).symm
    · intro hnil
      rw [hnil] at he
      exact he rfl
    · exact fun c hc => List.mem_takeWhile_imp hc
    · intro c hc
      rw [← hr] at hc
      exact dropWhile_head_not _ _ _ hc

theorem scanIntCore_digits {c : Char} {d' tail : List Char}
    (hcd : c.isDigit = true) (hdig : ∀ x ∈ d', x.isDigit = true) :
    scanIntCore (c :: (d' ++ tail)) =
      some ((natOfDigits ((c :: (d' ++ tail)).takeWhile Char.isDigit) : Int),
        tail.dropWhile Char.isDigit) := by
  unfold scanIntCore
  have hne : ((c :: (d' ++ tail)).takeWhile Char.isDigit).isEmpty = false := by
    rw [List.takeWhile_cons, if_pos hcd]
    rfl
  rw [hne, if_neg Bool.false_ne_true, List.dropWhile_cons, if_pos hcd,
    dropWhile_all_append Char.isDigit d' hdig]

theorem scanInt_shape {s : List Char} {v : Int} {r : List Char}
    (h : scanInt s = some (v, r)) :
    ∃ w sg d, s = w ++ (sg ++ (d ++ r)) ∧
      (∀ c ∈ w, isSpaceC c = true) ∧
      (sg = [] ∨ sg = ['+'] ∨ sg = ['-']) ∧
      d ≠ [] ∧ (∀ c ∈ d, c.isDigit = true) ∧
      (∀ c, r.head? = some c → c.isDigit = false) := by
  unfold scanInt at h
  cases hs1 : s.dropWhile isSpaceC with
  | nil =>
    rw [hs1] at h
    exact absurd h (by simp)
  | cons c rest =>
    rw [hs1] at h
    have h2 : (if c = '-' then (scanIntCore rest).map (fun p => (-p.1, p.2))
        else if c = '+' then scanIntCore rest
        else scanIntCore (c :: rest)) = some (v, r) := h
    clear h
    rename' h2 => h
    have hdecomp : s = s.takeWhile isSpaceC ++ (c :: rest) := by
      conv_lhs => rw [← List.takeWhile_append_dropWhile (p := isSpaceC) (l := s)]
      rw [hs1]
    have hw : ∀ x ∈ s.takeWhile isSpaceC, isSpaceC x = true :=
      fun x hx => List.mem_takeWhile_imp hx
    by_cases hcm : c = '-'
    · rw [if_pos hcm] at h
      obtain ⟨⟨v0, r0⟩, hcore, hmap⟩ := Option.map_eq_some'.mp h
      have hmap' : ((-v0 : Int), r0) = (v, r) := hmap
      rw [Prod.mk.injEq] at hmap'
      obtain ⟨_, hr⟩ := hmap'
      obtain ⟨d, hld, hdne, hdig, hrh⟩ := scanIntCore_shape hcore
      subst hcm
      refine ⟨s.takeWhile isSpaceC, ['-'], d, ?_, hw, Or.inr (Or.inr rfl),
        hdne, hdig, ?_⟩
      · conv_lhs => rw [hdecomp, hld, hr]
        rfl
      · intro c0 hc0
        rw [← hr] at hc0
        exact hrh c0 hc0
    · rw [if_neg hcm] at h
      by_cases hcp : c = '+'
      · rw [if_pos hcp] at h
        obtain ⟨d, hld, hdne, hdig, hrh⟩ := scanIntCore_shape h
        subst hcp
        refine ⟨s.takeWhile isSpaceC, ['+'], d, ?_, hw,
          Or.inr (Or.inl rfl), hdne, hdig, hrh⟩
        conv_lhs => rw [hdecomp, hld]
        rfl
      · rw [if_neg hcp] at h
        obtain ⟨d, hld, hdne, hdig, hrh⟩ := scanIntCore_shape h
        refine ⟨s.takeWhile isSpaceC, [], d, ?_, hw,
          Or.inl rfl, hdne, hdig, hrh⟩
        conv_lhs => rw [hdecomp, hld]
        rfl

theorem scanInt_from_shape {w sg d tail : List Char}
    (hw : ∀ c ∈ w, isSpaceC c = true)
    (hsg : sg = [] ∨ sg = ['+'] ∨ sg = ['-'])
    (hdne : d ≠ []) (hdig : ∀ c ∈ d, c.isDigit = true) :
    ∃ v, scanInt (w ++ (sg ++ (d ++ tail))) =
      some (v, tail.dropWhile Char.isDigit) := by
  obtain ⟨c, d', rfl⟩ : ∃ c t, d = c :: t := by
    cases d with
    | nil => exact absurd rfl hdne
    | cons c t => exact ⟨c, t, rfl⟩
  have hcd : c.isDigit = true := hdig c (by simp)
  have hdig' : ∀ x ∈ d', x.isDigit = true :=
    fun x hx => hdig x (List.mem_cons_of_mem c hx)
  have hrest : ((c :: d') ++ tail : List Char) = c :: (d' ++ tail) := rfl
  unfold scanInt
  rcases hsg with rfl | rfl | rfl
  · have h1 : (w ++ ([] ++ ((c :: d') ++ tail))).dropWhile isSpaceC =
        c :: (d' ++ tail) := by
      rw [dropWhile_all_append isSpaceC w hw, List.nil_append, hrest,
        List.dropWhile_cons, if_neg (by rw [digit_not_space hcd]; decide)]
    rw [h1]
    refine ⟨(natOfDigits ((c :: (d' ++ tail)).takeWhile Char.isDigit) : Int), ?_⟩
    show (if c = '-' then (scanIntCore (d' ++ tail)).map (fun p => (-p.1, p.2))
      else if c = '+' then scanIntCore (d' ++ tail)
      else scanIntCore (c :: (d' ++ tail))) = _
    rw [if_neg (fun hh => by subst hh; exact absurd hcd (by decide)),
      if_neg (fun hh => by subst hh; exact absurd hcd (by decide)),
      scanIntCore_digits hcd hdig']
  · have h1 : (w ++ (['+'] ++ ((c :: d') ++ tail))).dropWhile isSpaceC =
        '+' :: ((c :: d') ++ tail) := by
      rw [dropWhile_all_append isSpaceC w hw]
      rw [show ((['+'] : List Char) ++ ((c :: d') ++ tail)) =
        '+' :: ((c :: d') ++ tail) from rfl]
      rw [List.dropWhile_cons, if_neg (by decide)]
    rw [h1]
    refine ⟨(natOfDigits ((c :: (d' ++ tail)).takeWhile Char.isDigit) : Int), ?_⟩
    show (if ('+' : Char) = '-' then
        (scanIntCore ((c :: d') ++ tail)).map (fun p => (-p.1, p.2))
      else if ('+' : Char) = '+' then scanIntCore ((c :: d') ++ tail)
      else scanIntCore ('+' :: ((c :: d') ++ tail))) = _
    rw [if_neg (by decide), if_pos rfl, hrest, scanIntCore_digits hcd hdig']
  · have h1 : (w ++ (['-'] ++ ((c :: d') ++ tail))).dropWhile isSpaceC =
        '-' :: ((c :: d') ++ tail) := by
      rw [dropWhile_all_append isSpaceC w hw]
      rw [show ((['-'] : List Char) ++ ((c :: d') ++ tail)) =
        '-' :: ((c :: d') ++ tail) from rfl]
      rw [List.dropWhile_cons, if_neg (by decide)]
    rw [h1]
    refine ⟨(-(natOfDigits ((c :: (d' ++ tail)).takeWhile Char.isDigit) : Int)), ?_⟩
    show (if ('-' : Char) = '-' then
        (scanIntCore ((c :: d') ++ tail)).map (fun p => (-p.1, p.2))
      else if ('-' : Char) = '+' then scanIntCore ((c :: d') ++ tail)
      else scanIntCore ('-' :: ((c :: d') ++ tail))) = _
    rw [if_pos rfl, hrest, scanIntCore_digits hcd hdig', Option.map_some']

/-- The grammar the dispatcher actually accepts for routing lines: the
literal `REQ` (as the first three characters), then two `%d`-style numbers —
each optional whitespace, an optional sign and a nonempty digit run — where
the second number is separated from the first by at least one whitespace
character or begins with an explicit sign; anything after the second digit
run is ignored. -/
def ReqShape (l : List Char) : Prop :=
  l.take 3 = ['R', 'E', 'Q'] ∧
  ∃ w1 sg1 d1 w2 sg2 d2 tail,
    l.drop 3 = w1 ++ (sg1 ++ (d1 ++ (w2 ++ (sg2 ++ (d2 ++ tail))))) ∧
    (∀ c ∈ w1, isSpaceC c = true) ∧ (sg1 = [] ∨ sg1 = ['+'] ∨ sg1 = ['-']) ∧
    d1 ≠ [] ∧ (∀ c ∈ d1, c.isDigit = true) ∧
    (∀ c ∈ w2, isSpaceC c = true) ∧ (sg2 = [] ∨ sg2 = ['+'] ∨ sg2 = ['-']) ∧
    d2 ≠ [] ∧ (∀ c ∈ d2, c.isDigit = true) ∧
    (w2 ≠ [] ∨ sg2 ≠ [])

theorem scanREQ_some_iff {l : List Char} :
    (∃ a b, scanREQ l = some (a, b)) ↔ ReqShape l := by
  constructor
  · rintro ⟨a, b, h⟩
    unfold scanREQ at h
    by_cases ht : l.take 3 = ['R', 'E', 'Q']
    · rw [if_pos ht] at h
      refine ⟨ht, ?_⟩
      cases h1 : scanInt (l.drop 3) with
      | none =>
        rw [h1] at h
        exact Option.noConfusion h
      | some p =>
        obtain ⟨a1, r1⟩ := p
        rw [h1] at h
        have h2 : (match scanInt r1 with
          | none => none
          | some (b, _) => some (a1, b)) = some (a, b) := h
        clear h
        cases h3 : scanInt r1 with
        | none =>
          rw [h3] at h2
          exact Option.noConfusion h2
        | some q =>
          obtain ⟨b1, r2⟩ := q
          obtain ⟨w1, sg1, d1, hd1, hw1, hsg1, hdne1, hdig1, hrh1⟩ :=
            scanInt_shape h1
          obtain ⟨w2, sg2, d2, hd2, hw2, hsg2, hdne2, hdig2, _⟩ :=
            scanInt_shape h3
          refine ⟨w1, sg1, d1, w2, sg2, d2, r2, ?_, hw1, hsg1, hdne1, hdig1,
            hw2, hsg2, hdne2, hdig2, ?_⟩
          · rw [hd1, hd2]
          · by_contra hcon
            push_neg at hcon
            obtain ⟨hw2e, hsg2e⟩ := hcon
            rw [hw2e, hsg2e] at hd2
            cases hdd : d2 with
            | nil => exact hdne2 hdd
            | cons c d2' =>
              rw [hdd] at hd2
              have hhead : r1.head? = some c := by
                rw [hd2]
                rfl
              have h4 := hrh1 c hhead
              rw [hdig2 c (by rw [hdd]; exact List.mem_cons_self c d2')] at h4
              exact absurd h4 (by decide)
    · rw [if_neg ht] at h
      exact Option.noConfusion h
  · rintro ⟨ht, w1, sg1, d1, w2, sg2, d2, tail, hd, hw1, hsg1, hdne1, hdig1,
      hw2, hsg2, hdne2, hdig2, hsep⟩
    obtain ⟨v1, h1⟩ := @scanInt_from_shape w1 sg1 d1
      (w2 ++ (sg2 ++ (d2 ++ tail))) hw1 hsg1 hdne1 hdig1
    have hrem : (w2 ++ (sg2 ++ (d2 ++ tail))).dropWhile Char.isDigit =
        w2 ++ (sg2 ++ (d2 ++ tail)) := by
      cases w2 with
      | cons c w2' =>
        have hc : isSpaceC c = true := hw2 c (List.mem_cons_self c w2')
        rw [List.cons_append, List.dropWhile_cons,
          if_neg (by rw [space_not_digit hc]; decide)]
      | nil =>
        rcases hsg2 with h0 | h0 | h0
        · rcases hsep with hne | hne
          · exact absurd rfl hne
          · exact absurd h0 hne
        · subst h0
          rw [List.nil_append,
            show ((['+'] : List Char) ++ (d2 ++ tail)) = '+' :: (d2 ++ tail)
              from rfl,
            List.dropWhile_cons, if_neg (by decide)]
        · subst h0
          rw [List.nil_append,
            show ((['-'] : List Char) ++ (d2 ++ tail)) = '-' :: (d2 ++ tail)
              from rfl,
            List.dropWhile_cons, if_neg (by decide)]
    rw [hrem] at h1
    obtain ⟨v2, h2⟩ := @scanInt_from_shape w2 sg2 d2 tail hw2 hsg2 hdne2 hdig2
    refine ⟨v1, v2, ?_⟩
    unfold scanREQ
    rw [if_pos ht, hd, h1]
    show (match scanInt (w2 ++ (sg2 ++ (d2 ++ tail))) with
      | none => none
      | some (b, _) => some (v1, b)) = some (v1, v2)
    rw [h2]

theorem dispatch_line_eq (raw : List Char) :
    dispatch_line raw =
      (if (trim_crlf raw).isEmpty then Dispatch.empty
       else
         match scanREQ (trim_crlf raw) with
         | some (a, b) => Dispatch.routing a b
         | none =>
           match scanUPD (trim_crlf raw) with
           | some (e, spd) => Dispatch.traffic e spd
           | none => Dispatch.unknown) := rfl

theorem dispatch_line_empty {raw : List Char} (h : trim_crlf raw = []) :
    dispatch_line raw = Dispatch.empty := by
  rw [dispatch_line_eq, if_pos (by rw [h]; rfl)]

theorem trim_nonempty_isEmpty {raw : List Char} (hne : trim_crlf raw ≠ []) :
    (trim_crlf raw).isEmpty = false := by
  cases h0 : trim_crlf raw with
  | nil => exact absurd h0 hne
  | cons c l => rfl

theorem dispatch_line_req {raw : List Char} {a b : Int}
    (hreq : scanREQ (trim_crlf raw) = some (a, b)) (hne : trim_crlf raw ≠ []) :
    dispatch_line raw = Dispatch.routing a b := by
  rw [dispatch_line_eq,
    if_neg (by rw [trim_nonempty_isEmpty hne]; decide), hreq]

theorem dispatch_line_upd {raw : List Char} {e : Int} {s : Q}
    (hreq : scanREQ (trim_crlf raw) = none)
    (hupd : scanUPD (trim_crlf raw) = some (e, s)) (hne : trim_crlf raw ≠ []) :
    dispatch_line raw = Dispatch.traffic e s := by
  rw [dispatch_line_eq,
    if_neg (by rw [trim_nonempty_isEmpty hne]; decide), hreq]
  show (match scanUPD (trim_crlf raw) with
    | some (e, spd) => Dispatch.traffic e spd
    | none => Dispatch.unknown) = Dispatch.traffic e s
  rw [hupd]

theorem dispatch_line_unk {raw : List Char}
    (hreq : scanREQ (trim_crlf raw) = none)
    (hupd : scanUPD (trim_crlf raw) = none) (hne : trim_crlf raw ≠ []) :
    dispatch_line raw = Dispatch.unknown := by
  rw [dispatch_line_eq,
    if_neg (by rw [trim_nonempty_isEmpty hne]; decide), hreq]
  show (match scanUPD (trim_crlf raw) with
    | some (e, spd) => Dispatch.traffic e spd
    | none => Dispatch.unknown) = Dispatch.unknown
  rw [hupd]

/-- Claim C7, refuted as stated: the dispatcher's `sscanf("REQ %d %d")` is
strictly more permissive than the claimed grammar — `REQ -1 0` (negative
source) is dispatched as a routing task, and so is `REQ 1 2 3` (extra
trailing token), although neither matches
`REQ` SP digit-run SP digit-run end-of-line. -/
theorem dispatch_grammar_counterexample :
    dispatch_line ("REQ -1 0".data) = Dispatch.routing (-1) 0 ∧
    isSpecREQ ("REQ -1 0".data) = false ∧
    dispatch_line ("REQ 1 2 3".data) = Dispatch.routing 1 2 ∧
    isSpecREQ ("REQ 1 2 3".data) = false := by
  refine ⟨?_, by decide, ?_, by decide⟩ <;> decide

/-- Claim C7, amended: after stripping trailing CR/LF, an empty line maps to
`ERR EMPTY`; a line is dispatched as a routing task exactly when it matches
`ReqShape` — `REQ` followed by two `sscanf`-style `%d` numbers (optional
whitespace and sign, possibly negative, trailing input ignored), a strictly
wider grammar than the claimed `REQ` SP digit-run SP digit-run; a
non-routing line is a traffic task exactly when `sscanf("UPD %d %lf")`
succeeds; every other non-empty line gets `ERR UNKNOWN_CMD`. -/
theorem dispatch_contract_amended (raw : List Char) :
    (dispatch_line raw = Dispatch.empty ↔ trim_crlf raw = []) ∧
    ((∃ a b, dispatch_line raw = Dispatch.routing a b) ↔
      ReqShape (trim_crlf raw)) ∧
    ((∃ e spd, dispatch_line raw = Dispatch.traffic e spd) ↔
      scanREQ (trim_crlf raw) = none ∧
      (∃ e spd, scanUPD (trim_crlf raw) = some (e, spd))) ∧
    (dispatch_line raw = Dispatch.unknown ↔
      trim_crlf raw ≠ [] ∧ scanREQ (trim_crlf raw) = none ∧
        scanUPD (trim_crlf raw) = none) := by
  refine ⟨⟨?_, dispatch_line_empty⟩, ⟨?_, ?_⟩, ⟨?_, ?_⟩, ⟨?_, ?_⟩⟩
  · intro h
    by_contra hne
    cases hreq : scanREQ (trim_crlf raw) with
    | some p =>
      obtain ⟨a, b⟩ := p
      rw [dispatch_line_req hreq hne] at h
      exact Dispatch.noConfusion h
    | none =>
      cases hupd : scanUPD (trim_crlf raw) with
      | some p =>
        obtain ⟨e, s⟩ := p
        rw [dispatch_line_upd hreq hupd hne] at h
        exact Dispatch.noConfusion h
      | none =>
        rw [dispatch_line_unk hreq hupd hne] at h
        exact Dispatch.noConfusion h
  · rintro ⟨a, b, h⟩
    by_cases hne : trim_crlf raw = []
    · rw [dispatch_line_empty hne] at h
      exact Dispatch.noConfusion h
    · cases hreq : scanREQ (trim_crlf raw) with
      | some p =>
        obtain ⟨a1, b1⟩ := p
        exact scanREQ_some_iff.mp ⟨a1, b1, hreq⟩
      | none =>
        exfalso
        cases hupd : scanUPD (trim_crlf raw) with
        | some p =>
          obtain ⟨e, s⟩ := p
          rw [dispatch_line_upd hreq hupd hne] at h
          exact Dispatch.noConfusion h
        | none =>
          rw [dispatch_line_unk hreq hupd hne] at h
          exact Dispatch.noConfusion h
  · intro hshape
    obtain ⟨a, b, hreq⟩ := scanREQ_some_iff.mpr hshape
    have hne : trim_crlf raw ≠ [] := by
      intro h0
      rw [h0] at hreq
      exact Option.noConfusion hreq
    exact ⟨a, b, dispatch_line_req hreq hne⟩
  · rintro ⟨e, s, h⟩
    by_cases hne : trim_crlf raw = []
    · rw [dispatch_line_empty hne] at h
      exact Dispatch.noConfusion h
    · cases hreq : scanREQ (trim_crlf raw) with
      | some p =>
        obtain ⟨a, b⟩ := p
        rw [dispatch_line_req hreq hne] at h
        exact Dispatch.noConfusion h
      | none =>
        cases hupd : scanUPD (trim_crlf raw) with
        | some q =>
          obtain ⟨e1, s1⟩ := q
          exact ⟨rfl, e1, s1, rfl⟩
        | none =>
          rw [dispatch_line_unk hreq hupd hne] at h
          exact Dispatch.noConfusion h
  · rintro ⟨hreq, e, s, hupd⟩
    have hne : trim_crlf raw ≠ [] := by
      intro h0
      rw [h0] at hupd
      exact Option.noConfusion hupd
    exact ⟨e, s, dispatch_line_upd hreq hupd hne⟩
  · intro h
    by_cases hne : trim_crlf raw = []
    · rw [dispatch_line_empty hne] at h
      exact Dispatch.noConfusion h
    · cases hreq : scanREQ (trim_crlf raw) with
      | some p =>
        obtain ⟨a, b⟩ := p
        rw [dispatch_line_req hreq hne] at h
        exact Dispatch.noConfusion h
      | none =>
        cases hupd : scanUPD (trim_crlf raw) with
        | some q =>
          obtain ⟨e1, s1⟩ := q
          rw [dispatch_line_upd hreq hupd hne] at h
          exact Dispatch.noConfusion h
        | none => exact ⟨hne, rfl, rfl⟩
  · rintro ⟨hne, hreq, hupd⟩
    exact dispatch_line_unk hreq hupd hne

end Waze
